import Mathlib

/-!
Verification of the mc-nbt library (nbt-core.js, mca-handler.js, mc-nbt.js,
snbt-converter.js) against its natural-language specification.

Conventions of the shallow embedding:

* A Node.js `Buffer` is a `List Nat` of byte values.  `Buffer.readXxx` /
  `Buffer.writeXxx` calls are modelled with their argument-range checks:
  a call that throws `ERR_OUT_OF_RANGE` is modelled as `none`.
* JavaScript strings are identified with their UTF-8 byte sequences
  (`List Nat`); `Buffer.from(s, 'utf8')` and `buffer.toString('utf8', ...)`
  are then the identity on byte lists.
* IEEE-754 payloads (`float`, `double`) are carried as their bit patterns
  (a `Nat` below `2^32` resp. `2^64`); `readFloatBE`/`writeFloatBE` and the
  double variants move the bit pattern unchanged.
* JavaScript numbers holding integers are modelled as `Int` (exact).
* Reader loops whose termination depends on runtime data (compound payloads,
  text parsing) take a fuel parameter; the public entry points instantiate
  the fuel with the buffer length, which is shown sufficient for every
  writer-produced input.
-/

namespace MCNBT

/-! ## Byte-level primitives (Node Buffer semantics) -/

/-- Big-endian bytes of `u % 256^n`, exactly `n` bytes long. -/
def beBytes : Nat → Nat → List Nat
  | 0, _ => []
  | n+1, u => beBytes n (u / 256) ++ [u % 256]

/-- Value of a big-endian byte list. -/
def beVal (bs : List Nat) : Nat :=
  bs.foldl (fun acc b => acc * 256 + b) 0

theorem beBytes_length (n u : Nat) : (beBytes n u).length = n := by
  induction n generalizing u with
  | zero => rfl
  | succ n ih => simp [beBytes, ih]

theorem beVal_aux (bs : List Nat) (a : Nat) :
    bs.foldl (fun acc b => acc * 256 + b) a = a * 256 ^ bs.length + beVal bs := by
  induction bs generalizing a with
  | nil => simp [beVal]
  | cons b bs ih =>
    simp only [List.foldl_cons, List.length_cons, beVal]
    rw [ih (a * 256 + b), ih (0 * 256 + b)]
    ring

theorem beVal_append (xs : List Nat) (b : Nat) :
    beVal (xs ++ [b]) = beVal xs * 256 + b := by
  simp only [beVal, List.foldl_append, List.foldl_cons, List.foldl_nil]

theorem beVal_beBytes (n u : Nat) (h : u < 256 ^ n) :
    beVal (beBytes n u) = u := by
  induction n generalizing u with
  | zero =>
    have h1 : u = 0 := by
      have : (256 : Nat) ^ 0 = 1 := pow_zero 256
      omega
    subst h1
    rfl
  | succ n ih =>
    have hdiv : u / 256 < 256 ^ n := by
      have h2 : u < 256 * 256 ^ n := by
        have := pow_succ 256 n
        omega
      exact Nat.div_lt_of_lt_mul h2
    rw [beBytes, beVal_append, ih _ hdiv]
    omega

/-- All bytes produced by `beBytes` are genuine byte values. -/
theorem beBytes_lt (n u : Nat) : ∀ b ∈ beBytes n u, b < 256 := by
  induction n generalizing u with
  | zero => simp [beBytes]
  | succ n ih =>
    intro b hb
    rw [beBytes] at hb
    rcases List.mem_append.1 hb with h | h
    · exact ih _ b h
    · have : b = u % 256 := by simpa using h
      omega

/-- Half of the `n`-byte range, the positive bound of Node's signed writes. -/
def half (n : Nat) : Nat := 256 ^ n / 2

/-- `buffer.writeUIntBE`-style write of `n` bytes: Node range-checks the
value and throws (here: `none`) when it does not fit. -/
def writeUnsignedBE (n : Nat) (v : Nat) : Option (List Nat) :=
  if v < 256 ^ n then some (beBytes n v) else none

/-- `buffer.writeIntBE`-style signed write of `n` bytes (two's complement
big-endian); out-of-range values throw (`none`), as in Node. -/
def writeSignedBE (n : Nat) (v : Int) : Option (List Nat) :=
  if -((half n : Nat) : Int) ≤ v ∧ v < ((half n : Nat) : Int) then
    some (beBytes n (v % ((256 : Int) ^ n)).toNat)
  else none

/-- Reading `n` raw bytes at `off`; Node throws when the request leaves the
buffer (including negative offsets). -/
def getBytes (b : List Nat) (off : Int) (n : Nat) : Option (List Nat) :=
  if 0 ≤ off ∧ off.toNat + n ≤ b.length then some ((b.drop off.toNat).take n)
  else none

/-- `buffer.readUIntBE` of `n` bytes. -/
def readUnsignedBE (b : List Nat) (n : Nat) (off : Int) : Option (Nat × Int) := do
  let bs ← getBytes b off n
  pure (beVal bs, off + n)

/-- Two's-complement reinterpretation of an `n`-byte unsigned value. -/
def toSigned (n : Nat) (u : Nat) : Int :=
  if u < half n then (u : Int) else (u : Int) - ((256 : Int) ^ n)

/-- `buffer.readIntBE` of `n` bytes. -/
def readSignedBE (b : List Nat) (n : Nat) (off : Int) : Option (Int × Int) :=
  (readUnsignedBE b n off).map (fun p => (toSigned n p.1, p.2))

theorem writeSignedBE_length {n : Nat} {v : Int} {bs : List Nat}
    (h : writeSignedBE n v = some bs) : bs.length = n := by
  unfold writeSignedBE at h
  split at h
  · cases h; exact beBytes_length _ _
  · cases h

theorem writeUnsignedBE_length {n : Nat} {v : Nat} {bs : List Nat}
    (h : writeUnsignedBE n v = some bs) : bs.length = n := by
  unfold writeUnsignedBE at h
  split at h
  · cases h; exact beBytes_length _ _
  · cases h

theorem getBytes_of_append (pre mid post : List Nat) :
    getBytes (pre ++ (mid ++ post)) (pre.length : Int) mid.length = some mid := by
  unfold getBytes
  have h0 : ((pre.length : Int)).toNat = pre.length := Int.toNat_natCast _
  have hc : (0 : Int) ≤ (pre.length : Int) ∧
      ((pre.length : Int)).toNat + mid.length ≤ (pre ++ (mid ++ post)).length := by
    refine ⟨Int.natCast_nonneg _, ?_⟩
    rw [h0]
    simp only [List.length_append]
    omega
  rw [if_pos hc, h0, List.drop_left, List.take_left]

theorem readUnsignedBE_of_append (pre mid post : List Nat) :
    readUnsignedBE (pre ++ (mid ++ post)) mid.length (pre.length : Int)
      = some (beVal mid, (pre.length : Int) + mid.length) := by
  unfold readUnsignedBE
  rw [getBytes_of_append]
  rfl

theorem readUnsignedBE_of_append' (pre mid post : List Nat) {n : Nat}
    (h : mid.length = n) :
    readUnsignedBE (pre ++ (mid ++ post)) n (pre.length : Int)
      = some (beVal mid, (pre.length : Int) + n) := by
  subst h
  exact readUnsignedBE_of_append pre mid post

theorem half_facts (n : Nat) : 2 * half n ≤ 256 ^ n ∧ 256 ^ n ≤ 2 * half n + 1 := by
  unfold half
  omega

/-- Round trip of the signed codecs: reading back a written value at the
boundary between a prefix and the written bytes recovers the value. -/
theorem readSignedBE_writeSignedBE {n : Nat} {v : Int} {bs : List Nat}
    (h : writeSignedBE n v = some bs) (pre post : List Nat) :
    readSignedBE (pre ++ (bs ++ post)) n (pre.length : Int)
      = some (v, (pre.length : Int) + n) := by
  unfold writeSignedBE at h
  split at h
  case isFalse => cases h
  case isTrue hrange =>
    cases h
    have hM : (0 : Int) < (256 : Int) ^ n := by positivity
    have hmodge : (0 : Int) ≤ v % ((256 : Int) ^ n) := Int.emod_nonneg v (by positivity)
    have hmodlt : v % ((256 : Int) ^ n) < (256 : Int) ^ n := Int.emod_lt_of_pos v hM
    have hcast : ((256 ^ n : Nat) : Int) = (256 : Int) ^ n := by push_cast; ring
    have hhalf := half_facts n
    have hunat : (v % ((256 : Int) ^ n)).toNat < 256 ^ n := by omega
    have hlen : (beBytes n (v % ((256 : Int) ^ n)).toNat).length = n := beBytes_length _ _
    have hvmod : v % ((256 : Int) ^ n) = v ∨
        v % ((256 : Int) ^ n) = v + (256 : Int) ^ n := by
      by_cases hv : 0 ≤ v
      · left
        apply Int.emod_eq_of_lt hv
        have h1 := hrange.2
        omega
      · right
        push_neg at hv
        have h1 := hrange.1
        have hshift : (v + (256 : Int) ^ n) % ((256 : Int) ^ n) = v % ((256 : Int) ^ n) := by
          have h0 := Int.add_mul_emod_self_left (a := v) (b := (256 : Int) ^ n) (c := 1)
          simp only [mul_one] at h0
          exact h0
        rw [← hshift]
        apply Int.emod_eq_of_lt
        · omega
        · omega
    unfold readSignedBE
    rw [readUnsignedBE_of_append' _ _ _ hlen, Option.map_some']
    have hval : toSigned n (beVal (beBytes n (v % ((256 : Int) ^ n)).toNat)) = v := by
      rw [beVal_beBytes _ _ hunat]
      unfold toSigned
      split
      case isTrue hlt => omega
      case isFalse hge => omega
    simp only [hval]

/-- Round trip of the unsigned codecs. -/
theorem readUnsignedBE_writeUnsignedBE {n : Nat} {v : Nat} {bs : List Nat}
    (h : writeUnsignedBE n v = some bs) (pre post : List Nat) :
    readUnsignedBE (pre ++ (bs ++ post)) n (pre.length : Int)
      = some (v, (pre.length : Int) + n) := by
  unfold writeUnsignedBE at h
  split at h
  case isFalse => cases h
  case isTrue hlt =>
    cases h
    have hlen : (beBytes n v).length = n := beBytes_length _ _
    rw [readUnsignedBE_of_append' _ _ _ hlen, beVal_beBytes _ _ hlt]

/-! ## TBF tag model (nbt-core.js)

The JS tree uses `{type, value}` envelopes with lowercase type-name strings;
the embedding folds the canonical type string into the constructor.  List
payloads are bare values typed by the list's declared element variant; they
are carried here as `Tag`s whose constructor records that variant (a
constructor/variant mismatch corresponds to a JS payload of the wrong
shape, on which the writer throws). -/

/-- The thirteen wire variants (`TAG_TYPES`). -/
inductive TagType where
  | tEnd | tByte | tShort | tInt | tLong | tFloat | tDouble
  | tByteArray | tString | tList | tCompound | tIntArray | tLongArray
deriving DecidableEq, Repr

/-- Numeric wire id of a variant (`TAG_TYPES`). -/
def typeId : TagType → Nat
  | .tEnd => 0
  | .tByte => 1
  | .tShort => 2
  | .tInt => 3
  | .tLong => 4
  | .tFloat => 5
  | .tDouble => 6
  | .tByteArray => 7
  | .tString => 8
  | .tList => 9
  | .tCompound => 10
  | .tIntArray => 11
  | .tLongArray => 12

/-- Variant of a wire id (`TYPE_NAMES`); ids above 12 are unknown. -/
def typeOfId : Nat → Option TagType
  | 0 => some .tEnd
  | 1 => some .tByte
  | 2 => some .tShort
  | 3 => some .tInt
  | 4 => some .tLong
  | 5 => some .tFloat
  | 6 => some .tDouble
  | 7 => some .tByteArray
  | 8 => some .tString
  | 9 => some .tList
  | 10 => some .tCompound
  | 11 => some .tIntArray
  | 12 => some .tLongArray
  | _ => none

theorem typeOfId_typeId (t : TagType) : typeOfId (typeId t) = some t := by
  cases t <;> rfl

/-- The tag tree.  `End` is not a value (it has no constructor); it exists
only as the wire sentinel `TagType.tEnd`.  Compounds are insertion-ordered
association lists, as JS object key order is observable. -/
inductive Tag where
  | byte (v : Int)
  | short (v : Int)
  | int (v : Int)
  | long (v : Int)
  | float (bits : Nat)
  | double (bits : Nat)
  | byteArray (vs : List Int)
  | string (s : List Nat)
  | list (elem : TagType) (items : List Tag)
  | compound (entries : List (List Nat × Tag))
  | intArray (vs : List Int)
  | longArray (vs : List Int)

/-- The `type` string of a tag, as the corresponding variant. -/
def typeOf : Tag → TagType
  | .byte _ => .tByte
  | .short _ => .tShort
  | .int _ => .tInt
  | .long _ => .tLong
  | .float _ => .tFloat
  | .double _ => .tDouble
  | .byteArray _ => .tByteArray
  | .string _ => .tString
  | .list _ _ => .tList
  | .compound _ => .tCompound
  | .intArray _ => .tIntArray
  | .longArray _ => .tLongArray

mutual
/-- Boolean structural equality on tags. -/
def tagBeq : Tag → Tag → Bool
  | .byte a, .byte b => a == b
  | .short a, .short b => a == b
  | .int a, .int b => a == b
  | .long a, .long b => a == b
  | .float a, .float b => a == b
  | .double a, .double b => a == b
  | .byteArray a, .byteArray b => a == b
  | .string a, .string b => a == b
  | .list t₁ i₁, .list t₂ i₂ => t₁ == t₂ && itemsBeq i₁ i₂
  | .compound e₁, .compound e₂ => entriesBeq e₁ e₂
  | .intArray a, .intArray b => a == b
  | .longArray a, .longArray b => a == b
  | _, _ => false
termination_by structural t _ => t
def itemsBeq : List Tag → List Tag → Bool
  | [], [] => true
  | a :: as, b :: bs => tagBeq a b && itemsBeq as bs
  | _, _ => false
termination_by structural ts _ => ts
def entriesBeq : List (List Nat × Tag) → List (List Nat × Tag) → Bool
  | [], [] => true
  | (n₁, t₁) :: r₁, (n₂, t₂) :: r₂ => n₁ == n₂ && tagBeq t₁ t₂ && entriesBeq r₁ r₂
  | _, _ => false
termination_by structural es _ => es
end

mutual
theorem tagBeq_iff (a b : Tag) : tagBeq a b = true ↔ a = b := by
  cases a <;> cases b <;> try simp [tagBeq]
  case list.list t₁ i₁ t₂ i₂ =>
    simp [tagBeq, itemsBeq_iff i₁ i₂]
  case compound.compound e₁ e₂ =>
    simp [tagBeq, entriesBeq_iff e₁ e₂]
termination_by structural a
theorem itemsBeq_iff (xs ys : List Tag) : itemsBeq xs ys = true ↔ xs = ys := by
  match xs, ys with
  | [], [] => simp [itemsBeq]
  | [], _ :: _ => simp [itemsBeq]
  | _ :: _, [] => simp [itemsBeq]
  | a :: as, b :: bs =>
    simp [itemsBeq, tagBeq_iff a b, itemsBeq_iff as bs]
termination_by structural xs
theorem entriesBeq_iff (xs ys : List (List Nat × Tag)) :
    entriesBeq xs ys = true ↔ xs = ys := by
  match xs, ys with
  | [], [] => simp [entriesBeq]
  | [], _ :: _ => simp [entriesBeq]
  | _ :: _, [] => simp [entriesBeq]
  | (n₁, t₁) :: r₁, (n₂, t₂) :: r₂ =>
    simp [entriesBeq, tagBeq_iff t₁ t₂, entriesBeq_iff r₁ r₂]
termination_by structural xs
end

instance : DecidableEq Tag := fun a b =>
  decidable_of_iff (tagBeq a b = true) (tagBeq_iff a b)

/-- A top-level named tag: what `NBT.parse` returns and `NBT.stringify`
consumes (`{type, name, value}`). -/
structure Doc where
  name : List Nat
  tag : Tag
deriving DecidableEq

/-! ## TBF writer (`NBTWriter`, nbt-core.js) -/

/-- `NBTWriter.writeString`: the byte length is written with `writeShort`
(signed 16-bit), so strings longer than 32767 bytes make Node throw. -/
def writeStringJS (s : List Nat) : Option (List Nat) := do
  let ln ← writeSignedBE 2 (s.length : Int)
  pure (ln ++ s)

/-- One signed big-endian value per element (`writeByteArray` /
`writeIntArray` / `writeLongArray` element loops). -/
def writeAllSigned (n : Nat) : List Int → Option (List Nat)
  | [] => some []
  | v :: vs => do
      let b ← writeSignedBE n v
      let bs ← writeAllSigned n vs
      pure (b ++ bs)

mutual
/-- `NBTWriter.writeTagValue` (dispatch plus the per-variant writers).
`writeLong` converts with `BigInt(value)` and `writeBigInt64BE` range-checks
at 64 bits; the float/double payloads are bit patterns written verbatim. -/
def writeTagValue : Tag → Option (List Nat)
  | .byte v => writeSignedBE 1 v
  | .short v => writeSignedBE 2 v
  | .int v => writeSignedBE 4 v
  | .long v => writeSignedBE 8 v
  | .float bits => writeUnsignedBE 4 bits
  | .double bits => writeUnsignedBE 8 bits
  | .byteArray vs => do
      let hd ← writeSignedBE 4 (vs.length : Int)
      let body ← writeAllSigned 1 vs
      pure (hd ++ body)
  | .string s => writeStringJS s
  | .list t items =>
      -- `writeList`: an empty list writes elem id End (0) and length 0
      -- without consulting the declared element type.
      if items.length = 0 then do
        let hd ← writeUnsignedBE 1 0
        let ln ← writeSignedBE 4 0
        pure (hd ++ ln)
      else do
        let hd ← writeUnsignedBE 1 (typeId t)
        let ln ← writeSignedBE 4 (items.length : Int)
        let body ← writeItems t items
        pure (hd ++ ln ++ body)
  | .compound es => writeEntries es
  | .intArray vs => do
      let hd ← writeSignedBE 4 (vs.length : Int)
      let body ← writeAllSigned 4 vs
      pure (hd ++ body)
  | .longArray vs => do
      let hd ← writeSignedBE 4 (vs.length : Int)
      let body ← writeAllSigned 8 vs
      pure (hd ++ body)
termination_by structural t => t
/-- The `writeList` element loop: each item is written through
`writeTagValue(list.type, item)`; an item whose shape does not match the
declared element variant makes the underlying Node write throw. -/
def writeItems : TagType → List Tag → Option (List Nat)
  | _, [] => some []
  | t, it :: rest => do
      let b ← if typeOf it = t then writeTagValue it else none
      let bs ← writeItems t rest
      pure (b ++ bs)
termination_by structural _ ts => ts
/-- The `writeCompound` loop: id byte, name, payload per entry, then a lone
End byte. -/
def writeEntries : List (List Nat × Tag) → Option (List Nat)
  | [] => writeUnsignedBE 1 0
  | (name, tg) :: rest => do
      let hd ← writeUnsignedBE 1 (typeId (typeOf tg))
      let nm ← writeStringJS name
      let pl ← writeTagValue tg
      let bs ← writeEntries rest
      pure (hd ++ nm ++ pl ++ bs)
termination_by structural es => es
end

/-- `NBTWriter.writeTag`: id byte, name, payload. -/
def writeNamedTag (tg : Tag) (name : List Nat) : Option (List Nat) := do
  let hd ← writeUnsignedBE 1 (typeId (typeOf tg))
  let nm ← writeStringJS name
  let pl ← writeTagValue tg
  pure (hd ++ nm ++ pl)

/-- `NBT.stringify`: writes the outer tag with `nbtData.name || ''`. -/
def stringify (d : Doc) : Option (List Nat) :=
  writeNamedTag d.tag d.name

/-! ## TBF reader (`NBTReader`, nbt-core.js) -/

/-- `NBTReader.readString`: the length is read with `readShort` (signed);
`buffer.toString('utf8', start, end)` clamps its bounds and returns the
empty slice when `end ≤ start`, while `this.offset` still advances by
`length`. -/
def readStringJS (b : List Nat) (off : Int) : Option (List Nat × Int) := do
  let (len, off1) ← readSignedBE b 2 off
  if len = 0 then pure ([], off1)
  else
    let lo := max off1 0
    let hi := min (off1 + len) (b.length : Int)
    let bytes := if lo < hi then (b.drop lo.toNat).take (hi - lo).toNat else []
    pure (bytes, off1 + len)

/-- Element loop shared by `readByteArray` / `readIntArray` /
`readLongArray`. -/
def readSignedArray (b : List Nat) (n : Nat) : Nat → Int → Option (List Int × Int)
  | 0, off => some ([], off)
  | k+1, off => do
      let (v, off1) ← readSignedBE b n off
      let (rest, off2) ← readSignedArray b n k off1
      pure (v :: rest, off2)

/-- `len: i32` header then `len` elements; a negative length runs the loop
zero times. -/
def readArrayJS (b : List Nat) (n : Nat) (off : Int) : Option (List Int × Int) := do
  let (len, off1) ← readSignedBE b 4 off
  readSignedArray b n len.toNat off1

mutual
/-- `NBTReader.readTagValue`.  The `switch` has no case for End or unknown
ids: both throw (`none`).  The fuel bounds the recursion; every call from a
caller with fuel at least `needTag` of the value being read succeeds, and
the entry point uses the buffer length, which `need_le` below shows is
always enough on writer output. -/
def readTagValue (b : List Nat) : Nat → TagType → Int → Option (Tag × Int)
  | _, .tEnd, _ => none
  | _, .tByte, off => (readSignedBE b 1 off).map (fun p => (.byte p.1, p.2))
  | _, .tShort, off => (readSignedBE b 2 off).map (fun p => (.short p.1, p.2))
  | _, .tInt, off => (readSignedBE b 4 off).map (fun p => (.int p.1, p.2))
  | _, .tLong, off => (readSignedBE b 8 off).map (fun p => (.long p.1, p.2))
  | _, .tFloat, off => (readUnsignedBE b 4 off).map (fun p => (.float p.1, p.2))
  | _, .tDouble, off => (readUnsignedBE b 8 off).map (fun p => (.double p.1, p.2))
  | _, .tByteArray, off => (readArrayJS b 1 off).map (fun p => (.byteArray p.1, p.2))
  | _, .tString, off => (readStringJS b off).map (fun p => (.string p.1, p.2))
  | 0, .tList, _ => none
  | fuel+1, .tList, off => do
      -- `readList`: elem id byte, i32 length, then bare payloads.  For an
      -- unknown elem id the JS code would only fail on a positive length
      -- (`TYPE_NAMES[id]` is undefined but unused otherwise); that corner
      -- is unreachable from the writer and modelled as failure.
      let (tid, off1) ← readUnsignedBE b 1 off
      let (len, off2) ← readSignedBE b 4 off1
      let t ← typeOfId tid
      let (items, off3) ← readItems b fuel t len.toNat off2
      pure (.list t items, off3)
  | 0, .tCompound, _ => none
  | fuel+1, .tCompound, off =>
      (readEntries b fuel off).map (fun p => (.compound p.1, p.2))
  | _, .tIntArray, off => (readArrayJS b 4 off).map (fun p => (.intArray p.1, p.2))
  | _, .tLongArray, off => (readArrayJS b 8 off).map (fun p => (.longArray p.1, p.2))
termination_by structural fuel _ _ => fuel
/-- The `readList` element loop. -/
def readItems (b : List Nat) : Nat → TagType → Nat → Int → Option (List Tag × Int)
  | _, _, 0, off => some ([], off)
  | 0, _, _+1, _ => none
  | fuel+1, t, n+1, off => do
      let (tg, off1) ← readTagValue b fuel t off
      let (rest, off2) ← readItems b fuel t n off1
      pure (tg :: rest, off2)
termination_by structural fuel _ _ _ => fuel
/-- The `readCompound` loop: named tags until a lone End id byte. -/
def readEntries (b : List Nat) : Nat → Int → Option (List (List Nat × Tag) × Int)
  | 0, _ => none
  | fuel+1, off => do
      let (tid, off1) ← readUnsignedBE b 1 off
      if tid = 0 then pure ([], off1)
      else do
        let (name, off2) ← readStringJS b off1
        let t ← typeOfId tid
        let (tg, off3) ← readTagValue b fuel t off2
        let (rest, off4) ← readEntries b fuel off3
        pure ((name, tg) :: rest, off4)
termination_by structural fuel _ => fuel
end

/-- Result of `NBTReader.readTag()`: a lone End id yields `{type:'end'}`
with no name, otherwise a named tag. -/
inductive ReadTag where
  | endTag
  | named (name : List Nat) (tag : Tag)
deriving DecidableEq

/-- `NBTReader.readTag()` as called with no arguments. -/
def readNamedTag (b : List Nat) (fuel : Nat) (off : Int) : Option (ReadTag × Int) := do
  let (tid, off1) ← readUnsignedBE b 1 off
  if tid = 0 then pure (.endTag, off1)
  else do
    let (name, off2) ← readStringJS b off1
    let t ← typeOfId tid
    let (tg, off3) ← readTagValue b fuel t off2
    pure (.named name tg, off3)

/-- `NBT.parse`: one named tag from offset 0; trailing bytes are ignored.
The fuel `b.length` is sufficient for every writer-produced buffer. -/
def parse (b : List Nat) : Option ReadTag :=
  (readNamedTag b b.length 0).map Prod.fst

/-- Node/spec range for an `n`-byte signed value (byte/short/int/long for
`n` = 1/2/4/8). -/
def inRange (n : Nat) (v : Int) : Bool :=
  decide (-((half n : Nat) : Int) ≤ v) && decide (v < ((half n : Nat) : Int))

/-! ## Segment-at-offset infrastructure for the round-trip proofs -/

/-- `seg` occupies the buffer at byte offset `off`. -/
def SegAt (buf : List Nat) (off : Int) (seg : List Nat) : Prop :=
  ∃ pre post, buf = pre ++ (seg ++ post) ∧ off = (pre.length : Int)

theorem SegAt.left {buf : List Nat} {off : Int} {a b : List Nat}
    (h : SegAt buf off (a ++ b)) : SegAt buf off a := by
  obtain ⟨pre, post, hb, ho⟩ := h
  exact ⟨pre, b ++ post, by rw [hb]; simp [List.append_assoc], ho⟩

theorem SegAt.right {buf : List Nat} {off : Int} {a b : List Nat}
    (h : SegAt buf off (a ++ b)) : SegAt buf (off + (a.length : Int)) b := by
  obtain ⟨pre, post, hb, ho⟩ := h
  refine ⟨pre ++ a, post, by rw [hb]; simp [List.append_assoc], ?_⟩
  simp [ho]

theorem readUnsignedBE_at {n : Nat} {v : Nat} {bs buf : List Nat} {off : Int}
    (hw : writeUnsignedBE n v = some bs) (hs : SegAt buf off bs) :
    readUnsignedBE buf n off = some (v, off + n) := by
  obtain ⟨pre, post, hb, ho⟩ := hs
  subst hb
  subst ho
  exact readUnsignedBE_writeUnsignedBE hw pre post

theorem readSignedBE_at {n : Nat} {v : Int} {bs buf : List Nat} {off : Int}
    (hw : writeSignedBE n v = some bs) (hs : SegAt buf off bs) :
    readSignedBE buf n off = some (v, off + n) := by
  obtain ⟨pre, post, hb, ho⟩ := hs
  subst hb
  subst ho
  exact readSignedBE_writeSignedBE hw pre post

theorem inRange_natCast {n k : Nat} (h : k < half n) :
    inRange n ((k : Nat) : Int) = true := by
  unfold inRange
  simp only [Bool.and_eq_true, decide_eq_true_eq]
  omega

theorem writeSignedBE_of_inRange {n : Nat} {v : Int} (h : inRange n v = true) :
    ∃ bs, writeSignedBE n v = some bs ∧ bs.length = n := by
  unfold inRange at h
  simp only [Bool.and_eq_true, decide_eq_true_eq] at h
  unfold writeSignedBE
  rw [if_pos h]
  exact ⟨_, rfl, beBytes_length _ _⟩

theorem writeUnsignedBE_of_lt {n v : Nat} (h : v < 256 ^ n) :
    ∃ bs, writeUnsignedBE n v = some bs ∧ bs.length = n := by
  unfold writeUnsignedBE
  rw [if_pos h]
  exact ⟨_, rfl, beBytes_length _ _⟩

/-- Writing a string succeeds exactly on byte lengths the signed 16-bit
length field accepts. -/
theorem writeStringJS_of_le {s : List Nat} (h : s.length ≤ 32767) :
    ∃ bs, writeStringJS s = some bs ∧ bs.length = 2 + s.length := by
  have hr : inRange 2 ((s.length : Nat) : Int) = true := by
    apply inRange_natCast
    unfold half
    omega
  obtain ⟨ln, hln, hlen⟩ := writeSignedBE_of_inRange hr
  refine ⟨ln ++ s, ?_, by simp [hlen]⟩
  unfold writeStringJS
  rw [hln]
  rfl

theorem readStringJS_at {s bs buf : List Nat} {off : Int}
    (hw : writeStringJS s = some bs) (hs : SegAt buf off bs) :
    readStringJS buf off = some (s, off + bs.length) := by
  unfold writeStringJS at hw
  cases hln : writeSignedBE 2 ((s.length : Nat) : Int) with
  | none => rw [hln] at hw; cases hw
  | some ln =>
    rw [hln] at hw
    simp only [Option.bind_eq_bind, Option.some_bind, Option.pure_def,
      Option.some.injEq] at hw
    subst hw
    have hlen2 : ln.length = 2 := writeSignedBE_length hln
    obtain ⟨pre, post, hb, ho⟩ := hs
    rw [List.append_assoc ln s post] at hb
    subst hb
    subst ho
    unfold readStringJS
    rw [readSignedBE_writeSignedBE hln pre (s ++ post)]
    simp only [Option.bind_eq_bind, Option.some_bind]
    by_cases h0 : (s.length : Int) = 0
    · have hs0 : s = [] := by
        have : s.length = 0 := by exact_mod_cast h0
        exact List.length_eq_zero.mp this
      subst hs0
      rw [if_pos h0]
      simp [hlen2]
    · rw [if_neg h0]
      have hpos : 0 < s.length := by
        rcases Nat.eq_zero_or_pos s.length with h | h
        · exact absurd (by exact_mod_cast h) h0
        · exact h
      push_cast
      simp only [Option.pure_def]
      have htotN : (pre ++ (ln ++ (s ++ post))).length
          = pre.length + 2 + s.length + post.length := by
        simp [hlen2]
        omega
      have hlo : max ((pre.length : Int) + 2) 0 = (pre.length : Int) + 2 := by
        omega
      have hhi : min ((pre.length : Int) + 2 + s.length)
          ((pre ++ (ln ++ (s ++ post))).length : Int)
          = (pre.length : Int) + 2 + s.length := by
        rw [htotN]
        push_cast
        omega
      rw [hlo, hhi]
      have hsz : ((pre.length : Int) + 2 + s.length - ((pre.length : Int) + 2)).toNat
          = s.length := by omega
      have hdrop : ((pre.length : Int) + 2).toNat = (pre ++ ln).length := by
        simp [hlen2]
        omega
      rw [if_pos (by omega : (pre.length : Int) + 2 < (pre.length : Int) + 2 + s.length)]
      rw [hsz, hdrop]
      have hassoc : pre ++ (ln ++ (s ++ post)) = (pre ++ ln) ++ (s ++ post) := by
        simp [List.append_assoc]
      rw [hassoc, List.drop_left, List.take_left]
      have hfin : ((ln ++ s).length : Int) = 2 + s.length := by
        simp [hlen2]
      rw [hfin]
      ring_nf

/-- Element-array write: success, the byte length, and the read-back. -/
theorem writeAllSigned_spec {n : Nat} {vs : List Int}
    (h : vs.all (fun v => inRange n v) = true) :
    ∃ bs, writeAllSigned n vs = some bs ∧ bs.length = n * vs.length ∧
      ∀ buf off, SegAt buf off bs →
        readSignedArray buf n vs.length off = some (vs, off + bs.length) := by
  induction vs with
  | nil =>
    refine ⟨[], rfl, by simp, ?_⟩
    intro buf off _
    simp [readSignedArray]
  | cons v vs ih =>
    simp only [List.all_cons, Bool.and_eq_true] at h
    obtain ⟨b1, hb1, hlen1⟩ := writeSignedBE_of_inRange h.1
    obtain ⟨rest, hrest, hlenr, hread⟩ := ih h.2
    refine ⟨b1 ++ rest, ?_, ?_, ?_⟩
    · unfold writeAllSigned
      rw [hb1, hrest]
      rfl
    · simp [hlen1, hlenr]
      ring
    · intro buf off hs
      show readSignedArray buf n (vs.length + 1) off = _
      unfold readSignedArray
      rw [readSignedBE_at hb1 hs.left]
      simp only [Option.bind_eq_bind, Option.some_bind]
      have hr := hread buf (off + (b1.length : Int)) (by
        have := hs.right
        exact this)
      rw [hlen1] at hr
      rw [hr]
      simp only [Option.some_bind]
      simp [hlen1]
      ring

/-- `len: i32` header plus elements (the three array payload writers). -/
theorem readArrayJS_write {n : Nat} {vs : List Int} {hd body buf : List Nat} {off : Int}
    (hhd : writeSignedBE 4 ((vs.length : Nat) : Int) = some hd)
    (hread : ∀ buf off, SegAt buf off body →
      readSignedArray buf n vs.length off = some (vs, off + body.length))
    (hs : SegAt buf off (hd ++ body)) :
    readArrayJS buf n off = some (vs, off + (hd.length : Int) + body.length) := by
  unfold readArrayJS
  rw [readSignedBE_at hhd hs.left]
  simp only [Option.bind_eq_bind, Option.some_bind]
  have h4 : hd.length = 4 := writeSignedBE_length hhd
  have htn : ((vs.length : Nat) : Int).toNat = vs.length := Int.toNat_natCast _
  rw [htn]
  have := hread buf (off + (hd.length : Int)) hs.right
  rw [h4] at this ⊢
  exact this

/-! ## Validity predicates -/

/-- A byte value. -/
def byteOk (c : Nat) : Bool := decide (c < 256)

mutual
/-- spec §3 well-formedness of a tag value ("valid Document"): numeric
ranges per variant, string byte length at most 65535, homogeneous lists
with declared element variant (Byte for an empty list), unique compound
keys, no End values. -/
def specValidTag : Tag → Bool
  | .byte v => inRange 1 v
  | .short v => inRange 2 v
  | .int v => inRange 4 v
  | .long v => inRange 8 v
  | .float bits => decide (bits < 2 ^ 32)
  | .double bits => decide (bits < 2 ^ 64)
  | .byteArray vs => decide (vs.length < 2 ^ 31) && vs.all (fun v => inRange 1 v)
  | .string s => decide (s.length ≤ 65535) && s.all byteOk
  | .list t items =>
      decide (items.length < 2 ^ 31) &&
      (if items.isEmpty then decide (t = .tByte)
       else decide (t ≠ .tEnd) && specValidItems t items)
  | .compound es => decide ((es.map Prod.fst).Nodup) && specValidEntries es
  | .intArray vs => decide (vs.length < 2 ^ 31) && vs.all (fun v => inRange 4 v)
  | .longArray vs => decide (vs.length < 2 ^ 31) && vs.all (fun v => inRange 8 v)
termination_by structural t => t
def specValidItems : TagType → List Tag → Bool
  | _, [] => true
  | t, it :: rest => decide (typeOf it = t) && specValidTag it && specValidItems t rest
termination_by structural _ ts => ts
def specValidEntries : List (List Nat × Tag) → Bool
  | [] => true
  | (name, tg) :: rest =>
      decide (name.length ≤ 65535) && name.all byteOk && specValidTag tg &&
      specValidEntries rest
termination_by structural es => es
end

/-- spec §3 validity of a whole Document (outer name included). -/
def specValidDoc (d : Doc) : Bool :=
  decide (d.name.length ≤ 65535) && d.name.all byteOk && specValidTag d.tag

mutual
/-- Emit-safety: the fragment of spec validity on which the writer succeeds
and the written bytes read back to the same tree — strings and keys at most
32767 bytes (`writeShort`'s signed length bound) and no empty lists (the
wire form drops an empty list's element variant). -/
def rtValidTag : Tag → Bool
  | .byte v => inRange 1 v
  | .short v => inRange 2 v
  | .int v => inRange 4 v
  | .long v => inRange 8 v
  | .float bits => decide (bits < 2 ^ 32)
  | .double bits => decide (bits < 2 ^ 64)
  | .byteArray vs => decide (vs.length < 2 ^ 31) && vs.all (fun v => inRange 1 v)
  | .string s => decide (s.length ≤ 32767) && s.all byteOk
  | .list t items =>
      decide (items.length < 2 ^ 31) && decide (items ≠ []) &&
      decide (t ≠ .tEnd) && rtValidItems t items
  | .compound es => decide ((es.map Prod.fst).Nodup) && rtValidEntries es
  | .intArray vs => decide (vs.length < 2 ^ 31) && vs.all (fun v => inRange 4 v)
  | .longArray vs => decide (vs.length < 2 ^ 31) && vs.all (fun v => inRange 8 v)
termination_by structural t => t
def rtValidItems : TagType → List Tag → Bool
  | _, [] => true
  | t, it :: rest => decide (typeOf it = t) && rtValidTag it && rtValidItems t rest
termination_by structural _ ts => ts
def rtValidEntries : List (List Nat × Tag) → Bool
  | [] => true
  | (name, tg) :: rest =>
      decide (name.length ≤ 32767) && name.all byteOk && rtValidTag tg &&
      rtValidEntries rest
termination_by structural es => es
end

/-- Emit-safety of a Document. -/
def rtValidDoc (d : Doc) : Bool :=
  decide (d.name.length ≤ 32767) && d.name.all byteOk && rtValidTag d.tag

mutual
/-- Fuel needed by `readTagValue` to read back this tag's payload. -/
def needTag : Tag → Nat
  | .list _ items => 1 + needItems items
  | .compound es => 1 + needEntries es
  | _ => 0
termination_by structural t => t
def needItems : List Tag → Nat
  | [] => 0
  | it :: rest => 1 + max (needTag it) (needItems rest)
termination_by structural ts => ts
def needEntries : List (List Nat × Tag) → Nat
  | [] => 1
  | (_, tg) :: rest => 1 + max (needTag tg) (needEntries rest)
termination_by structural es => es
end

/-! ## The TBF round trip -/

theorem SegAt.congr_off {buf seg : List Nat} {o1 o2 : Int}
    (h : SegAt buf o1 seg) (e : o1 = o2) : SegAt buf o2 seg := e ▸ h

theorem typeId_lt (t : TagType) : typeId t < 256 := by
  cases t <;> simp [typeId]

theorem typeId_typeOf_ne (tg : Tag) : ¬ typeId (typeOf tg) = 0 := by
  cases tg <;> simp [typeOf, typeId]

theorem half4_eq : half 4 = 2 ^ 31 := by norm_num [half]

theorem half2_eq : half 2 = 32768 := by norm_num [half]

theorem pow256_4 : (256 : Nat) ^ 4 = 2 ^ 32 := by norm_num

theorem pow256_8 : (256 : Nat) ^ 8 = 2 ^ 64 := by norm_num

mutual
/-- Writer/reader round trip for one tag payload: on the emit-safe fragment
the writer succeeds, the payload is non-empty, `needTag` is nearly bounded
by the payload length, and reading the payload back from anywhere in a
buffer returns the same tag. -/
theorem writeTagValue_read (t : Tag) (h : rtValidTag t = true) :
    ∃ bs, writeTagValue t = some bs ∧ 1 ≤ bs.length ∧ needTag t ≤ bs.length + 1 ∧
      ∀ buf off fuel, needTag t ≤ fuel → SegAt buf off bs →
        readTagValue buf fuel (typeOf t) off = some (t, off + bs.length) := by
  cases t with
  | byte v =>
    rw [rtValidTag] at h
    obtain ⟨bs, hw, hlen⟩ := writeSignedBE_of_inRange h
    refine ⟨bs, by simpa [writeTagValue] using hw, by omega, by simp [needTag], ?_⟩
    intro buf off fuel _ hs
    simp only [readTagValue, typeOf]
    rw [readSignedBE_at hw hs, hlen]
    rfl
  | short v =>
    rw [rtValidTag] at h
    obtain ⟨bs, hw, hlen⟩ := writeSignedBE_of_inRange h
    refine ⟨bs, by simpa [writeTagValue] using hw, by omega, by simp [needTag], ?_⟩
    intro buf off fuel _ hs
    simp only [readTagValue, typeOf]
    rw [readSignedBE_at hw hs, hlen]
    rfl
  | int v =>
    rw [rtValidTag] at h
    obtain ⟨bs, hw, hlen⟩ := writeSignedBE_of_inRange h
    refine ⟨bs, by simpa [writeTagValue] using hw, by omega, by simp [needTag], ?_⟩
    intro buf off fuel _ hs
    simp only [readTagValue, typeOf]
    rw [readSignedBE_at hw hs, hlen]
    rfl
  | long v =>
    rw [rtValidTag] at h
    obtain ⟨bs, hw, hlen⟩ := writeSignedBE_of_inRange h
    refine ⟨bs, by simpa [writeTagValue] using hw, by omega, by simp [needTag], ?_⟩
    intro buf off fuel _ hs
    simp only [readTagValue, typeOf]
    rw [readSignedBE_at hw hs, hlen]
    rfl
  | float bits =>
    rw [rtValidTag] at h
    simp only [decide_eq_true_eq] at h
    obtain ⟨bs, hw, hlen⟩ := writeUnsignedBE_of_lt (n := 4) (v := bits) (by rw [pow256_4]; omega)
    refine ⟨bs, by simpa [writeTagValue] using hw, by omega, by simp [needTag], ?_⟩
    intro buf off fuel _ hs
    simp only [readTagValue, typeOf]
    rw [readUnsignedBE_at hw hs, hlen]
    rfl
  | double bits =>
    rw [rtValidTag] at h
    simp only [decide_eq_true_eq] at h
    obtain ⟨bs, hw, hlen⟩ := writeUnsignedBE_of_lt (n := 8) (v := bits) (by rw [pow256_8]; omega)
    refine ⟨bs, by simpa [writeTagValue] using hw, by omega, by simp [needTag], ?_⟩
    intro buf off fuel _ hs
    simp only [readTagValue, typeOf]
    rw [readUnsignedBE_at hw hs, hlen]
    rfl
  | byteArray vs =>
    rw [rtValidTag] at h
    simp only [Bool.and_eq_true, decide_eq_true_eq] at h
    obtain ⟨hd, hhd, hhdlen⟩ := writeSignedBE_of_inRange
      (inRange_natCast (n := 4) (k := vs.length) (by rw [half4_eq]; omega))
    obtain ⟨body, hbody, hbodylen, hread⟩ := writeAllSigned_spec h.2
    refine ⟨hd ++ body, ?_, by simp [hhdlen]; omega, by simp [needTag], ?_⟩
    · simp only [writeTagValue, hhd, hbody, Option.bind_eq_bind, Option.some_bind]
      rfl
    · intro buf off fuel _ hs
      simp only [readTagValue, typeOf]
      rw [readArrayJS_write hhd hread hs, Option.map_some']
      have hofs : off + (hd.length : Int) + (body.length : Int)
          = off + ((hd ++ body).length : Int) := by
        push_cast [List.length_append]
        ring
      rw [hofs]
  | intArray vs =>
    rw [rtValidTag] at h
    simp only [Bool.and_eq_true, decide_eq_true_eq] at h
    obtain ⟨hd, hhd, hhdlen⟩ := writeSignedBE_of_inRange
      (inRange_natCast (n := 4) (k := vs.length) (by rw [half4_eq]; omega))
    obtain ⟨body, hbody, hbodylen, hread⟩ := writeAllSigned_spec h.2
    refine ⟨hd ++ body, ?_, by simp [hhdlen]; omega, by simp [needTag], ?_⟩
    · simp only [writeTagValue, hhd, hbody, Option.bind_eq_bind, Option.some_bind]
      rfl
    · intro buf off fuel _ hs
      simp only [readTagValue, typeOf]
      rw [readArrayJS_write hhd hread hs, Option.map_some']
      have hofs : off + (hd.length : Int) + (body.length : Int)
          = off + ((hd ++ body).length : Int) := by
        push_cast [List.length_append]
        ring
      rw [hofs]
  | longArray vs =>
    rw [rtValidTag] at h
    simp only [Bool.and_eq_true, decide_eq_true_eq] at h
    obtain ⟨hd, hhd, hhdlen⟩ := writeSignedBE_of_inRange
      (inRange_natCast (n := 4) (k := vs.length) (by rw [half4_eq]; omega))
    obtain ⟨body, hbody, hbodylen, hread⟩ := writeAllSigned_spec h.2
    refine ⟨hd ++ body, ?_, by simp [hhdlen]; omega, by simp [needTag], ?_⟩
    · simp only [writeTagValue, hhd, hbody, Option.bind_eq_bind, Option.some_bind]
      rfl
    · intro buf off fuel _ hs
      simp only [readTagValue, typeOf]
      rw [readArrayJS_write hhd hread hs, Option.map_some']
      have hofs : off + (hd.length : Int) + (body.length : Int)
          = off + ((hd ++ body).length : Int) := by
        push_cast [List.length_append]
        ring
      rw [hofs]
  | string s =>
    rw [rtValidTag] at h
    simp only [Bool.and_eq_true, decide_eq_true_eq] at h
    obtain ⟨bs, hw, hlen⟩ := writeStringJS_of_le h.1
    refine ⟨bs, by simpa [writeTagValue] using hw, by omega, by simp [needTag], ?_⟩
    intro buf off fuel _ hs
    simp only [readTagValue, typeOf]
    rw [readStringJS_at hw hs]
    rfl
  | list et items =>
    rw [rtValidTag] at h
    simp only [Bool.and_eq_true, decide_eq_true_eq] at h
    obtain ⟨⟨⟨hlen31, hne⟩, hnEnd⟩, hitems⟩ := h
    obtain ⟨hd, hhd, hhdlen⟩ :=
      writeUnsignedBE_of_lt (n := 1) (v := typeId et) (by simpa using typeId_lt et)
    obtain ⟨ln, hln, hlnlen⟩ := writeSignedBE_of_inRange
      (inRange_natCast (n := 4) (k := items.length) (by rw [half4_eq]; omega))
    obtain ⟨body, hbody, hbneed, hread⟩ := writeItems_read et items hitems
    have hlen0 : ¬ items.length = 0 := by
      cases items with
      | nil => exact absurd rfl hne
      | cons a as => simp
    refine ⟨hd ++ ln ++ body, ?_, by simp [hhdlen, hlnlen], ?_, ?_⟩
    · simp only [writeTagValue, if_neg hlen0, hhd, hln, hbody,
        Option.bind_eq_bind, Option.some_bind]
      rfl
    · simp only [needTag, List.length_append, hhdlen, hlnlen]
      omega
    · intro buf off fuel hfuel hs
      simp only [needTag] at hfuel
      cases fuel with
      | zero => omega
      | succ f =>
        have hf : needItems items ≤ f := by omega
        simp only [readTagValue, typeOf]
        have r1 : readUnsignedBE buf 1 off = some (typeId et, off + 1) := by
          have := readUnsignedBE_at hhd hs.left.left
          push_cast at this
          exact this
        have r2 : readSignedBE buf 4 (off + 1)
            = some ((items.length : Int), off + 1 + 4) := by
          have hseg := hs.left.right.congr_off
            (show off + ((hd.length : Nat) : Int) = off + 1 by rw [hhdlen]; push_cast; ring)
          have := readSignedBE_at hln hseg
          push_cast at this
          exact this
        have r3 : readItems buf f et items.length (off + 1 + 4)
            = some (items, off + 1 + 4 + (body.length : Int)) := by
          apply hread buf (off + 1 + 4) f hf
          apply hs.right.congr_off
          rw [List.length_append, hhdlen, hlnlen]
          push_cast
          ring
        rw [r1]
        simp only [Option.bind_eq_bind, Option.some_bind]
        rw [r2]
        simp only [Option.some_bind]
        rw [typeOfId_typeId]
        simp only [Option.some_bind]
        rw [Int.toNat_natCast]
        rw [r3]
        simp only [Option.some_bind]
        have hofs : off + 1 + 4 + (body.length : Int)
            = off + ((hd ++ ln ++ body).length : Int) := by
          simp only [List.length_append, hhdlen, hlnlen]
          push_cast
          ring
        rw [hofs]
        rfl
  | compound es =>
    rw [rtValidTag] at h
    simp only [Bool.and_eq_true, decide_eq_true_eq] at h
    obtain ⟨bs, hw, h1, hneed, hread⟩ := writeEntries_read es h.2
    refine ⟨bs, by simpa [writeTagValue] using hw, h1, by simp [needTag]; omega, ?_⟩
    intro buf off fuel hfuel hs
    simp only [needTag] at hfuel
    cases fuel with
    | zero => omega
    | succ f =>
      simp only [readTagValue, typeOf]
      rw [hread buf off f (by omega) hs]
      rfl
termination_by structural t
theorem writeItems_read (et : TagType) (items : List Tag) (h : rtValidItems et items = true) :
    ∃ bs, writeItems et items = some bs ∧
      needItems items ≤ bs.length + 2 ∧
      ∀ buf off fuel, needItems items ≤ fuel → SegAt buf off bs →
        readItems buf fuel et items.length off = some (items, off + bs.length) := by
  cases items with
  | nil =>
    refine ⟨[], rfl, by simp [needItems], ?_⟩
    intro buf off fuel _ _
    simp [readItems]
  | cons it rest =>
    rw [rtValidItems] at h
    simp only [Bool.and_eq_true, decide_eq_true_eq] at h
    obtain ⟨⟨hty, hv⟩, hr⟩ := h
    obtain ⟨b1, hw1, hpos1, hneed1, hread1⟩ := writeTagValue_read it hv
    obtain ⟨bsr, hwr, hneedr, hreadr⟩ := writeItems_read et rest hr
    refine ⟨b1 ++ bsr, ?_, ?_, ?_⟩
    · simp only [writeItems, if_pos hty, hw1, hwr, Option.bind_eq_bind,
        Option.some_bind]
      rfl
    · simp only [needItems, List.length_append]
      omega
    · intro buf off fuel hfuel hs
      simp only [needItems] at hfuel
      cases fuel with
      | zero => omega
      | succ f =>
        simp only [List.length_cons, readItems]
        rw [hty] at hread1
        rw [hread1 buf off f (by omega) hs.left]
        simp only [Option.bind_eq_bind, Option.some_bind]
        rw [hreadr buf (off + (b1.length : Int)) f (by omega) hs.right]
        simp only [Option.some_bind]
        have hofs : off + (b1.length : Int) + (bsr.length : Int)
            = off + ((b1 ++ bsr).length : Int) := by
          push_cast [List.length_append]
          ring
        rw [hofs]
        rfl
termination_by structural items
theorem writeEntries_read (es : List (List Nat × Tag)) (h : rtValidEntries es = true) :
    ∃ bs, writeEntries es = some bs ∧ 1 ≤ bs.length ∧ needEntries es ≤ bs.length ∧
      ∀ buf off fuel, needEntries es ≤ fuel → SegAt buf off bs →
        readEntries buf fuel off = some (es, off + bs.length) := by
  cases es with
  | nil =>
    obtain ⟨bs, hw, hlen⟩ := writeUnsignedBE_of_lt (n := 1) (v := 0) (by norm_num)
    refine ⟨bs, by simpa [writeEntries] using hw, by omega, by simp [needEntries]; omega, ?_⟩
    intro buf off fuel hfuel hs
    simp only [needEntries] at hfuel
    cases fuel with
    | zero => omega
    | succ f =>
      simp only [readEntries]
      rw [readUnsignedBE_at hw hs]
      simp [hlen]
  | cons e rest =>
    obtain ⟨name, tg⟩ := e
    rw [rtValidEntries] at h
    simp only [Bool.and_eq_true, decide_eq_true_eq] at h
    obtain ⟨⟨⟨hnlen, hnbytes⟩, hv⟩, hr⟩ := h
    obtain ⟨hd, hhd, hhdlen⟩ :=
      writeUnsignedBE_of_lt (n := 1) (v := typeId (typeOf tg))
        (by simpa using typeId_lt (typeOf tg))
    obtain ⟨nm, hnm, hnmlen⟩ := writeStringJS_of_le hnlen
    obtain ⟨pl, hpl, hppos, hpneed, hpread⟩ := writeTagValue_read tg hv
    obtain ⟨bsr, hwr, hrpos, hrneed, hrread⟩ := writeEntries_read rest hr
    refine ⟨hd ++ nm ++ pl ++ bsr, ?_, by simp [hhdlen], ?_, ?_⟩
    · simp only [writeEntries, hhd, hnm, hpl, hwr, Option.bind_eq_bind,
        Option.some_bind]
      rfl
    · simp only [needEntries, List.length_append, hhdlen, hnmlen]
      omega
    · intro buf off fuel hfuel hs
      simp only [needEntries] at hfuel
      cases fuel with
      | zero => omega
      | succ f =>
        simp only [readEntries]
        have r1 : readUnsignedBE buf 1 off
            = some (typeId (typeOf tg), off + 1) := by
          have := readUnsignedBE_at hhd hs.left.left.left
          push_cast at this
          exact this
        have r2 : readStringJS buf (off + 1)
            = some (name, off + 1 + (nm.length : Int)) := by
          have hseg := hs.left.left.right.congr_off
            (show off + ((hd.length : Nat) : Int) = off + 1 by rw [hhdlen]; push_cast; ring)
          exact readStringJS_at hnm hseg
        have r3 : readTagValue buf f (typeOf tg) (off + 1 + (nm.length : Int))
            = some (tg, off + 1 + (nm.length : Int) + (pl.length : Int)) := by
          apply hpread buf _ f (by omega)
          apply hs.left.right.congr_off
          rw [List.length_append, hhdlen]
          push_cast
          ring
        have r4 : readEntries buf f (off + 1 + (nm.length : Int) + (pl.length : Int))
            = some (rest, off + 1 + (nm.length : Int) + (pl.length : Int)
                + (bsr.length : Int)) := by
          apply hrread buf _ f (by omega)
          apply hs.right.congr_off
          rw [List.length_append, List.length_append, hhdlen]
          push_cast
          ring
        rw [r1]
        simp only [Option.bind_eq_bind, Option.some_bind]
        rw [if_neg (typeId_typeOf_ne tg)]
        rw [r2]
        simp only [Option.some_bind]
        rw [typeOfId_typeId]
        simp only [Option.some_bind]
        rw [r3]
        simp only [Option.some_bind]
        rw [r4]
        simp only [Option.some_bind]
        have hofs : off + 1 + (nm.length : Int) + (pl.length : Int) + (bsr.length : Int)
            = off + ((hd ++ nm ++ pl ++ bsr).length : Int) := by
          simp only [List.length_append, hhdlen]
          push_cast
          ring
        rw [hofs]
        rfl
termination_by structural es
end

/-- Top-level round trip: on the emit-safe fragment, `NBT.stringify`
succeeds and `NBT.parse` returns the same named tree. -/
theorem stringify_parse (d : Doc) (h : rtValidDoc d = true) :
    ∃ bs, stringify d = some bs ∧ parse bs = some (.named d.name d.tag) := by
  obtain ⟨name, tg⟩ := d
  unfold rtValidDoc at h
  simp only [Bool.and_eq_true, decide_eq_true_eq] at h
  obtain ⟨⟨hnlen, hnbytes⟩, hv⟩ := h
  obtain ⟨hd, hhd, hhdlen⟩ := writeUnsignedBE_of_lt (n := 1) (v := typeId (typeOf tg))
    (by simpa using typeId_lt (typeOf tg))
  obtain ⟨nm, hnm, hnmlen⟩ := writeStringJS_of_le hnlen
  obtain ⟨pl, hpl, hppos, hpneed, hpread⟩ := writeTagValue_read tg hv
  refine ⟨hd ++ nm ++ pl, ?_, ?_⟩
  · simp only [stringify, writeNamedTag, hhd, hnm, hpl, Option.bind_eq_bind,
      Option.some_bind]
    rfl
  · unfold parse
    have hs : SegAt (hd ++ nm ++ pl) 0 (hd ++ nm ++ pl) :=
      ⟨[], [], by simp, by simp⟩
    have hfuel : needTag tg ≤ (hd ++ nm ++ pl).length := by
      simp only [List.length_append, hhdlen, hnmlen]
      omega
    unfold readNamedTag
    have r1 : readUnsignedBE (hd ++ nm ++ pl) 1 0
        = some (typeId (typeOf tg), 1) := by
      have := readUnsignedBE_at hhd hs.left.left
      push_cast at this
      simpa using this
    have r2 : readStringJS (hd ++ nm ++ pl) 1
        = some (name, 1 + (nm.length : Int)) := by
      have hseg := hs.left.right.congr_off
        (show (0 : Int) + ((hd.length : Nat) : Int) = 1 by rw [hhdlen]; norm_num)
      have := readStringJS_at hnm hseg
      simpa using this
    have r3 : readTagValue (hd ++ nm ++ pl) (hd ++ nm ++ pl).length (typeOf tg)
        (1 + (nm.length : Int))
        = some (tg, 1 + (nm.length : Int) + (pl.length : Int)) := by
      apply hpread _ _ _ hfuel
      apply hs.right.congr_off
      rw [List.length_append, hhdlen]
      push_cast
      ring
    rw [r1]
    simp only [Option.bind_eq_bind, Option.some_bind]
    rw [if_neg (typeId_typeOf_ne tg)]
    rw [r2]
    simp only [Option.some_bind]
    rw [typeOfId_typeId]
    simp only [Option.some_bind]
    rw [r3]
    rfl

/-- **C1** — counterexample.  The Document `{"" : Compound {"L": List<Byte>[]}}`
is valid in the sense of spec §3 (an empty List with element-variant Byte),
but parsing the written bytes does not return the same tree: the reader
gives the empty List element-variant End, not Byte. -/
theorem c1_tbf_roundtrip_counterexample :
    specValidDoc ⟨[], .compound [([76], .list .tByte [])]⟩ = true ∧
    (stringify ⟨[], .compound [([76], .list .tByte [])]⟩).bind parse
      ≠ some (.named [] (.compound [([76], .list .tByte [])])) ∧
    (stringify ⟨[], .compound [([76], .list .tByte [])]⟩).bind parse
      = some (.named [] (.compound [([76], .list .tEnd [])])) := by
  refine ⟨by decide, by decide, by decide⟩

/-- **C1** (amended).  For every valid Document that contains no empty List
and whose strings, compound keys and outer name are at most 32767 UTF-8
bytes, `NBT.stringify` succeeds and `NBT.parse` of its output returns a
structurally equal tree (same outer name, same tag). -/
theorem c1_tbf_roundtrip (d : Doc) (h : rtValidDoc d = true) :
    ∃ bs, stringify d = some bs ∧ parse bs = some (.named d.name d.tag) :=
  stringify_parse d h

/-- **C1** — witness at the Document `{"": Compound {"Hello": Int 42}}`. -/
theorem c1_tbf_roundtrip_witness :
    rtValidDoc ⟨[], .compound [([72, 101, 108, 108, 111], .int 42)]⟩ = true ∧
    ∃ bs, stringify ⟨[], .compound [([72, 101, 108, 108, 111], .int 42)]⟩ = some bs ∧
      parse bs = some (.named []
        (.compound [([72, 101, 108, 108, 111], .int 42)])) :=
  ⟨by decide, c1_tbf_roundtrip _ (by decide)⟩

/-- **C4** — counterexample.  On the wire form with element-variant End
(0x00) and length 0 the reader yields an empty List of element-variant
End (`TYPE_NAMES[0] = 'end'`), not Byte as the claim states. -/
theorem c4_empty_list_counterexample :
    readTagValue [0, 0, 0, 0, 0] 1 .tList 0 = some (.list .tEnd [], 5) ∧
    Tag.list .tEnd [] ≠ Tag.list .tByte [] := by
  refine ⟨by decide, by decide⟩

/-- **C4** (amended).  The writer emits element-variant End (byte 0x00) and
length 0 for every empty List, whatever its declared element variant; and
on every wire form with element-variant End and length 0 the reader yields
an empty List whose element variant is End (not Byte). -/
theorem c4_empty_list_wire :
    (∀ t : TagType, writeTagValue (.list t []) = some [0, 0, 0, 0, 0]) ∧
    (∀ buf off fuel, SegAt buf off [0, 0, 0, 0, 0] →
      readTagValue buf (fuel + 1) .tList off = some (.list .tEnd [], off + 5)) := by
  constructor
  · intro t
    rfl
  · intro buf off fuel hs
    have hsplit : ([0, 0, 0, 0, 0] : List Nat) = [0] ++ [0, 0, 0, 0] := rfl
    rw [hsplit] at hs
    have hw0 : writeUnsignedBE 1 0 = some [0] := by decide
    have hw4 : writeSignedBE 4 0 = some [0, 0, 0, 0] := by decide
    have r1 : readUnsignedBE buf 1 off = some (0, off + 1) := by
      have := readUnsignedBE_at hw0 hs.left
      push_cast at this
      exact this
    have r2 : readSignedBE buf 4 (off + 1) = some (0, off + 1 + 4) := by
      have hseg := hs.right.congr_off
        (show off + (((1 : Nat) : Int)) = off + 1 by push_cast; ring)
      have := readSignedBE_at hw4 hseg
      push_cast at this
      exact this
    simp only [readTagValue]
    rw [r1]
    simp only [Option.bind_eq_bind, Option.some_bind]
    rw [r2]
    simp only [Option.some_bind]
    rw [show typeOfId 0 = some .tEnd from rfl]
    simp only [Option.some_bind]
    rw [show ((0 : Int)).toNat = 0 from rfl]
    rw [show readItems buf fuel .tEnd 0 (off + 1 + 4) = some ([], off + 1 + 4) from by
      simp [readItems]]
    simp only [Option.some_bind]
    have : off + 1 + 4 = off + 5 := by ring
    rw [this]
    rfl

/-- **C4** — witness: the writer part at element-variant Int, the reader
part on a buffer holding exactly the empty-list wire form. -/
theorem c4_empty_list_wire_witness :
    writeTagValue (.list .tInt []) = some [0, 0, 0, 0, 0] ∧
    readTagValue [0, 0, 0, 0, 0] 1 .tList 0 = some (.list .tEnd [], 0 + 5) :=
  ⟨c4_empty_list_wire.1 .tInt,
   c4_empty_list_wire.2 [0, 0, 0, 0, 0] 0 0 ⟨[], [], by simp, by simp⟩⟩

/-! ## Region-Archive model (mca-handler.js)

Chunk values are what `NBT.parse` produces and `NBT.stringify` consumes:
`ReadTag`s.  The `"x,z" → chunk` JS `Map` is an insertion-ordered
association list keyed by the parsed coordinates (both in `[0, 32)` for
every key produced by the class itself). -/

/-- `x & 31` on a JS number holding an integer: ToInt32, then the low five
bits, i.e. the non-negative remainder mod 32. -/
def jsAnd31 (x : Int) : Nat := (x.emod (2 ^ 32)).toNat % 32

theorem jsAnd31_cast (x : Int) : (jsAnd31 x : Int) = x.emod 32 := by
  unfold jsAnd31
  have h1 : (0 : Int) ≤ x.emod (2 ^ 32) := Int.emod_nonneg _ (by norm_num)
  have h2 : x.emod (2 ^ 32) % 32 = x.emod 32 :=
    Int.emod_emod_of_dvd x (by norm_num)
  omega

theorem jsAnd31_lt (x : Int) : jsAnd31 x < 32 := Nat.mod_lt _ (by norm_num)

theorem jsAnd31_period (x k : Int) : jsAnd31 (x + 32 * k) = jsAnd31 x := by
  have h1 := jsAnd31_cast (x + 32 * k)
  have h2 := jsAnd31_cast x
  have h3 : (x + 32 * k).emod 32 = x.emod 32 :=
    Int.add_mul_emod_self_left x 32 k
  omega

/-- The archive state: `chunks` map, `locations` (sector offset, sector
count or `null`) and `timestamps`, the latter two of length 1024. -/
structure MCAFile where
  chunks : List ((Nat × Nat) × ReadTag)
  locations : List (Option (Nat × Nat))
  timestamps : List Nat

/-- `Map.get` on the chunk map. -/
def chunksGet (m : List ((Nat × Nat) × ReadTag)) (k : Nat × Nat) : Option ReadTag :=
  (m.find? (fun e => decide (e.1 = k))).map Prod.snd

/-- `MCAFile.getChunk`. -/
def getChunk (m : MCAFile) (x z : Int) : Option ReadTag :=
  chunksGet m.chunks (jsAnd31 x, jsAnd31 z)

/-- `MCAFile.removeChunk`: on a present key, delete the map entry and clear
the slot's location and timestamp; otherwise report `false` and change
nothing. -/
def removeChunk (m : MCAFile) (x z : Int) : Bool × MCAFile :=
  let rx := jsAnd31 x
  let rz := jsAnd31 z
  if (chunksGet m.chunks (rx, rz)).isSome then
    (true, ⟨m.chunks.eraseP (fun e => decide (e.1 = (rx, rz))),
            m.locations.set (rz * 32 + rx) none,
            m.timestamps.set (rz * 32 + rx) 0⟩)
  else (false, m)

/-- **C7.**  `getChunk` is invariant under shifting either coordinate by
multiples of 32, and addresses the slot at the non-negative remainders
`(x mod 32, z mod 32)`. -/
theorem c7_getChunk_wrap (m : MCAFile) (x z k j : Int) :
    getChunk m x z = getChunk m (x + 32 * k) (z + 32 * j) ∧
    getChunk m x z = chunksGet m.chunks ((x.emod 32).toNat, (z.emod 32).toNat) := by
  constructor
  · unfold getChunk
    rw [jsAnd31_period, jsAnd31_period]
  · unfold getChunk
    have hx : jsAnd31 x = (x.emod 32).toNat := by
      have := jsAnd31_cast x
      omega
    have hz : jsAnd31 z = (z.emod 32).toNat := by
      have := jsAnd31_cast z
      omega
    rw [hx, hz]

/-- Looking up the erased key in an association list with distinct keys
finds nothing. -/
theorem find_eraseP_self {α β : Type} [DecidableEq α] (l : List (α × β)) (k : α)
    (hnd : (l.map Prod.fst).Nodup) :
    (l.eraseP (fun e => decide (e.1 = k))).find? (fun e => decide (e.1 = k)) = none := by
  induction l with
  | nil => rfl
  | cons e rest ih =>
    simp only [List.map_cons, List.nodup_cons] at hnd
    by_cases he : e.1 = k
    · rw [List.eraseP_cons_of_pos (by simp [he])]
      rw [List.find?_eq_none]
      intro a ha
      simp only [decide_eq_true_eq]
      intro hak
      exact hnd.1 (by
        rw [← he, ← hak] at *
        exact List.mem_map_of_mem Prod.fst ha)
    · rw [List.eraseP_cons_of_neg (by simp [he])]
      rw [List.find?_cons_of_neg _ (by simp [he])]
      exact ih hnd.2

/-- Erasing one key leaves lookups of every other key unchanged. -/
theorem find_eraseP_ne {α β : Type} [DecidableEq α] (l : List (α × β)) (k k' : α)
    (hne : ¬ k' = k) :
    (l.eraseP (fun e => decide (e.1 = k))).find? (fun e => decide (e.1 = k'))
      = l.find? (fun e => decide (e.1 = k')) := by
  induction l with
  | nil => rfl
  | cons e rest ih =>
    by_cases he : e.1 = k
    · rw [List.eraseP_cons_of_pos (by simp [he])]
      rw [List.find?_cons_of_neg _ (by simp [he]; exact fun hh => hne hh.symm)]
    · rw [List.eraseP_cons_of_neg (by simp [he])]
      by_cases he' : e.1 = k'
      · rw [List.find?_cons_of_pos _ (by simp [he']),
            List.find?_cons_of_pos _ (by simp [he'])]
      · rw [List.find?_cons_of_neg _ (by simp [he']),
            List.find?_cons_of_neg _ (by simp [he'])]
        exact ih

/-- **C9.**  `removeChunk` at the wrapped key: when a chunk is present it
returns `true`, deletes exactly that map entry and clears exactly that
slot's location and timestamp; when absent it returns `false` and the
archive is untouched. -/
theorem c9_removeChunk (m : MCAFile) (x z : Int)
    (hnd : (m.chunks.map Prod.fst).Nodup)
    (hl : m.locations.length = 1024) (ht : m.timestamps.length = 1024) :
    ((chunksGet m.chunks (jsAnd31 x, jsAnd31 z)).isSome →
      (removeChunk m x z).1 = true ∧
      chunksGet (removeChunk m x z).2.chunks (jsAnd31 x, jsAnd31 z) = none ∧
      (∀ k2, ¬ k2 = (jsAnd31 x, jsAnd31 z) →
        chunksGet (removeChunk m x z).2.chunks k2 = chunksGet m.chunks k2) ∧
      (removeChunk m x z).2.locations[jsAnd31 z * 32 + jsAnd31 x]? = some none ∧
      (removeChunk m x z).2.timestamps[jsAnd31 z * 32 + jsAnd31 x]? = some 0 ∧
      (∀ i2, ¬ i2 = jsAnd31 z * 32 + jsAnd31 x →
        (removeChunk m x z).2.locations[i2]? = m.locations[i2]? ∧
        (removeChunk m x z).2.timestamps[i2]? = m.timestamps[i2]?)) ∧
    (¬ (chunksGet m.chunks (jsAnd31 x, jsAnd31 z)).isSome →
      removeChunk m x z = (false, m)) := by
  have hidx : jsAnd31 z * 32 + jsAnd31 x < 1024 := by
    have hx := jsAnd31_lt x
    have hz := jsAnd31_lt z
    omega
  constructor
  · intro hsome
    unfold removeChunk
    rw [if_pos hsome]
    refine ⟨rfl, ?_, ?_, ?_, ?_, ?_⟩
    · unfold chunksGet
      rw [find_eraseP_self _ _ hnd]
      rfl
    · intro k2 hk2
      unfold chunksGet
      rw [find_eraseP_ne _ _ _ hk2]
    · simp only
      rw [List.getElem?_set_self (by omega)]
    · simp only
      rw [List.getElem?_set_self (by omega)]
    · intro i2 hi2
      constructor
      · simp only
        rw [List.getElem?_set_ne (by omega)]
      · simp only
        rw [List.getElem?_set_ne (by omega)]
  · intro hnone
    unfold removeChunk
    rw [if_neg hnone]

/-- **C9** — witness: a one-chunk archive with the chunk present at the
wrapped key (33, -31) ≡ (1, 1). -/
theorem c9_removeChunk_witness :
    ((List.map Prod.fst ([((1, 1), ReadTag.named [] (.byte 5))] :
        List ((Nat × Nat) × ReadTag))).Nodup) ∧
    (List.replicate 1024 (none : Option (Nat × Nat))).length = 1024 ∧
    (List.replicate 1024 (0 : Nat)).length = 1024 ∧
    (chunksGet [((1, 1), ReadTag.named [] (.byte 5))] (jsAnd31 33, jsAnd31 (-31))).isSome ∧
    (removeChunk ⟨[((1, 1), ReadTag.named [] (.byte 5))],
        List.replicate 1024 none, List.replicate 1024 0⟩ 33 (-31)).1 = true := by
  refine ⟨by decide, by rw [List.length_replicate], by rw [List.length_replicate],
    by decide, ?_⟩
  exact (c9_removeChunk ⟨[((1, 1), ReadTag.named [] (.byte 5))],
      List.replicate 1024 none, List.replicate 1024 0⟩ 33 (-31)
      (by decide) (by rw [List.length_replicate]) (by rw [List.length_replicate])).1
      (by decide) |>.1

/-! ## Region-Archive file format (mca-handler.js) -/

/-- The zlib module: `deflateSync` is total; `gunzipSync`/`inflateSync`
throw (`none`) on malformed input.  Compression is kept abstract; the only
contract used is `inflate_deflate`. -/
structure Zlib where
  gunzip : List Nat → Option (List Nat)
  inflate : List Nat → Option (List Nat)
  deflate : List Nat → List Nat

/-- `NBT.stringify` as applied to a chunk value: `writeTag(data, data.name
|| '')`; on an `{type:'end'}` value `writeTagValue` throws. -/
def stringifyR : ReadTag → Option (List Nat)
  | .endTag => none
  | .named name tg => writeNamedTag tg name

/-- `MCAFile.readChunk`: 5-byte header at the sector offset, `length − 1`
payload bytes, decompress by code (1 gzip, 2 zlib, 3 raw), `NBT.parse`.
Outer `none` is a thrown error (caught per slot by `parseFile`); `some
none` is the `null` return on a zero length field. -/
def readChunkJS (z : Zlib) (buffer : List Nat) (loc : Nat × Nat) :
    Option (Option ReadTag) := do
  let byteOffset : Int := ((loc.1 * 4096 : Nat) : Int)
  let (length, _) ← readUnsignedBE buffer 4 byteOffset
  let (compressionType, _) ← readUnsignedBE buffer 1 (byteOffset + 4)
  if length = 0 then pure none
  else
    let chunkDataStart := byteOffset + 5
    let chunkDataEnd := chunkDataStart + (length : Int) - 1
    if (buffer.length : Int) < chunkDataEnd then none
    else
      let compressedData := (buffer.drop chunkDataStart.toNat).take
        (chunkDataEnd - chunkDataStart).toNat
      let decompressed ←
        match compressionType with
        | 1 => z.gunzip compressedData
        | 2 => z.inflate compressedData
        | 3 => some compressedData
        | _ => none
      let r ← parse decompressed
      pure (some r)

/-- Decoding of one location-table word: `sectorOffset = (u >> 8) &
0xFFFFFF`, `sectorCount = u & 0xFF`; on the signed 32-bit view these agree
with the plain remainders below for every `u < 2^32`.  A slot is populated
when both are non-zero. -/
def decodeLocation (u : Nat) : Option (Nat × Nat) :=
  let sectorOffset := (u / 256) % 2 ^ 24
  let sectorCount := u % 256
  if sectorOffset ≠ 0 ∧ sectorCount ≠ 0 then some (sectorOffset, sectorCount)
  else none

/-- `MCAFile.parseFile`: both 4096-byte headers, then the per-slot chunk
reads in index order; a throwing chunk read is caught (`console.warn`) and
the slot skipped, a `null` chunk is skipped.  `none` models an uncaught
header-read failure (buffer shorter than the headers).  A repeated map key
cannot arise (slot keys `(i % 32, i / 32)` are distinct). -/
def parseFileJS (z : Zlib) (buffer : List Nat) : Option MCAFile := do
  let locs ← (List.range 1024).mapM (fun i => do
      let (u, _) ← readUnsignedBE buffer 4 ((i * 4 : Nat) : Int)
      pure (decodeLocation u))
  let times ← (List.range 1024).mapM (fun i => do
      let (u, _) ← readUnsignedBE buffer 4 ((4096 + i * 4 : Nat) : Int)
      pure u)
  let chunks := (List.range 1024).filterMap (fun i =>
      match locs[i]? with
      | some (some loc) =>
          match readChunkJS z buffer loc with
          | some (some r) => some (((i % 32, i / 32) : Nat × Nat), r)
          | _ => none
      | _ => none)
  pure ⟨chunks, locs, times⟩

theorem mapM_option_length {α β : Type} (f : α → Option β) :
    ∀ (l : List α) (l' : List β), l.mapM f = some l' → l'.length = l.length := by
  intro l
  induction l with
  | nil =>
    intro l' h
    cases h
    rfl
  | cons a as ih =>
    intro l' h
    rw [List.mapM_cons] at h
    cases hf : f a with
    | none => rw [hf] at h; cases h
    | some b =>
      rw [hf] at h
      cases hr : as.mapM f with
      | none => rw [hr] at h; cases h
      | some bs =>
        rw [hr] at h
        simp only [Option.bind_eq_bind, Option.some_bind, Option.pure_def,
          Option.some.injEq] at h
        subst h
        simp [ih bs hr]

/-- In-bounds unsigned reads succeed. -/
theorem readUnsignedBE_inBounds (b : List Nat) (n off : Nat)
    (h : off + n ≤ b.length) :
    readUnsignedBE b n (off : Int)
      = some (beVal ((b.drop off).take n), (off : Int) + n) := by
  unfold readUnsignedBE getBytes
  rw [if_pos]
  · rw [Int.toNat_natCast]
    rfl
  · refine ⟨Int.natCast_nonneg _, ?_⟩
    rw [Int.toNat_natCast]
    exact h

set_option maxRecDepth 2048 in
/-- **C10.**  A populated location slot whose chunk blob header carries a
zero payload length yields `null` from `readChunk` — not an error — and
`parseFile` leaves that slot out of the chunk map. -/
theorem c10_zero_length_chunk (z : Zlib) (buffer : List Nat) (i : Nat)
    (loc : Nat × Nat)
    (hbound : loc.1 * 4096 + 5 ≤ buffer.length)
    (hzero : readUnsignedBE buffer 4 ((loc.1 * 4096 : Nat) : Int)
      = some (0, ((loc.1 * 4096 : Nat) : Int) + 4)) :
    readChunkJS z buffer loc = some none ∧
    ∀ a, parseFileJS z buffer = some a → a.locations[i]? = some (some loc) →
      chunksGet a.chunks (i % 32, i / 32) = none := by
  have hchunk : readChunkJS z buffer loc = some none := by
    unfold readChunkJS
    dsimp only
    rw [hzero]
    simp only [Option.bind_eq_bind, Option.some_bind]
    have h1 : readUnsignedBE buffer 1 (((loc.1 * 4096 : Nat) : Int) + 4)
        = some (beVal ((buffer.drop (loc.1 * 4096 + 4)).take 1),
            ((loc.1 * 4096 + 4 : Nat) : Int) + 1) := by
      have := readUnsignedBE_inBounds buffer 1 (loc.1 * 4096 + 4) (by omega)
      rw [show (((loc.1 * 4096 + 4 : Nat)) : Int) = ((loc.1 * 4096 : Nat) : Int) + 4 by
        push_cast; ring] at this
      rw [this]
      push_cast
      ring_nf
    rw [h1]
    simp only [Option.some_bind]
    rfl
  refine ⟨hchunk, ?_⟩
  intro a ha hslot
  unfold parseFileJS at ha
  cases hlocs : (List.range 1024).mapM (fun i => do
      let (u, _) ← readUnsignedBE buffer 4 ((i * 4 : Nat) : Int)
      pure (decodeLocation u)) with
  | none => rw [hlocs] at ha; cases ha
  | some locs =>
    rw [hlocs] at ha
    cases htimes : (List.range 1024).mapM (fun i => do
        let (u, _) ← readUnsignedBE buffer 4 ((4096 + i * 4 : Nat) : Int)
        pure u) with
    | none => rw [htimes] at ha; cases ha
    | some times =>
      rw [htimes] at ha
      simp only [Option.bind_eq_bind, Option.some_bind, Option.pure_def,
        Option.some.injEq] at ha
      subst ha
      simp only at hslot
      have hlen : locs.length = 1024 := by
        have := mapM_option_length _ _ _ hlocs
        simpa using this
      have hi : i < 1024 := by
        by_contra hge
        rw [List.getElem?_eq_none (by omega)] at hslot
        cases hslot
      have hgen : ∀ (L : List ((Nat × Nat) × ReadTag)),
          (∀ e ∈ L, ¬ e.1 = ((i % 32, i / 32) : Nat × Nat)) →
          chunksGet L (i % 32, i / 32) = none := by
        intro L hL
        unfold chunksGet
        rw [List.find?_eq_none.mpr]
        · rfl
        · intro x hx
          simp only [decide_eq_true_eq]
          exact hL x hx
      apply hgen
      intro e he hkey
      rw [List.mem_filterMap] at he
      obtain ⟨j, hj, hfj⟩ := he
      rw [List.mem_range] at hj
      -- the produced entry's key determines j
      have hkeyj : e.1 = ((j % 32, j / 32) : Nat × Nat) := by
        rcases hm : locs[j]? with _ | olj
        · rw [hm] at hfj
          cases hfj
        · rcases olj with _ | lj
          · rw [hm] at hfj
            cases hfj
          · rw [hm] at hfj
            dsimp only at hfj
            rcases hr : readChunkJS z buffer lj with _ | orr
            · rw [hr] at hfj
              cases hfj
            · rcases orr with _ | r
              · rw [hr] at hfj
                cases hfj
              · rw [hr] at hfj
                cases hfj
                rfl
      have hji : j = i := by
        rw [hkeyj] at hkey
        have h1 : j % 32 = i % 32 := congrArg Prod.fst hkey
        have h2 : j / 32 = i / 32 := congrArg Prod.snd hkey
        omega
      subst hji
      rw [hslot] at hfj
      dsimp only at hfj
      rw [hchunk] at hfj
      cases hfj

/-- Concrete three-sector archive for the zero-length-chunk scenario: slot 0
points at sector 2 (count 1), whose length field is zero. -/
def c10buf : List Nat :=
  [0, 0, 2, 1] ++ (List.replicate 8188 0 ++
    ([0, 0, 0, 0] ++ ([2] ++ List.replicate 4091 0)))

/-- **C10** — witness: on `c10buf`, slot `(2, 1)` reads as `null` with no
error. -/
theorem c10_zero_length_chunk_witness :
    (2 : Nat) * 4096 + 5 ≤ c10buf.length ∧
    readChunkJS ⟨fun _ => none, fun _ => none, fun _ => []⟩ c10buf (2, 1)
      = some none := by
  have hb : (2 : Nat) * 4096 + 5 ≤ c10buf.length := by
    unfold c10buf
    rw [List.length_append, List.length_append, List.length_append,
      List.length_append, List.length_replicate, List.length_replicate]
    norm_num
  have hz : readUnsignedBE c10buf 4 (((2 * 4096 : Nat)) : Int)
      = some (0, (((2 * 4096 : Nat)) : Int) + 4) := by
    unfold c10buf
    have heq : [0, 0, 2, 1] ++ (List.replicate 8188 (0 : Nat) ++
        ([0, 0, 0, 0] ++ ([2] ++ List.replicate 4091 0)))
        = ([0, 0, 2, 1] ++ List.replicate 8188 (0 : Nat)) ++
          ([0, 0, 0, 0] ++ ([2] ++ List.replicate 4091 0)) := by
      rw [List.append_assoc]
    rw [heq]
    have hr := readUnsignedBE_of_append'
      ([0, 0, 2, 1] ++ List.replicate 8188 (0 : Nat))
      [0, 0, 0, 0] ([2] ++ List.replicate 4091 0) (n := 4) (by rfl)
    have hpre : ([0, 0, 2, 1] ++ List.replicate 8188 (0 : Nat)).length = 2 * 4096 := by
      rw [List.length_append, List.length_replicate]
      norm_num
    rw [hpre] at hr
    have hbv : beVal [0, 0, 0, 0] = 0 := by decide
    rw [hbv] at hr
    exact hr
  exact ⟨hb, (c10_zero_length_chunk ⟨fun _ => none, fun _ => none, fun _ => []⟩
    c10buf 0 (2, 1) hb hz).1⟩

/-! ## Buffer-write toolbox for `createMCABuffer` -/

/-- An in-place region write with Node's bounds check (`writeUInt32BE`
throws out of range; the in-bounds obligation is met at every call site of
`createMCABuffer`, so `Buffer.copy`'s clamping never fires). -/
def writeAt (buf : List Nat) (off : Nat) (bs : List Nat) : Option (List Nat) :=
  if off + bs.length ≤ buf.length then
    some (buf.take off ++ bs ++ buf.drop (off + bs.length))
  else none

/-- Slice of `n` bytes at `off`. -/
def sliceN (buf : List Nat) (off n : Nat) : List Nat :=
  (buf.drop off).take n

theorem writeAt_length {buf : List Nat} {off : Nat} {bs buf' : List Nat}
    (h : writeAt buf off bs = some buf') : buf'.length = buf.length := by
  unfold writeAt at h
  split at h
  case isFalse => cases h
  case isTrue hle =>
    cases h
    simp only [List.length_append, List.length_take, List.length_drop]
    omega

/-- Slice decomposition helpers. -/
theorem sliceN_append_exact (A mid C : List Nat) :
    sliceN (A ++ (mid ++ C)) A.length mid.length = mid := by
  unfold sliceN
  rw [List.drop_left, List.take_left]

theorem sliceN_append_left (A X : List Nat) (off n : Nat) (h : off + n ≤ A.length) :
    sliceN (A ++ X) off n = sliceN A off n := by
  unfold sliceN
  rw [List.drop_append_of_le_length (by omega),
    List.take_append_of_le_length (by rw [List.length_drop]; omega)]

theorem sliceN_append_right (A Y : List Nat) (off n : Nat) (h : A.length ≤ off) :
    sliceN (A ++ Y) off n = sliceN Y (off - A.length) n := by
  unfold sliceN
  rw [List.drop_append_eq_append_drop,
    List.drop_eq_nil_iff.mpr (by omega), List.nil_append]

theorem sliceN_take (buf : List Nat) (m off n : Nat) (h : off + n ≤ m) :
    sliceN (buf.take m) off n = sliceN buf off n := by
  unfold sliceN
  rw [List.drop_take, List.take_take]
  congr 1
  omega

theorem sliceN_drop (buf : List Nat) (m off n : Nat) :
    sliceN (buf.drop m) off n = sliceN buf (m + off) n := by
  unfold sliceN
  rw [List.drop_drop]

/-- Reading exactly the written region gives the written bytes. -/
theorem sliceN_writeAt_self {buf : List Nat} {off : Nat} {bs buf' : List Nat}
    (h : writeAt buf off bs = some buf') :
    sliceN buf' off bs.length = bs := by
  unfold writeAt at h
  split at h
  case isFalse => cases h
  case isTrue hle =>
    cases h
    have htake : (buf.take off).length = off := by
      rw [List.length_take]
      omega
    have h2 := sliceN_append_exact (buf.take off) bs (buf.drop (off + bs.length))
    rw [htake] at h2
    rw [List.append_assoc]
    exact h2

/-- Reading a region disjoint from the write is unaffected. -/
theorem sliceN_writeAt_disjoint {buf : List Nat} {off : Nat} {bs buf' : List Nat}
    (h : writeAt buf off bs = some buf') {off' n : Nat}
    (hdisj : off' + n ≤ off ∨ off + bs.length ≤ off') :
    sliceN buf' off' n = sliceN buf off' n := by
  unfold writeAt at h
  split at h
  case isFalse => cases h
  case isTrue hle =>
    cases h
    have htake : (buf.take off).length = off := by
      rw [List.length_take]
      omega
    rw [List.append_assoc]
    rcases hdisj with hlo | hhi
    · rw [sliceN_append_left _ _ _ _ (by omega), sliceN_take _ _ _ _ hlo]
    · rw [← List.append_assoc]
      have hlen2 : (buf.take off ++ bs).length = off + bs.length := by
        rw [List.length_append, htake]
      rw [sliceN_append_right _ _ _ _ (by omega), hlen2, sliceN_drop]
      congr 1
      omega

/-! ## `MCAFile.createMCABuffer` (mca-handler.js:152-210) -/

/-- JavaScript `ToInt32`: reduce into `[-2^31, 2^31)`. -/
def toInt32 (n : Int) : Int := (n + 2 ^ 31) % (2 ^ 32) - 2 ^ 31

/-- JavaScript `<<` (both operands pass through `ToInt32`). -/
def shl32 (a : Int) (k : Nat) : Int := toInt32 (toInt32 a * 2 ^ k)

/-- JavaScript `|`: bitwise or of the 32-bit patterns, read back signed. -/
def or32 (a b : Int) : Int :=
  toInt32 (((((toInt32 a) % (2 ^ 32)).toNat ||| ((toInt32 b) % (2 ^ 32)).toNat : Nat)) : Int)

/-- `buffer.writeUInt32BE` value check: Node throws outside `[0, 2^32)`. -/
def writeUInt32 (v : Int) : Option (List Nat) :=
  if 0 ≤ v ∧ v < 2 ^ 32 then some (beBytes 4 v.toNat) else none

/-- `(chunkInfo.startSector << 8) | chunkInfo.sectorCount`. -/
def locationDataJS (s c : Nat) : Int := or32 (shl32 (s : Int) 8) (c : Int)

/-- `this.timestamps[index] || Math.floor(Date.now() / 1000)`: both the
falsy stored value `0` and a missing slot (read back as the default `0`
here) fall through to the current time. -/
def tsOrNow (t now : Nat) : Nat := if t = 0 then now else t

/-- One entry of the `chunkSectors` array: the spread `{...chunk}` keeps
`x`, `z` and `data` alongside the computed fields. -/
structure ChunkPlan where
  x : Nat
  z : Nat
  data : ReadTag
  compressedData : List Nat
  startSector : Nat
  sectorCount : Nat

/-- First loop of `createMCABuffer`: serialize and compress each chunk and
assign sectors from `currentSector` on; `Math.ceil(totalSize / 4096)` is
`(totalSize + 4095) / 4096` in exact arithmetic.  A throwing
`NBT.stringify` (`none` from `stringifyR`) aborts the whole build. -/
def planChunks (z : Zlib) : List ((Nat × Nat) × ReadTag) → Nat →
    Option (List ChunkPlan × Nat)
  | [], currentSector => some ([], currentSector)
  | (k, data) :: rest, currentSector => do
      let nbtBuffer ← stringifyR data
      let compressedData := z.deflate nbtBuffer
      let totalSize := compressedData.length + 5
      let sectorsNeeded := (totalSize + 4095) / 4096
      let (plans, fin) ← planChunks z rest (currentSector + sectorsNeeded)
      pure (⟨k.1, k.2, data, compressedData, currentSector, sectorsNeeded⟩ :: plans, fin)

/-- A sequence of in-place region writes, failing on the first
out-of-bounds one. -/
def writeSeq : List Nat → List (Nat × List Nat) → Option (List Nat)
  | b, [] => some b
  | b, (off, bs) :: rest =>
      match writeAt b off bs with
      | none => none
      | some b1 => writeSeq b1 rest

/-- The 5-byte chunk header (`compressedData.length + 1`, compression
code 2) followed by the compressed payload, as laid out at
`startSector * 4096`. -/
def blobBytes (p : ChunkPlan) : List Nat :=
  beBytes 4 (p.compressedData.length + 1) ++ [2] ++ p.compressedData

/-- `MCAFile.createMCABuffer`: plan the sectors, allocate
`totalSectors * 4096` zero bytes, then write the location header, the
timestamp header and the chunk blobs. -/
def createMCABuffer (z : Zlib) (m : MCAFile) (now : Nat) : Option (List Nat) := do
  let (chunkSectors, totalSectors) ← planChunks z m.chunks 2
  let buf0 : List Nat := List.replicate (totalSectors * 4096) 0
  let buf1 ← chunkSectors.foldlM (fun b p => do
      let index := p.z * 32 + p.x
      let word ← writeUInt32 (locationDataJS p.startSector p.sectorCount)
      writeAt b (index * 4) word) buf0
  let buf2 ← chunkSectors.foldlM (fun b p => do
      let index := p.z * 32 + p.x
      let word ← writeUInt32 ((tsOrNow (m.timestamps.getD index 0) now : Nat) : Int)
      writeAt b (4096 + index * 4) word) buf1
  chunkSectors.foldlM (fun b p => do
      let off := p.startSector * 4096
      let hdr ← writeUInt32 ((p.compressedData.length + 1 : Nat) : Int)
      let b1 ← writeAt b off hdr
      let b2 ← writeAt b1 (off + 4) [2]
      writeAt b2 (off + 5) p.compressedData) buf2

/-- Or of disjoint bit ranges is addition. -/
theorem lor_two_pow_mul_add : ∀ (n a b : Nat), b < 2 ^ n →
    (2 ^ n * a) ||| b = 2 ^ n * a + b := by
  intro n
  induction n with
  | zero =>
    intro a b hb
    interval_cases b
    simp
  | succ n ih =>
    intro a b hb
    have hb2 : b / 2 < 2 ^ n := by omega
    have h1 : (2 ^ (n + 1) * a) = Nat.bit false (2 ^ n * a) := by
      simp [Nat.bit_val]; ring
    have h2 : b = Nat.bit (b % 2 = 1) (b / 2) := by
      rw [Nat.bit_val]
      rcases Nat.mod_two_eq_zero_or_one b with h | h <;> simp [h] <;> omega
    rw [h1, h2, Nat.lor_bit, ih a (b / 2) hb2]
    rw [Nat.bit_val, Nat.bit_val]
    rcases Nat.mod_two_eq_zero_or_one b with h | h <;> simp [h] <;> omega

/-- `ToInt32` is the identity on `[0, 2^31)`. -/
theorem toInt32_of_range (v : Int) (h0 : 0 ≤ v) (h1 : v < 2 ^ 31) :
    toInt32 v = v := by
  unfold toInt32
  omega

/-- In range, the JS location word is plain `startSector * 256 +
sectorCount`. -/
theorem locationDataJS_eq (s c : Nat) (hs : s < 2 ^ 23) (hc : c < 256) :
    locationDataJS s c = ((s * 256 + c : Nat) : Int) := by
  have hs1 : toInt32 (s : Int) = (s : Int) :=
    toInt32_of_range _ (Int.natCast_nonneg _) (by exact_mod_cast by omega)
  have hscale : toInt32 ((s : Int) * 2 ^ 8) = ((s * 256 : Nat) : Int) := by
    rw [show ((s : Int) * 2 ^ 8) = ((s * 256 : Nat) : Int) by push_cast; ring]
    exact toInt32_of_range _ (Int.natCast_nonneg _) (by exact_mod_cast by omega)
  have hc1 : toInt32 (c : Int) = (c : Int) :=
    toInt32_of_range _ (Int.natCast_nonneg _) (by exact_mod_cast by omega)
  have hs256 : toInt32 ((s * 256 : Nat) : Int) = ((s * 256 : Nat) : Int) :=
    toInt32_of_range _ (Int.natCast_nonneg _) (by exact_mod_cast by omega)
  have hm1 : (((s * 256 : Nat) : Int)) % (2 ^ 32) = ((s * 256 : Nat) : Int) := by
    omega
  have hm2 : (((c : Nat) : Int)) % (2 ^ 32) = ((c : Nat) : Int) := by omega
  unfold locationDataJS shl32 or32
  rw [hs1, hscale, hs256, hc1, hm1, hm2, Int.toNat_natCast, Int.toNat_natCast]
  have hlor : (s * 256) ||| c = s * 256 + c := by
    have := lor_two_pow_mul_add 8 s c (by omega)
    calc (s * 256) ||| c = (2 ^ 8 * s) ||| c := by ring_nf
    _ = 2 ^ 8 * s + c := this
    _ = s * 256 + c := by ring
  rw [hlor]
  exact toInt32_of_range _ (Int.natCast_nonneg _) (by exact_mod_cast by omega)

/-- In-range `writeUInt32` of a natural number. -/
theorem writeUInt32_of_lt (v : Nat) (h : v < 2 ^ 32) :
    writeUInt32 ((v : Nat) : Int) = some (beBytes 4 v) := by
  unfold writeUInt32
  rw [if_pos ⟨Int.natCast_nonneg _, by exact_mod_cast h⟩, Int.toNat_natCast]

/-- Total sector count of a plan list. -/
def sumSectors (ps : List ChunkPlan) : Nat :=
  ps.foldr (fun p a => p.sectorCount + a) 0

/-- The plans occupy contiguous sector ranges starting at `s`, in list
order. -/
def ContigFrom : Nat → List ChunkPlan → Prop
  | _, [] => True
  | s, p :: ps => p.startSector = s ∧ ContigFrom (s + p.sectorCount) ps

/-- What the first `createMCABuffer` loop guarantees: plans correspond
pointwise to the chunk-map entries, sectors are contiguous from the start
sector, and the final sector is the start plus the total demand. -/
theorem planChunks_spec (z : Zlib) :
    ∀ (cs : List ((Nat × Nat) × ReadTag)) (s : Nat) (plans : List ChunkPlan)
      (fin : Nat),
    planChunks z cs s = some (plans, fin) →
    List.Forall₂ (fun (e : (Nat × Nat) × ReadTag) (p : ChunkPlan) =>
      p.x = e.1.1 ∧ p.z = e.1.2 ∧ p.data = e.2 ∧
      (∃ nbt, stringifyR e.2 = some nbt ∧ p.compressedData = z.deflate nbt) ∧
      p.sectorCount = (p.compressedData.length + 5 + 4095) / 4096) cs plans ∧
    ContigFrom s plans ∧ fin = s + sumSectors plans := by
  intro cs
  induction cs with
  | nil =>
    intro s plans fin h
    cases h
    exact ⟨List.Forall₂.nil, trivial, rfl⟩
  | cons e rest ih =>
    intro s plans fin h
    obtain ⟨k, data⟩ := e
    rw [planChunks] at h
    cases hw : stringifyR data with
    | none => rw [hw] at h; cases h
    | some nbt =>
      rw [hw] at h
      simp only [Option.bind_eq_bind, Option.some_bind] at h
      cases hr : planChunks z rest
          (s + ((z.deflate nbt).length + 5 + 4095) / 4096) with
      | none => rw [hr] at h; cases h
      | some pr =>
        obtain ⟨plans', fin'⟩ := pr
        rw [hr] at h
        simp only [Option.bind_eq_bind, Option.some_bind, Option.pure_def,
          Option.some.injEq, Prod.mk.injEq] at h
        obtain ⟨hp, hf⟩ := h
        obtain ⟨hall, hcontig, hfin⟩ := ih _ _ _ hr
        subst hp hf
        refine ⟨List.Forall₂.cons ⟨rfl, rfl, rfl, ⟨nbt, hw, rfl⟩, rfl⟩ hall,
          ⟨rfl, hcontig⟩, ?_⟩
        simp only [sumSectors, List.foldr_cons] at *
        omega

/-- Contiguity yields lower bounds, pairwise separation and an upper bound
on each plan's sector range. -/
theorem contigFrom_facts : ∀ (ps : List ChunkPlan) (s : Nat), ContigFrom s ps →
    (∀ p ∈ ps, s ≤ p.startSector ∧
      p.startSector + p.sectorCount ≤ s + sumSectors ps) ∧
    List.Pairwise (fun p q => p.startSector + p.sectorCount ≤ q.startSector) ps := by
  intro ps
  induction ps with
  | nil => intro s _; exact ⟨by simp, List.Pairwise.nil⟩
  | cons p rest ih =>
    intro s hc
    obtain ⟨hstart, hrest⟩ := hc
    obtain ⟨hb, hpw⟩ := ih _ hrest
    subst hstart
    constructor
    · intro q hq
      rcases List.mem_cons.mp hq with rfl | hq
      · simp only [sumSectors, List.foldr_cons]
        constructor
        · exact Nat.le_refl _
        · have : sumSectors rest = rest.foldr (fun p a => p.sectorCount + a) 0 := rfl
          omega
      · have := hb q hq
        simp only [sumSectors, List.foldr_cons] at *
        omega
    · refine List.Pairwise.cons ?_ hpw
      intro q hq
      exact (hb q hq).1

/-- `Math.ceil` bound: the sector demand covers the blob. -/
theorem ceil_sector_ge (a : Nat) : a ≤ ((a + 4095) / 4096) * 4096 := by
  have h1 := Nat.div_add_mod (a + 4095) 4096
  have h2 : (a + 4095) % 4096 < 4096 := Nat.mod_lt _ (by norm_num)
  omega

theorem writeSeq_append (l1 l2 : List (Nat × List Nat)) :
    ∀ b, writeSeq b (l1 ++ l2)
      = (writeSeq b l1).bind (fun b1 => writeSeq b1 l2) := by
  induction l1 with
  | nil => intro b; rfl
  | cons r rest ih =>
    intro b
    obtain ⟨off, bs⟩ := r
    rw [List.cons_append, writeSeq, writeSeq]
    cases writeAt b off bs with
    | none => rfl
    | some b1 => exact ih b1

/-- Disjoint in-bounds region writes: composite success, length
preservation, hit reads and frame reads. -/
theorem writeSeq_spec : ∀ (rs : List (Nat × List Nat)) (b : List Nat),
    (∀ r ∈ rs, r.1 + r.2.length ≤ b.length) →
    List.Pairwise (fun r q => r.1 + r.2.length ≤ q.1 ∨ q.1 + q.2.length ≤ r.1) rs →
    ∃ b', writeSeq b rs = some b' ∧ b'.length = b.length ∧
      (∀ r ∈ rs, sliceN b' r.1 r.2.length = r.2) ∧
      (∀ o n, (∀ r ∈ rs, o + n ≤ r.1 ∨ r.1 + r.2.length ≤ o) →
        sliceN b' o n = sliceN b o n) := by
  intro rs
  induction rs with
  | nil =>
    intro b _ _
    exact ⟨b, rfl, rfl, by simp, fun o n _ => rfl⟩
  | cons r rest ih =>
    intro b hbnd hpw
    obtain ⟨off, bs⟩ := r
    have hin : off + bs.length ≤ b.length := hbnd _ (List.mem_cons_self _ _)
    have hw : writeAt b off bs = some (b.take off ++ bs ++ b.drop (off + bs.length)) := by
      unfold writeAt
      rw [if_pos hin]
    set b1 := b.take off ++ bs ++ b.drop (off + bs.length) with hb1
    have hlen1 : b1.length = b.length := writeAt_length hw
    have hpw' := List.pairwise_cons.mp hpw
    obtain ⟨b', hseq, hlen', hhit, hframe⟩ := ih b1
      (by intro q hq; rw [hlen1]; exact hbnd q (List.mem_cons_of_mem _ hq))
      hpw'.2
    refine ⟨b', ?_, by omega, ?_, ?_⟩
    · rw [writeSeq, hw]
      exact hseq
    · intro q hq
      rcases List.mem_cons.mp hq with rfl | hq
      · show sliceN b' off bs.length = bs
        rw [hframe off bs.length (fun q hq => hpw'.1 q hq)]
        exact sliceN_writeAt_self hw
      · exact hhit q hq
    · intro o n hdisj
      rw [hframe o n (fun q hq => hdisj q (List.mem_cons_of_mem _ hq))]
      exact sliceN_writeAt_disjoint hw (by
        rcases hdisj (off, bs) (List.mem_cons_self _ _) with h | h
        · left; exact h
        · right; exact h)

/-- The header-writing loops are region-write sequences. -/
theorem foldlM_eq_writeSeq (f : List Nat → ChunkPlan → Option (List Nat))
    (g : ChunkPlan → Nat × List Nat) :
    ∀ (ps : List ChunkPlan),
    (∀ p ∈ ps, ∀ b, f b p = writeAt b (g p).1 (g p).2) →
    ∀ b, ps.foldlM f b = writeSeq b (ps.map g) := by
  intro ps
  induction ps with
  | nil => intro _ b; rfl
  | cons p rest ih =>
    intro h b
    rw [List.foldlM_cons, List.map_cons, writeSeq, h p (List.mem_cons_self _ _) b]
    cases writeAt b (g p).1 (g p).2 with
    | none => rfl
    | some b1 =>
      simp only [Option.bind_eq_bind, Option.some_bind]
      exact ih (fun q hq => h q (List.mem_cons_of_mem _ hq)) b1

/-- Two adjacent region writes fuse into one. -/
theorem writeAt_writeAt (b : List Nat) (off : Nat) (bs1 bs2 : List Nat) :
    (writeAt b off bs1).bind (fun b1 => writeAt b1 (off + bs1.length) bs2)
      = writeAt b off (bs1 ++ bs2) := by
  have hdd : ∀ (l : List Nat) (i j : Nat), (l.drop i).drop j = l.drop (i + j) := by
    intro l i j
    rw [List.drop_drop, Nat.add_comm]
  by_cases h2 : off + bs1.length + bs2.length ≤ b.length
  · have h1 : off + bs1.length ≤ b.length := by omega
    rw [show writeAt b off bs1
        = some (b.take off ++ bs1 ++ b.drop (off + bs1.length)) by
      unfold writeAt; rw [if_pos h1]]
    simp only [Option.some_bind]
    set c := b.take off ++ bs1 ++ b.drop (off + bs1.length) with hc
    have hclen : c.length = b.length := by
      simp only [hc, List.length_append, List.length_take, List.length_drop]
      omega
    have htklen : (b.take off).length = off := by
      rw [List.length_take]; omega
    have hpre : (b.take off ++ bs1).length = off + bs1.length := by
      rw [List.length_append, htklen]
    have hc2 : off + bs1.length + bs2.length ≤ c.length := by omega
    have hr2 : off + (bs1 ++ bs2).length ≤ b.length := by
      rw [List.length_append]; omega
    unfold writeAt
    rw [if_pos hc2, if_pos hr2]
    have hctake : c.take (off + bs1.length) = b.take off ++ bs1 := by
      rw [hc, List.append_assoc, ← List.append_assoc, List.take_left' hpre]
    have hcdrop : c.drop (off + bs1.length + bs2.length)
        = b.drop (off + bs1.length + bs2.length) := by
      have hd1 : c.drop (off + bs1.length) = b.drop (off + bs1.length) := by
        rw [hc, List.drop_left' hpre]
      calc c.drop (off + bs1.length + bs2.length)
          = (c.drop (off + bs1.length)).drop bs2.length := by rw [hdd]
        _ = (b.drop (off + bs1.length)).drop bs2.length := by rw [hd1]
        _ = b.drop (off + bs1.length + bs2.length) := by rw [hdd]
    rw [hctake, hcdrop]
    have hL : off + (bs1 ++ bs2).length = off + bs1.length + bs2.length := by
      rw [List.length_append]; omega
    rw [hL, List.append_assoc (b.take off) bs1 bs2]
  · have hr2 : ¬ off + (bs1 ++ bs2).length ≤ b.length := by
      rw [List.length_append]; omega
    unfold writeAt
    rw [if_neg hr2]
    by_cases h1 : off + bs1.length ≤ b.length
    · rw [if_pos h1]
      simp only [Option.some_bind]
      have hneg : ¬ off + bs1.length + bs2.length ≤
          (b.take off ++ bs1 ++ b.drop (off + bs1.length)).length := by
        simp only [List.length_append, List.length_take, List.length_drop]
        omega
      rw [if_neg hneg]
    · rw [if_neg h1]
      rfl

/-- Reading inside a known slice. -/
theorem sliceN_of_eq {buf : List Nat} {off m : Nat} {X : List Nat}
    (h : sliceN buf off m = X) (k n : Nat) (hkn : k + n ≤ m) :
    sliceN buf (off + k) n = sliceN X k n := by
  subst h
  unfold sliceN
  have h2 : min n (m - k) = n := by omega
  rw [List.drop_take, List.drop_drop, List.take_take, h2]

theorem sliceN_replicate (N off n : Nat) (h : off + n ≤ N) :
    sliceN (List.replicate N (0 : Nat)) off n = List.replicate n 0 := by
  unfold sliceN
  rw [List.drop_replicate, List.take_replicate]
  congr 1
  omega

/-- The key lists of the chunk map and of its plan list coincide. -/
theorem forall₂_keys {z : Zlib} :
    ∀ {cs : List ((Nat × Nat) × ReadTag)} {plans : List ChunkPlan},
    List.Forall₂ (fun (e : (Nat × Nat) × ReadTag) (p : ChunkPlan) =>
      p.x = e.1.1 ∧ p.z = e.1.2 ∧ p.data = e.2 ∧
      (∃ nbt, stringifyR e.2 = some nbt ∧ p.compressedData = z.deflate nbt) ∧
      p.sectorCount = (p.compressedData.length + 5 + 4095) / 4096) cs plans →
    plans.map (fun p => (p.x, p.z)) = cs.map Prod.fst := by
  intro cs plans h
  induction h with
  | nil => rfl
  | cons hR _ ih =>
    simp only [List.map_cons, ih, List.cons.injEq, and_true]
    obtain ⟨hx, hz, _⟩ := hR
    rw [hx, hz]

/-- `mapM` over pointwise-successful reads is a plain map. -/
theorem mapM_eq_map_some {α β : Type} (f : α → Option β) (g : α → β) :
    ∀ (l : List α), (∀ a ∈ l, f a = some (g a)) → l.mapM f = some (l.map g) := by
  intro l
  induction l with
  | nil => intro _; rfl
  | cons a as ih =>
    intro h
    rw [List.mapM_cons, h a (List.mem_cons_self _ _),
      ih (fun b hb => h b (List.mem_cons_of_mem _ hb))]
    rfl

/-- In a map with distinct keys, a stored entry is what lookup returns. -/
theorem chunksGet_of_mem {L : List ((Nat × Nat) × ReadTag)} {k : Nat × Nat}
    {v : ReadTag} (hnd : (L.map Prod.fst).Nodup) (hmem : (k, v) ∈ L) :
    chunksGet L k = some v := by
  induction L with
  | nil => cases hmem
  | cons e rest ih =>
    simp only [List.map_cons, List.nodup_cons] at hnd
    rcases List.mem_cons.mp hmem with heq | hmem'
    · rw [← heq]
      unfold chunksGet
      rw [List.find?_cons_of_pos _ (by simp)]
      rfl
    · by_cases he : e.1 = k
      · exact absurd (by
          rw [he]
          exact List.mem_map_of_mem Prod.fst hmem') hnd.1
      · unfold chunksGet
        rw [List.find?_cons_of_neg _ (by simp [he])]
        exact ih hnd.2 hmem'

/-- A successful lookup comes from a stored entry. -/
theorem chunksGet_some_mem {L : List ((Nat × Nat) × ReadTag)} {k : Nat × Nat}
    {v : ReadTag} (h : chunksGet L k = some v) : (k, v) ∈ L := by
  unfold chunksGet at h
  cases hf : L.find? (fun e => decide (e.1 = k)) with
  | none => rw [hf] at h; cases h
  | some e =>
    rw [hf] at h
    have hmem := List.mem_of_find?_eq_some hf
    have hpred : e.1 = k := by
      have := List.find?_some hf
      simpa using this
    simp only [Option.map_some', Option.some.injEq] at h
    rw [← hpred, ← h]
    simpa using hmem

theorem chunksGet_none_iff {L : List ((Nat × Nat) × ReadTag)} {k : Nat × Nat} :
    chunksGet L k = none ↔ ∀ e ∈ L, ¬ e.1 = k := by
  unfold chunksGet
  rw [Option.map_eq_none', List.find?_eq_none]
  simp

/-- Two chunk maps with the same entries look up identically (distinct
keys on the left). -/
theorem chunksGet_congr {A B : List ((Nat × Nat) × ReadTag)}
    (hndA : (A.map Prod.fst).Nodup) (h : ∀ e, e ∈ A ↔ e ∈ B) (k : Nat × Nat) :
    chunksGet A k = chunksGet B k := by
  cases hB : chunksGet B k with
  | some v =>
    exact chunksGet_of_mem hndA ((h _).mpr (chunksGet_some_mem hB))
  | none =>
    exact chunksGet_none_iff.mpr
      (fun e he => chunksGet_none_iff.mp hB e ((h e).mp he))

/-- A populated location word decodes back to its fields. -/
theorem decodeLocation_eq (s c : Nat) (hs0 : 1 ≤ s) (hs : s < 2 ^ 24)
    (hc0 : 1 ≤ c) (hc : c < 256) :
    decodeLocation (s * 256 + c) = some (s, c) := by
  unfold decodeLocation
  have hdiv : (s * 256 + c) / 256 = s := by omega
  have hmod : (s * 256 + c) % 256 = c := by omega
  dsimp only
  rw [hdiv, hmod, Nat.mod_eq_of_lt hs, if_pos ⟨by omega, by omega⟩]

theorem decodeLocation_zero : decodeLocation 0 = none := by decide

/-- `MCAFile.readChunk` on a well-formed zlib blob returns the parsed
tree. -/
theorem readChunkJS_of_slices (z : Zlib) (buf : List Nat) (s c len : Nat)
    (data nbt : List Nat) (r : ReadTag)
    (hbound : s * 4096 + 5 + len ≤ buf.length)
    (hs4 : sliceN buf (s * 4096) 4 = beBytes 4 (len + 1))
    (hc1 : sliceN buf (s * 4096 + 4) 1 = [2])
    (hdata : sliceN buf (s * 4096 + 5) len = data)
    (hlen : len + 1 < 2 ^ 32)
    (hinf : z.inflate data = some nbt)
    (hparse : parse nbt = some r) :
    readChunkJS z buf (s, c) = some (some r) := by
  have h1 : readUnsignedBE buf 4 (((s * 4096 : Nat)) : Int)
      = some (len + 1, ((s * 4096 : Nat) : Int) + 4) := by
    have h := readUnsignedBE_inBounds buf 4 (s * 4096) (by omega)
    unfold sliceN at hs4
    rw [hs4] at h
    rw [h, beVal_beBytes 4 (len + 1) (by rw [pow256_4]; omega)]
    norm_num
  have h2 : readUnsignedBE buf 1 (((s * 4096 : Nat) : Int) + 4)
      = some (2, ((s * 4096 : Nat) : Int) + 4 + 1) := by
    have h := readUnsignedBE_inBounds buf 1 (s * 4096 + 4) (by omega)
    unfold sliceN at hc1
    rw [hc1] at h
    rw [show (((s * 4096 : Nat) : Int) + 4) = ((s * 4096 + 4 : Nat) : Int) by
      push_cast; ring, h]
    have hbv : beVal [2] = 2 := by decide
    rw [hbv]
    congr 1
  unfold readChunkJS
  dsimp only
  rw [h1]
  simp only [Option.bind_eq_bind, Option.some_bind]
  rw [h2]
  simp only [Option.some_bind]
  rw [if_neg (by omega)]
  have hend : ¬ ((buf.length : Int) <
      ((s * 4096 : Nat) : Int) + 5 + ((len + 1 : Nat) : Int) - 1) := by
    push_cast
    omega
  rw [if_neg hend]
  have hstart : (((s * 4096 : Nat) : Int) + 5).toNat = s * 4096 + 5 := by omega
  have hwidth : (((s * 4096 : Nat) : Int) + 5 + ((len + 1 : Nat) : Int) - 1
      - (((s * 4096 : Nat) : Int) + 5)).toNat = len := by
    push_cast
    omega
  rw [hstart, hwidth]
  unfold sliceN at hdata
  rw [hdata]
  show (z.inflate data).bind _ = some (some r)
  rw [hinf]
  simp only [Option.some_bind]
  rw [hparse]
  rfl

/-- With every header word in `writeUInt32` range, `createMCABuffer` is
the region-write sequence of the location header, the timestamp header and
the chunk blobs over the zeroed buffer. -/
theorem createMCABuffer_eq (z : Zlib) (m : MCAFile) (now : Nat)
    (plans : List ChunkPlan) (total : Nat)
    (hplan : planChunks z m.chunks 2 = some (plans, total))
    (hw1 : ∀ p ∈ plans, writeUInt32 (locationDataJS p.startSector p.sectorCount)
      = some (beBytes 4 (p.startSector * 256 + p.sectorCount)))
    (hw2 : ∀ p ∈ plans,
      writeUInt32 ((tsOrNow (m.timestamps.getD (p.z * 32 + p.x) 0) now : Nat) : Int)
      = some (beBytes 4 (tsOrNow (m.timestamps.getD (p.z * 32 + p.x) 0) now)))
    (hw3 : ∀ p ∈ plans, writeUInt32 ((p.compressedData.length + 1 : Nat) : Int)
      = some (beBytes 4 (p.compressedData.length + 1))) :
    createMCABuffer z m now =
      (writeSeq (List.replicate (total * 4096) 0)
          (plans.map (fun p => ((p.z * 32 + p.x) * 4,
            beBytes 4 (p.startSector * 256 + p.sectorCount))))).bind (fun b1 =>
      (writeSeq b1 (plans.map (fun p => (4096 + (p.z * 32 + p.x) * 4,
            beBytes 4 (tsOrNow (m.timestamps.getD (p.z * 32 + p.x) 0) now))))).bind
        (fun b2 =>
      writeSeq b2 (plans.map (fun p => (p.startSector * 4096, blobBytes p))))) := by
  have h1 := foldlM_eq_writeSeq
    (fun b p => (writeUInt32 (locationDataJS p.startSector p.sectorCount)).bind
      fun word => writeAt b ((p.z * 32 + p.x) * 4) word)
    (fun p => ((p.z * 32 + p.x) * 4,
      beBytes 4 (p.startSector * 256 + p.sectorCount)))
    plans
    (by
      intro p hp b
      dsimp only
      rw [hw1 p hp]
      rfl)
  have h2 := foldlM_eq_writeSeq
    (fun b p =>
      (writeUInt32 ((tsOrNow (m.timestamps.getD (p.z * 32 + p.x) 0) now : Nat) : Int)).bind
      fun word => writeAt b (4096 + (p.z * 32 + p.x) * 4) word)
    (fun p => (4096 + (p.z * 32 + p.x) * 4,
      beBytes 4 (tsOrNow (m.timestamps.getD (p.z * 32 + p.x) 0) now)))
    plans
    (by
      intro p hp b
      dsimp only
      rw [hw2 p hp]
      rfl)
  have h3 := foldlM_eq_writeSeq
    (fun b p => (writeUInt32 ((p.compressedData.length + 1 : Nat) : Int)).bind
      fun hdr => (writeAt b (p.startSector * 4096) hdr).bind
      fun b1 => (writeAt b1 (p.startSector * 4096 + 4) [2]).bind
      fun b2 => writeAt b2 (p.startSector * 4096 + 5) p.compressedData)
    (fun p => (p.startSector * 4096, blobBytes p))
    plans
    (by
      intro p hp b
      dsimp only
      rw [hw3 p hp]
      simp only [Option.some_bind]
      have e1 : ∀ b1 : List Nat,
          (writeAt b1 (p.startSector * 4096 + 4) [2]).bind
            (fun b2 => writeAt b2 (p.startSector * 4096 + 5) p.compressedData)
          = writeAt b1 (p.startSector * 4096 + 4) ([2] ++ p.compressedData) := by
        intro b1
        have h := writeAt_writeAt b1 (p.startSector * 4096 + 4) [2] p.compressedData
        rw [show p.startSector * 4096 + 4 + [2].length = p.startSector * 4096 + 5 by
          simp] at h
        exact h
      simp only [Option.bind_eq_bind] at e1 ⊢
      simp only [e1]
      have e2 := writeAt_writeAt b (p.startSector * 4096)
        (beBytes 4 (p.compressedData.length + 1)) ([2] ++ p.compressedData)
      rw [beBytes_length] at e2
      rw [e2]
      unfold blobBytes
      rw [List.append_assoc])
  unfold createMCABuffer
  rw [hplan]
  simp only [Option.bind_eq_bind, Option.some_bind]
  simp only [h1, h2, h3]

set_option maxRecDepth 8192 in
set_option maxHeartbeats 1000000 in
/-- **C2.**  Save/re-load of a region archive: `parseFile` of the
`createMCABuffer` output returns a chunk map equal (as a map) to the
pre-save one; each stored chunk's location slot holds its start sector and
a sector count equal to `⌈(compressed_len + 5) / 4096⌉`; sectors are
assigned contiguously from sector 2 in the chunk map's iteration order,
every blob fits inside its own sectors, and the sector ranges are pairwise
disjoint, so blobs never overlap. -/
theorem c2_save_reload (z : Zlib) (m : MCAFile) (now : Nat)
    (plans : List ChunkPlan) (total : Nat)
    (hplan : planChunks z m.chunks 2 = some (plans, total))
    (hzl : ∀ b, z.inflate (z.deflate b) = some b)
    (hkeys : ∀ e ∈ m.chunks, e.1.1 < 32 ∧ e.1.2 < 32)
    (hnd : (m.chunks.map Prod.fst).Nodup)
    (hvalid : ∀ e ∈ m.chunks, ∃ nm tg, e.2 = ReadTag.named nm tg ∧
      rtValidDoc ⟨nm, tg⟩ = true)
    (hsec : ∀ p ∈ plans, p.sectorCount < 256)
    (htot : total ≤ 2 ^ 23)
    (hts : ∀ t ∈ m.timestamps, t < 2 ^ 32) (hnow : now < 2 ^ 32) :
    ∃ buf a, createMCABuffer z m now = some buf ∧ parseFileJS z buf = some a ∧
      (∀ k, chunksGet a.chunks k = chunksGet m.chunks k) ∧
      (∀ p ∈ plans,
        a.locations[p.z * 32 + p.x]? = some (some (p.startSector, p.sectorCount)) ∧
        p.sectorCount = (p.compressedData.length + 5 + 4095) / 4096 ∧
        p.compressedData.length + 5 ≤ p.sectorCount * 4096) ∧
      ContigFrom 2 plans ∧
      List.Pairwise (fun p q => p.startSector + p.sectorCount ≤ q.startSector)
        plans := by
  obtain ⟨hall, hcontig, htotal⟩ := planChunks_spec z m.chunks 2 plans total hplan
  obtain ⟨hsb, hpw⟩ := contigFrom_facts plans 2 hcontig
  have hlen := hall.length_eq
  have hR := (List.forall₂_iff_get.mp hall).2
  have hplanmem : ∀ p ∈ plans, ∃ e ∈ m.chunks,
      p.x = e.1.1 ∧ p.z = e.1.2 ∧ p.data = e.2 ∧
      (∃ nbt, stringifyR e.2 = some nbt ∧ p.compressedData = z.deflate nbt) ∧
      p.sectorCount = (p.compressedData.length + 5 + 4095) / 4096 := by
    intro p hp
    obtain ⟨i, hi, hip⟩ := List.mem_iff_getElem.mp hp
    refine ⟨m.chunks[i], List.getElem_mem _, ?_⟩
    have h := hR i (by omega) hi
    simp only [List.get_eq_getElem] at h
    rw [hip] at h
    exact h
  have hcnt : ∀ p ∈ plans,
      p.sectorCount = (p.compressedData.length + 5 + 4095) / 4096 := by
    intro p hp
    obtain ⟨e, he, hx, hz, hd, hn, hc⟩ := hplanmem p hp
    exact hc
  have hfit : ∀ p ∈ plans, p.compressedData.length + 5 ≤ p.sectorCount * 4096 := by
    intro p hp
    rw [hcnt p hp]
    have := ceil_sector_ge (p.compressedData.length + 5)
    omega
  have hcnt1 : ∀ p ∈ plans, 1 ≤ p.sectorCount := by
    intro p hp
    rw [hcnt p hp]
    omega
  have hrange : ∀ p ∈ plans,
      2 ≤ p.startSector ∧ p.startSector + p.sectorCount ≤ total := by
    intro p hp
    have := hsb p hp
    omega
  have htot2 : 2 ≤ total := by omega
  have hkeyseq := forall₂_keys hall
  have hxz : ∀ p ∈ plans, p.x < 32 ∧ p.z < 32 := by
    intro p hp
    obtain ⟨e, he, hx, hz, _⟩ := hplanmem p hp
    have := hkeys e he
    omega
  have hidx_lt : ∀ p ∈ plans, p.z * 32 + p.x < 1024 := by
    intro p hp
    have := hxz p hp
    omega
  have hidxnd : (plans.map (fun p => p.z * 32 + p.x)).Nodup := by
    have hmapmap : plans.map (fun p => p.z * 32 + p.x)
        = (plans.map (fun p => (p.x, p.z))).map (fun k => k.2 * 32 + k.1) := by
      rw [List.map_map]
      rfl
    rw [hmapmap, hkeyseq]
    apply List.Nodup.map_on ?_ hnd
    intro k1 hk1 k2 hk2 heq
    obtain ⟨e1, he1, hfe1⟩ := List.mem_map.mp hk1
    obtain ⟨e2, he2, hfe2⟩ := List.mem_map.mp hk2
    have hb1 : k1.1 < 32 ∧ k1.2 < 32 := hfe1 ▸ hkeys e1 he1
    have hb2 : k2.1 < 32 ∧ k2.2 < 32 := hfe2 ▸ hkeys e2 he2
    exact Prod.ext_iff.mpr ⟨by omega, by omega⟩
  have hpwidx : List.Pairwise (fun p q : ChunkPlan =>
      p.z * 32 + p.x ≠ q.z * 32 + q.x) plans := List.pairwise_map.mp hidxnd
  have hw1 : ∀ p ∈ plans, writeUInt32 (locationDataJS p.startSector p.sectorCount)
      = some (beBytes 4 (p.startSector * 256 + p.sectorCount)) := by
    intro p hp
    have hs := hrange p hp
    have hc := hsec p hp
    have hc1 := hcnt1 p hp
    rw [locationDataJS_eq _ _ (by omega) hc]
    exact writeUInt32_of_lt _ (by omega)
  have hw2 : ∀ p ∈ plans,
      writeUInt32 ((tsOrNow (m.timestamps.getD (p.z * 32 + p.x) 0) now : Nat) : Int)
      = some (beBytes 4 (tsOrNow (m.timestamps.getD (p.z * 32 + p.x) 0) now)) := by
    intro p hp
    apply writeUInt32_of_lt
    have hd : m.timestamps.getD (p.z * 32 + p.x) 0 < 2 ^ 32 ∨
        m.timestamps.getD (p.z * 32 + p.x) 0 = 0 := by
      rw [List.getD_eq_getElem?_getD]
      cases hg : m.timestamps[(p.z * 32 + p.x)]? with
      | none => right; rfl
      | some t =>
        left
        simpa using hts t (List.getElem?_mem hg)
    by_cases h0 : m.timestamps.getD (p.z * 32 + p.x) 0 = 0
    · unfold tsOrNow
      rw [if_pos h0]
      exact hnow
    · unfold tsOrNow
      rw [if_neg h0]
      rcases hd with h | h
      · exact h
      · exact absurd h h0
  have hw3 : ∀ p ∈ plans, writeUInt32 ((p.compressedData.length + 1 : Nat) : Int)
      = some (beBytes 4 (p.compressedData.length + 1)) := by
    intro p hp
    apply writeUInt32_of_lt
    have h1 := hfit p hp
    have h2 := hsec p hp
    omega
  have hblob : ∀ p : ChunkPlan,
      (blobBytes p).length = p.compressedData.length + 5 := by
    intro p
    simp only [blobBytes, List.length_append, beBytes_length, List.length_cons,
      List.length_nil]
    omega
  -- stage 1: location header
  obtain ⟨b1, hws1, hlen1, hhit1, hfr1⟩ := writeSeq_spec
    (plans.map (fun p => ((p.z * 32 + p.x) * 4,
      beBytes 4 (p.startSector * 256 + p.sectorCount))))
    (List.replicate (total * 4096) 0)
    (by
      intro r hr
      obtain ⟨p, hp, rfl⟩ := List.mem_map.mp hr
      rw [List.length_replicate]
      dsimp only
      rw [beBytes_length]
      have := hidx_lt p hp
      omega)
    (by
      rw [List.pairwise_map]
      refine hpwidx.imp ?_
      intro p q h
      dsimp only
      rw [beBytes_length, beBytes_length]
      omega)
  -- stage 2: timestamp header
  obtain ⟨b2, hws2, hlen2, hhit2, hfr2⟩ := writeSeq_spec
    (plans.map (fun p => (4096 + (p.z * 32 + p.x) * 4,
      beBytes 4 (tsOrNow (m.timestamps.getD (p.z * 32 + p.x) 0) now))))
    b1
    (by
      intro r hr
      obtain ⟨p, hp, rfl⟩ := List.mem_map.mp hr
      rw [hlen1, List.length_replicate]
      dsimp only
      rw [beBytes_length]
      have := hidx_lt p hp
      omega)
    (by
      rw [List.pairwise_map]
      refine hpwidx.imp ?_
      intro p q h
      dsimp only
      rw [beBytes_length, beBytes_length]
      omega)
  -- stage 3: chunk blobs
  obtain ⟨b3, hws3, hlen3, hhit3, hfr3⟩ := writeSeq_spec
    (plans.map (fun p => (p.startSector * 4096, blobBytes p)))
    b2
    (by
      intro r hr
      obtain ⟨p, hp, rfl⟩ := List.mem_map.mp hr
      rw [hlen2, hlen1, List.length_replicate]
      dsimp only
      rw [hblob]
      have h1 := hfit p hp
      have h2 := hrange p hp
      omega)
    (by
      rw [List.pairwise_map]
      refine hpw.imp_of_mem ?_
      intro p q hp hq h
      dsimp only
      rw [hblob, hblob]
      have h1 := hfit p hp
      left
      omega)
  have hbuild : createMCABuffer z m now = some b3 := by
    rw [createMCABuffer_eq z m now plans total hplan hw1 hw2 hw3, hws1]
    simp only [Option.some_bind]
    rw [hws2]
    simp only [Option.some_bind]
    exact hws3
  have hlen3' : b3.length = total * 4096 := by
    rw [hlen3, hlen2, hlen1, List.length_replicate]
  -- slice facts on the finished buffer
  have HB : ∀ p ∈ plans, sliceN b3 ((p.z * 32 + p.x) * 4) 4
      = beBytes 4 (p.startSector * 256 + p.sectorCount) := by
    intro p hp
    have hd3 : ∀ r ∈ plans.map (fun p => (p.startSector * 4096, blobBytes p)),
        (p.z * 32 + p.x) * 4 + 4 ≤ r.1 ∨ r.1 + r.2.length ≤ (p.z * 32 + p.x) * 4 := by
      intro r hr
      obtain ⟨q, hq, rfl⟩ := List.mem_map.mp hr
      dsimp only
      left
      have h1 := hidx_lt p hp
      have h2 := (hrange q hq).1
      omega
    have hd2 : ∀ r ∈ plans.map (fun p => (4096 + (p.z * 32 + p.x) * 4,
        beBytes 4 (tsOrNow (m.timestamps.getD (p.z * 32 + p.x) 0) now))),
        (p.z * 32 + p.x) * 4 + 4 ≤ r.1 ∨ r.1 + r.2.length ≤ (p.z * 32 + p.x) * 4 := by
      intro r hr
      obtain ⟨q, hq, rfl⟩ := List.mem_map.mp hr
      dsimp only
      left
      have h1 := hidx_lt p hp
      omega
    rw [hfr3 _ 4 hd3, hfr2 _ 4 hd2]
    have h := hhit1 _ (List.mem_map_of_mem _ hp)
    dsimp only at h
    rw [beBytes_length] at h
    exact h
  have HC : ∀ i, i < 1024 → (∀ p ∈ plans, ¬ (p.z * 32 + p.x = i)) →
      sliceN b3 (i * 4) 4 = List.replicate 4 0 := by
    intro i hi hnp
    have hd3 : ∀ r ∈ plans.map (fun p => (p.startSector * 4096, blobBytes p)),
        i * 4 + 4 ≤ r.1 ∨ r.1 + r.2.length ≤ i * 4 := by
      intro r hr
      obtain ⟨q, hq, rfl⟩ := List.mem_map.mp hr
      dsimp only
      left
      have h2 := (hrange q hq).1
      omega
    have hd2 : ∀ r ∈ plans.map (fun p => (4096 + (p.z * 32 + p.x) * 4,
        beBytes 4 (tsOrNow (m.timestamps.getD (p.z * 32 + p.x) 0) now))),
        i * 4 + 4 ≤ r.1 ∨ r.1 + r.2.length ≤ i * 4 := by
      intro r hr
      obtain ⟨q, hq, rfl⟩ := List.mem_map.mp hr
      dsimp only
      left
      omega
    have hd1 : ∀ r ∈ plans.map (fun p => ((p.z * 32 + p.x) * 4,
        beBytes 4 (p.startSector * 256 + p.sectorCount))),
        i * 4 + 4 ≤ r.1 ∨ r.1 + r.2.length ≤ i * 4 := by
      intro r hr
      obtain ⟨q, hq, rfl⟩ := List.mem_map.mp hr
      dsimp only
      rw [beBytes_length]
      have := hnp q hq
      omega
    rw [hfr3 _ 4 hd3, hfr2 _ 4 hd2, hfr1 _ 4 hd1]
    exact sliceN_replicate _ _ _ (by omega)
  have HD : ∀ p ∈ plans,
      sliceN b3 (p.startSector * 4096) (p.compressedData.length + 5)
      = blobBytes p := by
    intro p hp
    have h := hhit3 _ (List.mem_map_of_mem _ hp)
    dsimp only at h
    rw [hblob] at h
    exact h
  -- parse of the buffer
  have hlocs : (List.range 1024).mapM (fun i => do
        let (u, _) ← readUnsignedBE b3 4 ((i * 4 : Nat) : Int)
        pure (decodeLocation u))
      = some ((List.range 1024).map (fun i =>
          decodeLocation (beVal (sliceN b3 (i * 4) 4)))) := by
    apply mapM_eq_map_some
    intro i hi
    rw [List.mem_range] at hi
    rw [readUnsignedBE_inBounds b3 4 (i * 4) (by omega)]
    rfl
  have htimes : (List.range 1024).mapM (fun i => do
        let (u, _) ← readUnsignedBE b3 4 ((4096 + i * 4 : Nat) : Int)
        pure u)
      = some ((List.range 1024).map (fun i =>
          beVal (sliceN b3 (4096 + i * 4) 4))) := by
    apply mapM_eq_map_some
    intro i hi
    rw [List.mem_range] at hi
    rw [readUnsignedBE_inBounds b3 4 (4096 + i * 4) (by omega)]
    rfl
  set locsL := (List.range 1024).map (fun i =>
    decodeLocation (beVal (sliceN b3 (i * 4) 4))) with hlocsL
  set timesL := (List.range 1024).map (fun i =>
    beVal (sliceN b3 (4096 + i * 4) 4)) with htimesL
  set chunksL := (List.range 1024).filterMap (fun i =>
      match locsL[i]? with
      | some (some loc) =>
          match readChunkJS z b3 loc with
          | some (some r) => some (((i % 32, i / 32) : Nat × Nat), r)
          | _ => none
      | _ => none) with hchunksL
  have hparse : parseFileJS z b3 = some ⟨chunksL, locsL, timesL⟩ := by
    unfold parseFileJS
    rw [hlocs, htimes]
    simp only [Option.bind_eq_bind, Option.some_bind, Option.pure_def]
  have hlocAt : ∀ i, i < 1024 →
      locsL[i]? = some (decodeLocation (beVal (sliceN b3 (i * 4) 4))) := by
    intro i hi
    rw [hlocsL, List.getElem?_map, List.getElem?_range hi]
    rfl
  have hslotP : ∀ p ∈ plans, locsL[p.z * 32 + p.x]?
      = some (some (p.startSector, p.sectorCount)) := by
    intro p hp
    have h1 := hrange p hp
    have h2 := hsec p hp
    have h3 := hcnt1 p hp
    rw [hlocAt _ (hidx_lt p hp), HB p hp,
      beVal_beBytes 4 _ (by rw [pow256_4]; omega),
      decodeLocation_eq _ _ (by omega) (by omega) h3 h2]
  have hslotN : ∀ i, i < 1024 → (∀ p ∈ plans, ¬ (p.z * 32 + p.x = i)) →
      locsL[i]? = some none := by
    intro i hi hnp
    rw [hlocAt _ hi, HC i hi hnp,
      show beVal (List.replicate 4 0) = 0 by decide, decodeLocation_zero]
  have hreadP : ∀ p ∈ plans, readChunkJS z b3 (p.startSector, p.sectorCount)
      = some (some p.data) := by
    intro p hp
    obtain ⟨e, he, hx, hz, hdta, ⟨nbt0, hstr, hcomp⟩, hcfor⟩ := hplanmem p hp
    obtain ⟨nm, tg, he2, hval⟩ := hvalid e he
    obtain ⟨bs, hsbs, hpbs⟩ := stringify_parse ⟨nm, tg⟩ hval
    have hstr' : stringifyR e.2 = some bs := by
      rw [he2]
      exact hsbs
    have hnbt0 : nbt0 = bs := by
      rw [hstr'] at hstr
      cases hstr
      rfl
    have hsub := sliceN_of_eq (HD p hp)
    have h4 : sliceN b3 (p.startSector * 4096) 4
        = beBytes 4 (p.compressedData.length + 1) := by
      have h := hsub 0 4 (by omega)
      rw [Nat.add_zero] at h
      rw [h]
      unfold sliceN blobBytes
      rw [List.drop_zero, List.append_assoc, List.take_left' (beBytes_length 4 _)]
    have h21 : sliceN b3 (p.startSector * 4096 + 4) 1 = [2] := by
      rw [hsub 4 1 (by omega)]
      unfold sliceN blobBytes
      rw [List.append_assoc, List.drop_left' (beBytes_length 4 _)]
      rfl
    have hdat : sliceN b3 (p.startSector * 4096 + 5) p.compressedData.length
        = p.compressedData := by
      rw [hsub 5 p.compressedData.length (by omega)]
      unfold sliceN blobBytes
      rw [List.drop_left' (by rw [List.length_append, beBytes_length]; rfl)]
      simp
    have hb1 := hfit p hp
    have hb2 := hrange p hp
    have hb3 := hsec p hp
    refine readChunkJS_of_slices z b3 p.startSector p.sectorCount
      p.compressedData.length p.compressedData bs p.data
      (by rw [hlen3']; omega) h4 h21 hdat (by omega) ?_ ?_
    · rw [hcomp, hnbt0]
      exact hzl bs
    · rw [hdta, he2]
      exact hpbs
  have hmemiff : ∀ e0, e0 ∈ m.chunks ↔ e0 ∈ chunksL := by
    intro e0
    constructor
    · intro he0
      obtain ⟨i, hi, hie⟩ := List.mem_iff_getElem.mp he0
      have hiplen : i < plans.length := by omega
      have hp : plans[i] ∈ plans := List.getElem_mem _
      have hRp := hR i hi hiplen
      simp only [List.get_eq_getElem] at hRp
      rw [hie] at hRp
      obtain ⟨hx, hz, hdta, _, _⟩ := hRp
      rw [hchunksL]
      apply List.mem_filterMap.mpr
      refine ⟨plans[i].z * 32 + plans[i].x,
        List.mem_range.mpr (hidx_lt _ hp), ?_⟩
      rw [hslotP _ hp]
      dsimp only
      rw [hreadP _ hp]
      dsimp only
      have hxz' := hxz _ hp
      have hmod : (plans[i].z * 32 + plans[i].x) % 32 = plans[i].x := by omega
      have hdiv : (plans[i].z * 32 + plans[i].x) / 32 = plans[i].z := by omega
      rw [hmod, hdiv, hx, hz, hdta]
    · intro heL
      rw [hchunksL] at heL
      obtain ⟨i, hirange, hFi⟩ := List.mem_filterMap.mp heL
      rw [List.mem_range] at hirange
      by_cases hip : ∃ p ∈ plans, p.z * 32 + p.x = i
      · obtain ⟨p, hp, hpi⟩ := hip
        rw [← hpi] at hFi
        rw [hslotP p hp] at hFi
        dsimp only at hFi
        rw [hreadP p hp] at hFi
        dsimp only at hFi
        cases hFi
        obtain ⟨e, he, hx, hz, hdta, _, _⟩ := hplanmem p hp
        have hxz' := hxz p hp
        have hmod : (p.z * 32 + p.x) % 32 = p.x := by omega
        have hdiv : (p.z * 32 + p.x) / 32 = p.z := by omega
        rw [hmod, hdiv, hx, hz, hdta]
        simpa using he
      · push_neg at hip
        rw [hslotN i hirange (fun p hp => hip p hp)] at hFi
        dsimp only at hFi
        cases hFi
  refine ⟨b3, ⟨chunksL, locsL, timesL⟩, hbuild, hparse, ?_, ?_, hcontig, hpw⟩
  · intro k
    exact (chunksGet_congr hnd hmemiff k).symm
  · intro p hp
    exact ⟨hslotP p hp, hcnt p hp, hfit p hp⟩

/-- **C2** — witness: a one-chunk archive (chunk `(1, 0)` holding
`Byte 5` under the empty name) through an identity-codec zlib; its single
plan sits at sector 2 with one sector, and re-parsing the saved buffer
finds the chunk again. -/
theorem c2_save_reload_witness :
    planChunks ⟨fun _ => none, fun b => some b, fun b => b⟩
        [((1, 0), ReadTag.named [] (.byte 5))] 2
      = some ([⟨1, 0, ReadTag.named [] (.byte 5), [1, 0, 0, 5], 2, 1⟩], 3) ∧
    ∃ buf a,
      createMCABuffer ⟨fun _ => none, fun b => some b, fun b => b⟩
        ⟨[((1, 0), ReadTag.named [] (.byte 5))],
          List.replicate 1024 none, List.replicate 1024 0⟩ 0 = some buf ∧
      parseFileJS ⟨fun _ => none, fun b => some b, fun b => b⟩ buf = some a ∧
      chunksGet a.chunks (1, 0) = some (ReadTag.named [] (.byte 5)) := by
  constructor
  · rfl
  · obtain ⟨buf, a, h1, h2, h3, _⟩ := c2_save_reload
      ⟨fun _ => none, fun b => some b, fun b => b⟩
      ⟨[((1, 0), ReadTag.named [] (.byte 5))],
        List.replicate 1024 none, List.replicate 1024 0⟩ 0
      [⟨1, 0, ReadTag.named [] (.byte 5), [1, 0, 0, 5], 2, 1⟩] 3
      rfl
      (fun b => rfl)
      (by decide)
      (by decide)
      (fun e he => by
        have h := List.mem_singleton.mp he
        subst h
        exact ⟨[], .byte 5, rfl, by decide⟩)
      (by

        intro p hp
        have h := List.mem_singleton.mp hp
        subst h
        decide)
      (by norm_num)
      (by
        intro t ht
        have h := List.eq_of_mem_replicate ht
        subst h
        decide)
      (by decide)
    refine ⟨buf, a, h1, h2, ?_⟩
    rw [h3 (1, 0)]
    decide

/-! ## JavaScript values (mc-nbt.js / snbt-converter.js)

The in-memory tag representation of mc-nbt.js is plain JavaScript data:
`{type, value}` objects, arrays, strings, numbers, booleans, BigInts,
`null` and `undefined`.  `JSVal` is that universe; JS objects are ordered
association lists (insertion order; property keys unique), strings are
UTF-8 byte lists, integer-valued numbers are exact `Int`s and a
non-integer finite number is carried opaquely as its IEEE bit pattern
(`vFrac`; only ever tested for integer-ness or passed through). -/

inductive JSVal where
  | vUndef : JSVal
  | vNull : JSVal
  | vBool (b : Bool) : JSVal
  | vNum (n : Int) : JSVal
  | vFrac (bits : Nat) : JSVal
  | vBig (n : Int) : JSVal
  | vStr (s : List Nat) : JSVal
  | vArr (items : List JSVal) : JSVal
  | vObj (fields : List (List Nat × JSVal)) : JSVal

/-- Property lookup; a missing property reads as `undefined`. -/
def getField : List (List Nat × JSVal) → List Nat → JSVal
  | [], _ => .vUndef
  | (k, x) :: rest, key => if k = key then x else getField rest key

/-- `Object.prototype.hasOwnProperty`. -/
def hasField (fields : List (List Nat × JSVal)) (key : List Nat) : Bool :=
  (fields.find? (fun e => e.1 = key)).isSome

/-- JavaScript falsiness (a `vFrac` is a non-zero, non-NaN number, hence
truthy). -/
def falsy : JSVal → Bool
  | .vUndef => true
  | .vNull => true
  | .vBool b => !b
  | .vNum n => n = 0
  | .vFrac _ => false
  | .vBig n => n = 0
  | .vStr s => s.isEmpty
  | .vArr _ => false
  | .vObj _ => false

/-- `a || b`. -/
def jsOrV (v d : JSVal) : JSVal := if falsy v then d else v

/-- ASCII `toUpperCase` / `toLowerCase`, byte by byte. -/
def upperChar (c : Nat) : Nat := if 97 ≤ c ∧ c ≤ 122 then c - 32 else c

def lowerChar (c : Nat) : Nat := if 65 ≤ c ∧ c ≤ 90 then c + 32 else c

def upperStr (s : List Nat) : List Nat := s.map upperChar

def lowerStr (s : List Nat) : List Nat := s.map lowerChar

/-- The property keys and type names used by the library (UTF-8 bytes). -/
def keyType : List Nat := [116, 121, 112, 101]

def keyValue : List Nat := [118, 97, 108, 117, 101]

def keyName : List Nat := [110, 97, 109, 101]

def nEnd : List Nat := [101, 110, 100]

def nByte : List Nat := [98, 121, 116, 101]

def nShort : List Nat := [115, 104, 111, 114, 116]

def nInt : List Nat := [105, 110, 116]

def nLong : List Nat := [108, 111, 110, 103]

def nFloat : List Nat := [102, 108, 111, 97, 116]

def nDouble : List Nat := [100, 111, 117, 98, 108, 101]

def nByteArray : List Nat := [98, 121, 116, 101, 95, 97, 114, 114, 97, 121]

def nString : List Nat := [115, 116, 114, 105, 110, 103]

def nList : List Nat := [108, 105, 115, 116]

def nCompound : List Nat := [99, 111, 109, 112, 111, 117, 110, 100]

def nIntArray : List Nat := [105, 110, 116, 95, 97, 114, 114, 97, 121]

def nLongArray : List Nat := [108, 111, 110, 103, 95, 97, 114, 114, 97, 121]

/-- The thirteen valid lowercase type names, i.e. the domain on which
`TYPE_NAMES[TAG_TYPES[s.toUpperCase()]]` is defined and truthy. -/
def typeNamesList : List (List Nat) :=
  [nEnd, nByte, nShort, nInt, nLong, nFloat, nDouble, nByteArray, nString,
   nList, nCompound, nIntArray, nLongArray]

def validTypeName (s : List Nat) : Bool :=
  typeNamesList.any (fun n => upperStr s = upperStr n)

/-- Decimal digits of a natural number (recursion fuel is the number
itself, which always suffices). -/
def natDecAux : Nat → Nat → List Nat
  | 0, _ => []
  | fuel + 1, n => if n < 10 then [48 + n] else natDecAux fuel (n / 10) ++ [48 + n % 10]

def natDec (n : Nat) : List Nat := natDecAux (n + 1) n

/-- `String(v)` for an exact integer (JS renders integers below `2^53`
without an exponent; `BigInt.prototype.toString` is exact decimal). -/
def intDec (v : Int) : List Nat :=
  if v < 0 then 45 :: natDec (-v).toNat else natDec v.toNat

/-- `String(value)` on the modelled fragment (`none`: a value — a
non-integer number, array or plain object — whose JS string form is not
byte-exactly modelled here). -/
def jsStringOf : JSVal → Option (List Nat)
  | .vStr s => some s
  | .vNum n => some (intDec n)
  | .vBig n => some (intDec n)
  | .vBool true => some [116, 114, 117, 101]
  | .vBool false => some [102, 97, 108, 115, 101]
  | .vNull => some [110, 117, 108, 108]
  | .vUndef => some [117, 110, 100, 101, 102, 105, 110, 101, 100]
  | _ => none

/-- A `{type, value}` object from a (name, payload) pair. -/
def toTagObj (p : List Nat × JSVal) : JSVal :=
  .vObj [(keyType, .vStr p.1), (keyValue, p.2)]

/-! ### `MinecraftNBT.autoDetectType` and `createList` (mc-nbt.js) -/

mutual

/-- `autoDetectType(value)` as the (type-name, converted-value) pair of
the `{type, value}` object it builds.  The final `String(value)` fallback
is only reachable for `null`, `undefined` and BigInt, all inside the
modelled fragment. -/
def autoDetectType : JSVal → List Nat × JSVal
  | .vBool b => (nByte, .vNum (if b then 1 else 0))
  | .vNum n =>
      if -128 ≤ n ∧ n ≤ 127 then (nByte, .vNum n)
      else if -32768 ≤ n ∧ n ≤ 32767 then (nShort, .vNum n)
      else if -2147483648 ≤ n ∧ n ≤ 2147483647 then (nInt, .vNum n)
      else (nLong, .vBig n)
  | .vFrac bits => (nDouble, .vFrac bits)
  | .vStr s => (nString, .vStr s)
  | .vArr [] =>
      (nList, .vObj [(keyType, .vStr nByte), (keyValue, .vArr [])])
  | .vArr (x :: xs) =>
      (nList, .vObj [(keyType, .vStr (autoDetectType x).1),
        (keyValue, .vArr (autoDetectList (x :: xs)))])
  | .vObj fields => (nCompound, .vObj (autoDetectFields fields))
  | .vNull => (nString, .vStr [110, 117, 108, 108])
  | .vUndef => (nString, .vStr [117, 110, 100, 101, 102, 105, 110, 101, 100])
  | .vBig n => (nString, .vStr (intDec n))

/-- `value.map(item => this.autoDetectType(item).value)`. -/
def autoDetectList : List JSVal → List JSVal
  | [] => []
  | x :: xs => (autoDetectType x).2 :: autoDetectList xs

/-- `Object.entries(value).forEach(... compound[key] = autoDetectType(val))`. -/
def autoDetectFields : List (List Nat × JSVal) → List (List Nat × JSVal)
  | [] => []
  | (k, val) :: rest => (k, toTagObj (autoDetectType val)) :: autoDetectFields rest

end

/-- `type || <default>` on the optional element-type argument (an explicit
empty string is falsy). -/
def jsOrStr (o : Option (List Nat)) (d : List Nat) : List Nat :=
  match o with
  | some s => if s.isEmpty then d else s
  | none => d

/-- `MinecraftNBT.createList(items, type)`: always builds a
`{type:'list', ...}` tag; an item whose detected type differs from the
element type is stored raw, unconverted. -/
def createList (items : List JSVal) (elem : Option (List Nat)) : JSVal :=
  match items with
  | [] =>
      .vObj [(keyType, .vStr nList), (keyValue,
        .vObj [(keyType, .vStr (jsOrStr elem nByte)), (keyValue, .vArr [])])]
  | x :: _ =>
      let detectedType := jsOrStr elem (autoDetectType x).1
      .vObj [(keyType, .vStr nList), (keyValue,
        .vObj [(keyType, .vStr detectedType),
          (keyValue, .vArr (items.map (fun item =>
            let detected := autoDetectType item
            if detected.1 = detectedType then detected.2 else item)))])]

/-- **C5** — counterexample: the heterogeneous input `[1, "a"]` (detected
element types byte vs. string) does not fail: `createList` returns a
`{type:'list'}` tag that stores the mismatched string raw. -/
theorem c5_create_list_counterexample :
    (autoDetectType (.vNum 1)).1 = nByte ∧
    (autoDetectType (.vStr [97])).1 = nString ∧
    ¬ (nString = nByte) ∧
    createList [.vNum 1, .vStr [97]] none
      = .vObj [(keyType, .vStr nList), (keyValue,
          .vObj [(keyType, .vStr nByte),
            (keyValue, .vArr [.vNum 1, .vStr [97]])])] := by
  refine ⟨rfl, rfl, by decide, rfl⟩

/-- **C5.**  `createList` never fails: on every input (homogeneous or
not) it returns a `{type:'list'}` tag; each item whose detected type
matches the element type is stored converted, and every other item is
stored raw — no `ListTypeMismatch` error exists in the code. -/
theorem c5_create_list (items : List JSVal) (elem : Option (List Nat)) :
    ∃ et vs, createList items elem
      = .vObj [(keyType, .vStr nList), (keyValue,
          .vObj [(keyType, .vStr et), (keyValue, .vArr vs)])] ∧
      List.Forall₂ (fun item s =>
        s = (if (autoDetectType item).1 = et
             then (autoDetectType item).2 else item)) items vs := by
  match items with
  | [] =>
    exact ⟨jsOrStr elem nByte, [], rfl, List.Forall₂.nil⟩
  | x :: xs =>
    refine ⟨jsOrStr elem (autoDetectType x).1,
      (x :: xs).map (fun item =>
        let detected := autoDetectType item
        if detected.1 = jsOrStr elem (autoDetectType x).1 then detected.2 else item),
      rfl, ?_⟩
    generalize jsOrStr elem (autoDetectType x).1 = et
    induction (x :: xs) with
    | nil => exact List.Forall₂.nil
    | cons y ys ih =>
      exact List.Forall₂.cons rfl ih

/-! ### Size bounds for property lookup (termination of the validators) -/

theorem sizeOf_getField_le (fields : List (List Nat × JSVal)) (k : List Nat) :
    sizeOf (getField fields k) ≤ 1 + sizeOf fields := by
  induction fields with
  | nil => simp [getField]
  | cons e rest ih =>
    obtain ⟨k', x⟩ := e
    simp only [getField]
    split
    · simp only [List.cons.sizeOf_spec, Prod.mk.sizeOf_spec]
      omega
    · simp only [List.cons.sizeOf_spec, Prod.mk.sizeOf_spec]
      omega

theorem sizeOf_getField_pair (fields : List (List Nat × JSVal)) (k1 k2 : List Nat)
    (hne : k1 ≠ k2) :
    sizeOf (getField fields k1) + sizeOf (getField fields k2)
      ≤ 1 + sizeOf fields := by
  induction fields with
  | nil => simp [getField]
  | cons e rest ih =>
    obtain ⟨k', x⟩ := e
    simp only [getField]
    by_cases h1 : k' = k1
    · rw [if_pos h1, if_neg (by rw [h1]; exact hne)]
      have := sizeOf_getField_le rest k2
      simp only [List.cons.sizeOf_spec, Prod.mk.sizeOf_spec]
      omega
    · rw [if_neg h1]
      by_cases h2 : k' = k2
      · rw [if_pos h2]
        have := sizeOf_getField_le rest k1
        simp only [List.cons.sizeOf_spec, Prod.mk.sizeOf_spec]
        omega
      · rw [if_neg h2]
        simp only [List.cons.sizeOf_spec, Prod.mk.sizeOf_spec]
        omega

theorem sizeOf_getField_found (fields : List (List Nat × JSVal)) (k : List Nat)
    (hf : hasField fields k = true) :
    sizeOf (getField fields k) ≤ sizeOf fields := by
  induction fields with
  | nil => simp [hasField] at hf
  | cons e rest ih =>
    obtain ⟨k', x⟩ := e
    simp only [getField]
    by_cases h1 : k' = k
    · rw [if_pos h1]
      simp only [List.cons.sizeOf_spec, Prod.mk.sizeOf_spec]
      omega
    · rw [if_neg h1]
      have hf' : hasField rest k = true := by
        unfold hasField at hf ⊢
        rw [List.find?_cons_of_neg _ (by simp [h1])] at hf
        exact hf
      have := ih hf'
      simp only [List.cons.sizeOf_spec, Prod.mk.sizeOf_spec]
      omega

theorem sizeOf_getField_pair_found (fields : List (List Nat × JSVal))
    (k1 k2 : List Nat) (hne : k1 ≠ k2) (hf : hasField fields k2 = true) :
    sizeOf (getField fields k1) + sizeOf (getField fields k2)
      ≤ sizeOf fields := by
  induction fields with
  | nil => simp [hasField] at hf
  | cons e rest ih =>
    obtain ⟨k', x⟩ := e
    simp only [getField]
    by_cases h2 : k' = k2
    · have hne' : ¬ k' = k1 := fun h => hne (by rw [← h, h2])
      rw [if_neg hne', if_pos h2]
      have := sizeOf_getField_le rest k1
      simp only [List.cons.sizeOf_spec, Prod.mk.sizeOf_spec]
      omega
    · have hf' : hasField rest k2 = true := by
        unfold hasField at hf ⊢
        rw [List.find?_cons_of_neg _ (by simp [h2])] at hf
        exact hf
      rw [if_neg h2]
      by_cases h1 : k' = k1
      · rw [if_pos h1]
        have := sizeOf_getField_found rest k2 hf'
        simp only [List.cons.sizeOf_spec, Prod.mk.sizeOf_spec]
        omega
      · rw [if_neg h1]
        have := ih hf'
        simp only [List.cons.sizeOf_spec, Prod.mk.sizeOf_spec]
        omega

theorem hasField_of_getField_arr {fields : List (List Nat × JSVal)}
    {k : List Nat} {items : List JSVal} (h : getField fields k = .vArr items) :
    hasField fields k = true := by
  induction fields with
  | nil => cases h
  | cons e rest ih =>
    obtain ⟨k', x⟩ := e
    simp only [getField] at h
    unfold hasField
    by_cases h1 : k' = k
    · rw [List.find?_cons_of_pos _ (by simp [h1])]
      rfl
    · rw [List.find?_cons_of_neg _ (by simp [h1])]
      rw [if_neg h1] at h
      exact ih h

/-! ### `MinecraftNBT.validate` / `_validateTag` (mc-nbt.js:485-552)

Diagnostic messages are abstracted to their occurrences (`Unit` entries);
a thrown `TypeError` is `.error ()`.  The recursive list-item call
`_validateTag({type: tag.value.type, value: item}, ...)` is inlined in
`validateItems`: the constructed two-field object is a truthy object with
a `value` property, so `_validateTag` on it reduces to the falsy-type
check followed by the type-directed validation. -/

mutual

def validateTag : JSVal → Except Unit (List Unit)
  | .vObj fields =>
      if falsy (getField fields keyType) = true ∨ hasField fields keyValue = false
      then .ok [()]
      else validateTyped (getField fields keyType) (getField fields keyValue)
  | .vArr _ => .ok [()]
  | _ => .ok [()]
termination_by t => sizeOf t * 2 + 1
decreasing_by
  · have := sizeOf_getField_pair fields keyType keyValue (by decide)
    simp only [JSVal.vObj.sizeOf_spec]
    omega

def validateTyped (t v : JSVal) : Except Unit (List Unit) :=
  match t with
  | .vStr s =>
      if validTypeName s = false then .ok [()]
      else
        let low := lowerStr s
        if low = nCompound then
          match v with
          | .vObj entries => validateEntries entries
          | .vArr _ => .ok [()]
          | .vNull => .error ()
          | _ => .ok [()]
        else if low = nList then
          if falsy v then .ok [()]
          else match v with
            | .vObj entries =>
                if falsy (getField entries keyType) then .ok [()]
                else match hv : getField entries keyValue with
                  | .vArr items => validateItems (getField entries keyType) items
                  | _ => .ok [()]
            | _ => .ok [()]
        else if low = nByte then
          match v with
          | .vNum n => if n < -128 ∨ 127 < n then .ok [()] else .ok []
          | _ => .ok [()]
        else if low = nShort then
          match v with
          | .vNum n => if n < -32768 ∨ 32767 < n then .ok [()] else .ok []
          | _ => .ok [()]
        else if low = nInt then
          match v with
          | .vNum n => if n < -2147483648 ∨ 2147483647 < n then .ok [()] else .ok []
          | _ => .ok [()]
        else if low = nLong then
          match v with
          | .vBig _ => .ok []
          | _ => .ok [()]
        else .ok []
  | .vNull => .error ()
  | .vUndef => .error ()
  | _ => .error ()
termination_by (sizeOf t + sizeOf v) * 2
decreasing_by
  · simp only [JSVal.vObj.sizeOf_spec]
    omega
  · have h1 := sizeOf_getField_pair_found entries keyType keyValue (by decide)
      (hasField_of_getField_arr hv)
    rw [hv] at h1
    simp only [JSVal.vObj.sizeOf_spec, JSVal.vArr.sizeOf_spec] at h1 ⊢
    omega

def validateEntries : List (List Nat × JSVal) → Except Unit (List Unit)
  | [] => .ok []
  | (_, child) :: rest => do
      let e1 ← validateTag child
      let e2 ← validateEntries rest
      pure (e1 ++ e2)
termination_by entries => sizeOf entries * 2
decreasing_by
  · simp only [List.cons.sizeOf_spec, Prod.mk.sizeOf_spec]
    omega
  · simp only [List.cons.sizeOf_spec]
    omega

def validateItems (t : JSVal) : List JSVal → Except Unit (List Unit)
  | [] => .ok []
  | item :: rest => do
      let e1 ← if falsy t then pure [()] else validateTyped t item
      let e2 ← validateItems t rest
      pure (e1 ++ e2)
termination_by items => (sizeOf t + sizeOf items) * 2
decreasing_by
  · simp only [List.cons.sizeOf_spec]
    omega
  · simp only [List.cons.sizeOf_spec]
    omega

end

/-- `MinecraftNBT.validate`. -/
def validate (nbtData : JSVal) : Except Unit (List Unit) := validateTag nbtData

/-- **C8** — counterexample: `validate({type:'compound', value:null})`
reaches `Object.entries(null)` and throws a `TypeError` instead of
returning diagnostics. -/
theorem c8_validate_counterexample :
    validate (.vObj [(keyType, .vStr nCompound), (keyValue, .vNull)])
      = .error () := by
  unfold validate
  rw [validateTag]
  rw [if_neg (by decide)]
  rw [show getField [(keyType, JSVal.vStr nCompound), (keyValue, JSVal.vNull)] keyType
      = .vStr nCompound from rfl]
  rw [show getField [(keyType, JSVal.vStr nCompound), (keyValue, JSVal.vNull)] keyValue
      = .vNull from rfl]
  rw [validateTyped]
  rw [if_neg (by decide), if_pos (by decide)]

/-- The `type` field of an object, if present and truthy, is a string —
the condition under which `tag.type.toUpperCase()` cannot throw. -/
def typeFieldOk (fields : List (List Nat × JSVal)) : Bool :=
  match getField fields keyType with
  | .vStr _ => true
  | x => falsy x

mutual

/-- The null-free, string-typed fragment: no `null` anywhere and every
object's truthy `type` property is a string.  On it `_validateTag` cannot
reach either of its two throw sites (`.toUpperCase()` on a non-string and
`Object.entries(null)`). -/
def noThrow : JSVal → Bool
  | .vObj fields => typeFieldOk fields && noThrowFields fields
  | .vArr items => noThrowList items
  | .vNull => false
  | _ => true

def noThrowFields : List (List Nat × JSVal) → Bool
  | [] => true
  | (_, x) :: rest => noThrow x && noThrowFields rest

def noThrowList : List JSVal → Bool
  | [] => true
  | x :: xs => noThrow x && noThrowList xs

end

theorem noThrow_getField {fields : List (List Nat × JSVal)}
    (h : noThrowFields fields = true) (k : List Nat) :
    noThrow (getField fields k) = true := by
  induction fields with
  | nil => rfl
  | cons e rest ih =>
    obtain ⟨k', x⟩ := e
    rw [noThrowFields, Bool.and_eq_true] at h
    rw [getField]
    split
    · exact h.1
    · exact ih h.2

theorem one_le_sizeOf_js (v : JSVal) : 1 ≤ sizeOf v := by
  cases v <;> simp

theorem ebind_ok {α β : Type} (a : α) (f : α → Except Unit β) :
    (Except.ok a : Except Unit α) >>= f = f a := rfl

theorem epure_ok {α : Type} (a : α) : (pure a : Except Unit α) = Except.ok a := rfl

set_option maxHeartbeats 1000000 in
/-- The workhorse behind the amended C8 statement, by strong induction on
the same measure that terminates the validator. -/
theorem validate_ok_aux : ∀ N : Nat,
    (∀ v, 2 * sizeOf v + 1 ≤ N → noThrow v = true →
      ∃ e, validateTag v = .ok e) ∧
    (∀ s v, 2 * (sizeOf (JSVal.vStr s) + sizeOf v) ≤ N → noThrow v = true →
      ∃ e, validateTyped (.vStr s) v = .ok e) ∧
    (∀ t items, 2 * (sizeOf t + sizeOf items) ≤ N →
      ((∃ s, t = JSVal.vStr s) ∨ falsy t = true) → noThrowList items = true →
      ∃ e, validateItems t items = .ok e) ∧
    (∀ entries, 2 * sizeOf entries ≤ N → noThrowFields entries = true →
      ∃ e, validateEntries entries = .ok e) := by
  intro N
  induction N using Nat.strong_induction_on with
  | _ N IH =>
  refine ⟨?_, ?_, ?_, ?_⟩
  · -- validateTag
    intro v hN hnt
    match v with
    | .vObj fields =>
      rw [validateTag]
      split
      · exact ⟨[()], rfl⟩
      case isFalse hcond =>
        push_neg at hcond
        obtain ⟨hc1, hc2⟩ := hcond
        rw [noThrow, Bool.and_eq_true] at hnt
        have h1 := hnt.1
        unfold typeFieldOk at h1
        cases hgf : getField fields keyType with
        | vStr s =>
          have hsz := sizeOf_getField_pair fields keyType keyValue (by decide)
          rw [hgf] at hsz
          have hnv := noThrow_getField hnt.2 keyValue
          have hszObj : sizeOf (JSVal.vObj fields) = 1 + sizeOf fields := by
            simp
          refine (IH (2 * (sizeOf (JSVal.vStr s) + sizeOf (getField fields keyValue)))
            (by omega)).2.1 s _ (Nat.le_refl _) hnv
        | vUndef =>
          rw [hgf] at h1 hc1
          dsimp only at h1
          exact absurd h1 hc1
        | vNull =>
          rw [hgf] at h1 hc1
          dsimp only at h1
          exact absurd h1 hc1
        | vBool b =>
          rw [hgf] at h1 hc1
          dsimp only at h1
          exact absurd h1 hc1
        | vNum n =>
          rw [hgf] at h1 hc1
          dsimp only at h1
          exact absurd h1 hc1
        | vFrac bits =>
          rw [hgf] at h1 hc1
          dsimp only at h1
          exact absurd h1 hc1
        | vBig n =>
          rw [hgf] at h1 hc1
          dsimp only at h1
          exact absurd h1 hc1
        | vArr items =>
          rw [hgf] at h1 hc1
          dsimp only at h1
          exact absurd h1 hc1
        | vObj f2 =>
          rw [hgf] at h1 hc1
          dsimp only at h1
          exact absurd h1 hc1
    | .vArr items => exact ⟨[()], by rw [validateTag]⟩
    | .vUndef => exact ⟨[()], by rw [validateTag] <;> rintro _ ⟨⟩⟩
    | .vNull => exact ⟨[()], by rw [validateTag] <;> rintro _ ⟨⟩⟩
    | .vBool b => exact ⟨[()], by rw [validateTag] <;> rintro _ ⟨⟩⟩
    | .vNum n => exact ⟨[()], by rw [validateTag] <;> rintro _ ⟨⟩⟩
    | .vFrac bits => exact ⟨[()], by rw [validateTag] <;> rintro _ ⟨⟩⟩
    | .vBig n => exact ⟨[()], by rw [validateTag] <;> rintro _ ⟨⟩⟩
    | .vStr s => exact ⟨[()], by rw [validateTag] <;> rintro _ ⟨⟩⟩
  · -- validateTyped on a string type
    intro s v hN hnt
    cases v with
    | vNull => rw [noThrow] at hnt; cases hnt
    | vObj entries =>
      rw [validateTyped]
      split
      · exact ⟨[()], rfl⟩
      · dsimp only
        by_cases hcomp : lowerStr s = nCompound
        · rw [if_pos hcomp]
          rw [noThrow, Bool.and_eq_true] at hnt
          have hszv : sizeOf (JSVal.vObj entries) = 1 + sizeOf entries := by simp
          exact (IH (2 * sizeOf entries) (by
            have hszs : 1 ≤ sizeOf (JSVal.vStr s) := by simp
            omega)).2.2.2 entries (Nat.le_refl _) hnt.2
        · rw [if_neg hcomp]
          by_cases hlist : lowerStr s = nList
          · rw [if_pos hlist]
            rw [if_neg (by simp [falsy])]
            split
            · exact ⟨[()], rfl⟩
            · 
              rw [noThrow, Bool.and_eq_true] at hnt
              split
              next items hv =>
                have hnl : noThrowList items = true := by
                  have := noThrow_getField hnt.2 keyValue
                  rw [hv] at this
                  rw [noThrow] at this
                  exact this
                have htok : (∃ s2, getField entries keyType = JSVal.vStr s2) ∨
                    falsy (getField entries keyType) = true := by
                  have h1 := hnt.1
                  unfold typeFieldOk at h1
                  split at h1
                  case h_1 s2 heq => exact Or.inl ⟨_, heq⟩
                  case h_2 => exact Or.inr h1
                have hsz := sizeOf_getField_pair_found entries keyType keyValue
                  (by decide) (hasField_of_getField_arr hv)
                rw [hv] at hsz
                have hszv : sizeOf (JSVal.vObj entries) = 1 + sizeOf entries := by
                  simp
                have hszArr : sizeOf (JSVal.vArr items) = 1 + sizeOf items := by
                  simp
                exact (IH (2 * (sizeOf (getField entries keyType) + sizeOf items))
                  (by omega)).2.2.1 _ items (Nat.le_refl _) htok hnl
              next x hv => exact ⟨[()], rfl⟩
          · rw [if_neg hlist]
            by_cases hbyte : lowerStr s = nByte
            · rw [if_pos hbyte]; exact ⟨[()], rfl⟩
            · rw [if_neg hbyte]
              by_cases hshort : lowerStr s = nShort
              · rw [if_pos hshort]; exact ⟨[()], rfl⟩
              · rw [if_neg hshort]
                by_cases hint : lowerStr s = nInt
                · rw [if_pos hint]; exact ⟨[()], rfl⟩
                · rw [if_neg hint]
                  by_cases hlong : lowerStr s = nLong
                  · rw [if_pos hlong]; exact ⟨[()], rfl⟩
                  · rw [if_neg hlong]; exact ⟨[], rfl⟩
    | vUndef =>
      rw [validateTyped]
      all_goals try dsimp only
      all_goals repeat' split
      all_goals first
        | exact ⟨_, rfl⟩
        | (rintro _ ⟨⟩)
        | (rintro ⟨⟩)
    | vBool b =>
      rw [validateTyped]
      all_goals try dsimp only
      all_goals repeat' split
      all_goals first
        | exact ⟨_, rfl⟩
        | (rintro _ ⟨⟩)
        | (rintro ⟨⟩)
    | vNum n =>
      rw [validateTyped]
      all_goals try dsimp only
      all_goals repeat' split
      all_goals first
        | exact ⟨_, rfl⟩
        | (rintro _ ⟨⟩)
        | (rintro ⟨⟩)
    | vFrac bits =>
      rw [validateTyped]
      all_goals try dsimp only
      all_goals repeat' split
      all_goals first
        | exact ⟨_, rfl⟩
        | (rintro _ ⟨⟩)
        | (rintro ⟨⟩)
    | vBig n =>
      rw [validateTyped]
      all_goals try dsimp only
      all_goals repeat' split
      all_goals first
        | exact ⟨_, rfl⟩
        | (rintro _ ⟨⟩)
        | (rintro ⟨⟩)
    | vStr s2 =>
      rw [validateTyped]
      all_goals try dsimp only
      all_goals repeat' split
      all_goals first
        | exact ⟨_, rfl⟩
        | (rintro _ ⟨⟩)
        | (rintro ⟨⟩)
    | vArr items =>
      rw [validateTyped]
      all_goals try dsimp only
      all_goals repeat' split
      all_goals first
        | exact ⟨_, rfl⟩
        | (rintro _ ⟨⟩)
        | (rintro ⟨⟩)
  · -- validateItems
    intro t items hN htok hnl
    match items with
    | [] => exact ⟨[], by rw [validateItems]⟩
    | item :: rest =>
      rw [noThrowList, Bool.and_eq_true] at hnl
      have hszc : sizeOf (item :: rest) = 1 + sizeOf item + sizeOf rest := by
        simp only [List.cons.sizeOf_spec]
      have hstep : ∃ e1, (if falsy t then pure [()]
          else validateTyped t item) = Except.ok e1 := by
        by_cases hf : falsy t = true
        · rw [if_pos hf]; exact ⟨[()], rfl⟩
        · rw [if_neg hf]
          rcases htok with ⟨s, rfl⟩ | hft
          · exact (IH (2 * (sizeOf (JSVal.vStr s) + sizeOf item))
              (by omega)).2.1 s item (Nat.le_refl _) hnl.1
          · exact absurd hft hf
      obtain ⟨e1, he1⟩ := hstep
      obtain ⟨e2, he2⟩ := (IH (2 * (sizeOf t + sizeOf rest)) (by
        have h1 := one_le_sizeOf_js item
        omega)).2.2.1 t rest (Nat.le_refl _) htok hnl.2
      refine ⟨e1 ++ e2, ?_⟩
      rw [validateItems]
      by_cases hf : falsy t = true
      · rw [if_pos hf] at he1 ⊢
        rw [epure_ok] at he1
        have he1' : e1 = [()] := by cases he1; rfl
        subst he1'
        rw [show ((pure [()] : Except Unit (List Unit)) >>= fun e1 => do
            let e2 ← validateItems t rest
            pure (e1 ++ e2)) = (do
            let e2 ← validateItems t rest
            pure ([()] ++ e2) : Except Unit (List Unit)) from rfl]
        rw [he2]
        rfl
      · rw [if_neg hf] at he1 ⊢
        rw [he1, ebind_ok, he2]
        rfl
  · -- validateEntries
    intro entries hN hne
    match entries with
    | [] => exact ⟨[], by rw [validateEntries]⟩
    | (k, child) :: rest =>
      rw [noThrowFields, Bool.and_eq_true] at hne
      have hszc : sizeOf ((k, child) :: rest)
          = 1 + (1 + sizeOf k + sizeOf child) + sizeOf rest := by
        simp only [List.cons.sizeOf_spec, Prod.mk.sizeOf_spec]
      obtain ⟨e1, he1⟩ := (IH (2 * sizeOf child + 1) (by omega)).1 child
        (Nat.le_refl _) hne.1
      obtain ⟨e2, he2⟩ := (IH (2 * sizeOf rest) (by
        have h1 := one_le_sizeOf_js child
        omega)).2.2.2 rest (Nat.le_refl _) hne.2
      refine ⟨e1 ++ e2, ?_⟩
      rw [validateEntries, he1, ebind_ok, he2]
      rfl

/-- **C8.**  On the null-free, string-typed fragment — every value with no
`null` inside and whose objects carry only string (or absent/falsy)
`type` properties — `validate` terminates normally and returns its list
of diagnostics; in this pure embedding it cannot mutate its argument.
(Outside that fragment it can throw: see the counterexample.) -/
theorem c8_validate_diagnostics (v : JSVal) (h : noThrow v = true) :
    ∃ e, validate v = Except.ok e := by
  unfold validate
  exact (validate_ok_aux (2 * sizeOf v + 1)).1 v (Nat.le_refl _) h

/-- **C8** — witness: a well-formed byte tag is validated without error. -/
theorem c8_validate_diagnostics_witness :
    noThrow (.vObj [(keyType, .vStr nByte), (keyValue, .vNum 5)]) = true ∧
    ∃ e, validate (.vObj [(keyType, .vStr nByte), (keyValue, .vNum 5)])
      = Except.ok e :=
  ⟨by decide,
   c8_validate_diagnostics (.vObj [(keyType, .vStr nByte), (keyValue, .vNum 5)])
     (by decide)⟩

/-! ### `SNBTConverter.fromJSON` / `toJSON` (snbt-converter.js)

`fromJSON` is modelled with its default `inferTypes = true`.  `none`
marks a computation that leaves the byte-exact fragment (string→number
coercions, non-integer arithmetic) or throws (`BigInt(null)`,
`Object.entries(null)`, `.map`/`.toLowerCase` on unsuitable values). -/

/-- `Math.floor(Number(value))` on the modelled fragment. -/
def jsFloorNumber : JSVal → Option Int
  | .vNum n => some n
  | .vBool b => some (if b then 1 else 0)
  | .vNull => some 0
  | _ => none

/-- `BigInt(value)`; throws on `null`, non-integer numbers and
`undefined`. -/
def jsBigIntOf : JSVal → Option JSVal
  | .vNum n => some (.vBig n)
  | .vBool b => some (.vBig (if b then 1 else 0))
  | .vBig n => some (.vBig n)
  | _ => none

/-- `Number(value)` on the modelled fragment. -/
def jsNumberOf : JSVal → Option JSVal
  | .vNum n => some (.vNum n)
  | .vFrac bits => some (.vFrac bits)
  | .vBool b => some (.vNum (if b then 1 else 0))
  | .vNull => some (.vNum 0)
  | _ => none

/-- `SNBTConverter.convertToType`. -/
def convertToType (value : JSVal) (t : List Nat) : Option JSVal :=
  let low := lowerStr t
  if low = nByte then
    (jsFloorNumber value).map (fun n => .vNum (max (-128) (min 127 n)))
  else if low = nShort then
    (jsFloorNumber value).map (fun n => .vNum (max (-32768) (min 32767 n)))
  else if low = nInt then
    (jsFloorNumber value).map (fun n => .vNum (max (-2147483648) (min 2147483647 n)))
  else if low = nLong then jsBigIntOf value
  else if low = nFloat ∨ low = nDouble then jsNumberOf value
  else if low = nString then (jsStringOf value).map .vStr
  else some value

mutual

/-- `convertValue(value, expectedType)` of `fromJSON`, as the
(type-name, value) pair of the tag it builds.  A BigInt input falls past
every `inferTypes` test to the `String(value)` fallback; in particular
the integer branch has `byte` and `short` range tests but **no** `long`
branch — everything beyond the short range becomes `{type:'int'}`. -/
def convertFJ : JSVal → Option (List Nat) → Option (List Nat × JSVal)
  | .vNull, _ => some (nByte, .vNum 0)
  | .vUndef, _ => some (nByte, .vNum 0)
  | value, some t => (convertToType value t).map (fun v => (t, v))
  | .vBool b, none => some (nByte, .vNum (if b then 1 else 0))
  | .vNum n, none =>
      if -128 ≤ n ∧ n ≤ 127 then some (nByte, .vNum n)
      else if -32768 ≤ n ∧ n ≤ 32767 then some (nShort, .vNum n)
      else some (nInt, .vNum n)
  | .vFrac bits, none => some (nDouble, .vFrac bits)
  | .vStr s, none => some (nString, .vStr s)
  | .vArr [], none =>
      some (nList, .vObj [(keyType, .vStr nByte), (keyValue, .vArr [])])
  | .vArr (x :: xs), none => do
      let p ← convertFJ x none
      let items ← convertFJItems p.1 (x :: xs)
      pure (nList, .vObj [(keyType, .vStr p.1), (keyValue, .vArr items)])
  | .vObj fields, none => do
      let entries ← convertFJFields fields
      pure (nCompound, .vObj entries)
  | .vBig n, none => some (nString, .vStr (intDec n))

/-- `value.map(item => convertValue(item, firstType).value)`. -/
def convertFJItems (t : List Nat) : List JSVal → Option (List JSVal)
  | [] => some []
  | item :: rest => do
      let p ← convertFJ item (some t)
      let rest2 ← convertFJItems t rest
      pure (p.2 :: rest2)

/-- The compound loop `compound[key] = convertValue(val)`. -/
def convertFJFields : List (List Nat × JSVal) → Option (List (List Nat × JSVal))
  | [] => some []
  | (k, val) :: rest => do
      let p ← convertFJ val none
      let rest2 ← convertFJFields rest
      pure ((k, toTagObj p) :: rest2)

end

/-- `SNBTConverter.fromJSON` (with `inferTypes` defaulted). -/
def fromJSON (jsonData : JSVal) : Option JSVal :=
  match jsonData with
  | .vObj fields => do
      let p ← convertFJ (getField fields keyValue) none
      pure (.vObj [(keyName, jsOrV (getField fields keyName) (.vStr [])),
        (keyType, jsOrV (getField fields keyType) (.vStr nCompound)),
        (keyValue, p.2)])
  | .vArr _ => do
      let p ← convertFJ .vUndef none
      pure (.vObj [(keyName, .vStr []), (keyType, .vStr nCompound),
        (keyValue, p.2)])
  | _ => some .vNull

/-- `value.toString()` on the modelled fragment; throws on
`null`/`undefined`. -/
def jsToStr : JSVal → Option (List Nat)
  | .vBig n => some (intDec n)
  | .vNum n => some (intDec n)
  | .vStr s => some s
  | .vBool true => some [116, 114, 117, 101]
  | .vBool false => some [102, 97, 108, 115, 101]
  | _ => none

/-- `value.map(v => v.toString())` of the `long_array` case. -/
def mapToStr : List JSVal → Option (List JSVal)
  | [] => some []
  | x :: xs => do
      let s ← jsToStr x
      let r ← mapToStr xs
      pure (.vStr s :: r)

mutual

/-- `convertValue(tag)` of `toJSON`. -/
def convertTJ : JSVal → Option JSVal
  | .vObj fields => convertTJTyped (getField fields keyType) (getField fields keyValue)
  | .vArr _ => some .vUndef
  | v => some v
termination_by v => sizeOf v * 2 + 1
decreasing_by
  · have := sizeOf_getField_pair fields keyType keyValue (by decide)
    simp only [JSVal.vObj.sizeOf_spec]
    omega

/-- The `switch (type?.toLowerCase())` of `toJSON`'s `convertValue`; the
recursive list-item call on the constructed `{type: value.type, value:
item}` object is inlined in `convertTJItems`. -/
def convertTJTyped (t v : JSVal) : Option JSVal :=
  match t with
  | .vNull => some v
  | .vUndef => some v
  | .vStr s =>
      let low := lowerStr s
      if low = nByte ∨ low = nShort ∨ low = nInt ∨ low = nFloat ∨ low = nDouble
      then some v
      else if low = nLong then (jsToStr v).map .vStr
      else if low = nString then some v
      else if low = nByteArray ∨ low = nIntArray then some v
      else if low = nLongArray then
        match v with
        | .vArr items => (mapToStr items).map .vArr
        | _ => none
      else if low = nList then
        match v with
        | .vObj entries =>
            match hv : getField entries keyValue with
            | .vArr items =>
                (convertTJItems (getField entries keyType) items).map .vArr
            | _ => none
        | _ => none
      else if low = nCompound then
        match v with
        | .vObj entries => (convertTJFields entries).map .vObj
        | .vNull => none
        | .vUndef => none
        | .vArr _ => none
        | .vStr _ => none
        | _ => some (.vObj [])
      else some v
  | _ => none
termination_by (sizeOf t + sizeOf v) * 2
decreasing_by
  · have h1 := sizeOf_getField_pair_found entries keyType keyValue (by decide)
      (hasField_of_getField_arr hv)
    rw [hv] at h1
    simp only [JSVal.vObj.sizeOf_spec, JSVal.vArr.sizeOf_spec] at h1 ⊢
    omega
  · simp only [JSVal.vObj.sizeOf_spec]
    omega

/-- `value.value.map(item => convertValue({type: value.type, value: item}))`. -/
def convertTJItems (t : JSVal) : List JSVal → Option (List JSVal)
  | [] => some []
  | item :: rest => do
      let j ← convertTJTyped t item
      let r ← convertTJItems t rest
      pure (j :: r)
termination_by items => (sizeOf t + sizeOf items) * 2
decreasing_by
  · simp only [List.cons.sizeOf_spec]
    omega
  · simp only [List.cons.sizeOf_spec]
    omega

/-- The compound loop `result[key] = convertValue(tag)`. -/
def convertTJFields : List (List Nat × JSVal) → Option (List (List Nat × JSVal))
  | [] => some []
  | (k, child) :: rest => do
      let j ← convertTJ child
      let r ← convertTJFields rest
      pure ((k, j) :: r)
termination_by entries => sizeOf entries * 2
decreasing_by
  · simp only [List.cons.sizeOf_spec, Prod.mk.sizeOf_spec]
    omega
  · simp only [List.cons.sizeOf_spec]
    omega

end

/-- `SNBTConverter.toJSON`. -/
def toJSON (nbtData : JSVal) : Option JSVal :=
  match nbtData with
  | .vObj fields => do
      let v ← convertTJ (.vObj fields)
      pure (.vObj [(keyName, getField fields keyName),
        (keyType, getField fields keyType), (keyValue, v)])
  | .vArr items => do
      let v ← convertTJ (.vArr items)
      pure (.vObj [(keyName, .vUndef), (keyType, .vUndef), (keyValue, v)])
  | _ => some .vNull

/-- **C6.**  JSON ingest of `{type:'compound', value:{n: 2^63 − 1}}`
stores `n` as `{type:'int', value: 2^63 − 1}` — not as a Long —
because `fromJSON`'s number inference has byte and short range tests but
no long branch; and the JSON view of that document renders `n` as the
bare number again, not as the decimal string the specification promises.
The code contradicts spec §S4 on both counts. -/
theorem c6_long_inference :
    fromJSON (.vObj [(keyType, .vStr nCompound),
        (keyValue, .vObj [([110], .vNum 9223372036854775807)])])
      = some (.vObj [(keyName, .vStr []), (keyType, .vStr nCompound),
          (keyValue, .vObj [([110], .vObj [(keyType, .vStr nInt),
            (keyValue, .vNum 9223372036854775807)])])]) ∧
    ¬ (nInt = nLong) ∧
    toJSON (.vObj [(keyName, .vStr []), (keyType, .vStr nCompound),
        (keyValue, .vObj [([110], .vObj [(keyType, .vStr nInt),
          (keyValue, .vNum 9223372036854775807)])])])
      = some (.vObj [(keyName, .vStr []), (keyType, .vStr nCompound),
          (keyValue, .vObj [([110], .vNum 9223372036854775807)])]) ∧
    ¬ (JSVal.vNum 9223372036854775807
        = .vStr (intDec 9223372036854775807)) := by
  refine ⟨rfl, by decide, ?_, by intro h; cases h⟩
  have hinner : convertTJ (.vObj [(keyType, .vStr nInt),
      (keyValue, .vNum 9223372036854775807)]) = some (.vNum 9223372036854775807) := by
    rw [convertTJ]
    rw [show getField [(keyType, JSVal.vStr nInt),
        (keyValue, JSVal.vNum 9223372036854775807)] keyType = .vStr nInt from rfl]
    rw [show getField [(keyType, JSVal.vStr nInt),
        (keyValue, JSVal.vNum 9223372036854775807)] keyValue
        = .vNum 9223372036854775807 from rfl]
    rw [convertTJTyped]
    rw [if_pos (by decide)]
    all_goals first
      | (rintro _ ⟨⟩)
      | (rintro ⟨⟩)
  have houter : convertTJ (.vObj [(keyName, .vStr []), (keyType, .vStr nCompound),
      (keyValue, .vObj [([110], .vObj [(keyType, .vStr nInt),
        (keyValue, .vNum 9223372036854775807)])])])
      = some (.vObj [([110], .vNum 9223372036854775807)]) := by
    rw [convertTJ]
    rw [show getField [(keyName, JSVal.vStr []), (keyType, JSVal.vStr nCompound),
        (keyValue, JSVal.vObj [([110], JSVal.vObj [(keyType, JSVal.vStr nInt),
          (keyValue, JSVal.vNum 9223372036854775807)])])] keyType
        = .vStr nCompound from rfl]
    rw [show getField [(keyName, JSVal.vStr []), (keyType, JSVal.vStr nCompound),
        (keyValue, JSVal.vObj [([110], JSVal.vObj [(keyType, JSVal.vStr nInt),
          (keyValue, JSVal.vNum 9223372036854775807)])])] keyValue
        = .vObj [([110], JSVal.vObj [(keyType, JSVal.vStr nInt),
            (keyValue, JSVal.vNum 9223372036854775807)])] from rfl]
    rw [convertTJTyped]
    rw [if_neg (by decide), if_neg (by decide), if_neg (by decide),
      if_neg (by decide), if_neg (by decide), if_neg (by decide),
      if_pos (by decide)]
    rw [convertTJFields, hinner]
    rw [show (convertTJFields ([] : List (List Nat × JSVal))) = some [] from
      by rw [convertTJFields]]
    rfl
  unfold toJSON
  dsimp only
  rw [houter]
  rfl

/-! ## SNBT text conversion (`SNBTConverter.toSNBT` / `fromSNBT` and the
`SNBTParser` class, snbt-converter.js).

The text is a byte list (JS strings as UTF-8).  The character classes
below are the byte-level readings of the regexes used by the parser; on
the ASCII range they coincide with the JS semantics, and bytes ≥ 128
(continuation bytes of multi-byte UTF-8 sequences) match none of them,
exactly as the corresponding UTF-16 units match none of the regexes. -/

/-- The whitespace class matched by `/\s/` and `trim()` on the emitted
alphabet. -/
def isWs (c : Nat) : Bool :=
  c == 32 || c == 9 || c == 10 || c == 11 || c == 12 || c == 13

def isDigit (c : Nat) : Bool := 48 ≤ c && c ≤ 57

/-- The digit-run class of `parseNumber`. -/
def isNumChar (c : Nat) : Bool := isDigit c || c == 46

/-- The numeric suffix class of `parseNumber`. -/
def isSufByte (c : Nat) : Bool :=
  c == 98 || c == 115 || c == 108 || c == 102 || c == 100 ||
  c == 66 || c == 83 || c == 76 || c == 70 || c == 68

/-- The bare-key character class of `parseKey` (and of the tail of the
writer the bare-key regex). -/
def isKeyChar (c : Nat) : Bool :=
  (97 ≤ c && c ≤ 122) || (65 ≤ c && c ≤ 90) || isDigit c ||
  c == 95 || c == 45 || c == 46 || c == 43

/-- First-character class of the writer the bare-key regex. -/
def isAlphaU (c : Nat) : Bool :=
  (97 ≤ c && c ≤ 122) || (65 ≤ c && c ≤ 90) || c == 95

/-- The writer the bare-key regex `[a-zA-Z_][a-zA-Z0-9_.+-]*` as a whole. -/
def bareKeyOk : List Nat → Bool
  | [] => false
  | c :: rest => isAlphaU c && rest.all isKeyChar

/-- `skipWhitespace()`: the position after the run of whitespace at
`pos`. -/
def skipWs (input : List Nat) (pos : Nat) : Nat :=
  pos + ((input.drop pos).takeWhile isWs).length

/-- `snbtString.trim()` in the parser constructor. -/
def jsTrim (s : List Nat) : List Nat :=
  ((s.dropWhile isWs).reverse.dropWhile isWs).reverse

/-! ### Segment-at-position infrastructure (Nat offsets) -/

/-- `seg` occupies `input` at position `pos`. -/
def SegN (input : List Nat) (pos : Nat) (seg : List Nat) : Prop :=
  ∃ pre post, input = pre ++ (seg ++ post) ∧ pos = pre.length

theorem SegN.refl (s : List Nat) : SegN s 0 s :=
  ⟨[], [], by simp, rfl⟩

theorem SegN.front {input : List Nat} {pos : Nat} {a b : List Nat}
    (h : SegN input pos (a ++ b)) : SegN input pos a := by
  obtain ⟨pre, post, hb, ho⟩ := h
  exact ⟨pre, b ++ post, by rw [hb]; simp [List.append_assoc], ho⟩

theorem SegN.after {input : List Nat} {pos : Nat} {a b : List Nat}
    (h : SegN input pos (a ++ b)) : SegN input (pos + a.length) b := by
  obtain ⟨pre, post, hb, ho⟩ := h
  refine ⟨pre ++ a, post, by rw [hb]; simp [List.append_assoc], by simp [ho]⟩

theorem SegN.drop_eq {input : List Nat} {pos : Nat} {seg : List Nat}
    (h : SegN input pos seg) : ∃ post, input.drop pos = seg ++ post := by
  obtain ⟨pre, post, hb, ho⟩ := h
  exact ⟨post, by rw [hb, ho, List.drop_append_of_le_length (le_refl _)]; simp⟩

theorem SegN.peek {input : List Nat} {pos : Nat} {c : Nat} {rest : List Nat}
    (h : SegN input pos (c :: rest)) : input[pos]? = some c := by
  obtain ⟨pre, post, hb, ho⟩ := h
  rw [hb, ho, List.getElem?_append_right (le_refl _)]
  simp

theorem SegN.bound {input : List Nat} {pos : Nat} {seg : List Nat}
    (h : SegN input pos seg) : pos + seg.length ≤ input.length := by
  obtain ⟨pre, post, hb, ho⟩ := h
  rw [hb, ho]
  simp


theorem SegN.cons_tail {input : List Nat} {pos : Nat} {c : Nat} {rest : List Nat}
    (h : SegN input pos (c :: rest)) : SegN input (pos + 1) rest := by
  have := SegN.after (a := [c]) (b := rest) (by simpa using h)
  simpa using this

/-! ### takeWhile / skipWhitespace lemmas -/

theorem takeWhile_append_all {p : Nat → Bool} {a : List Nat} (b : List Nat)
    (h : a.all p = true) : (a ++ b).takeWhile p = a ++ b.takeWhile p := by
  induction a with
  | nil => rfl
  | cons x xs ih =>
      simp only [List.all_cons, Bool.and_eq_true] at h
      simp [List.takeWhile_cons, h.1, ih h.2]

theorem takeWhile_neg_head {p : Nat → Bool} {c : Nat} (rest : List Nat)
    (h : p c = false) : (c :: rest).takeWhile p = [] := by
  simp [List.takeWhile_cons, h]

/-- `skipWhitespace` at a segment `w ++ (c :: r)` with `w` all whitespace
and `c` not whitespace lands exactly past `w`. -/
theorem skipWs_seg {input : List Nat} {pos : Nat} {w : List Nat} {c : Nat} {r : List Nat}
    (h : SegN input pos (w ++ (c :: r))) (hw : w.all isWs = true)
    (hc : isWs c = false) : skipWs input pos = pos + w.length := by
  obtain ⟨post, hd⟩ := SegN.drop_eq h
  unfold skipWs
  rw [hd, List.append_assoc, takeWhile_append_all _ hw]
  rw [show (c :: r) ++ post = c :: (r ++ post) from rfl, takeWhile_neg_head _ hc]
  simp

/-- `skipWhitespace` is a no-op on a non-whitespace head. -/
theorem skipWs_nop {input : List Nat} {pos : Nat} {c : Nat} {r : List Nat}
    (h : SegN input pos (c :: r)) (hc : isWs c = false) :
    skipWs input pos = pos := by
  have := skipWs_seg (w := []) (by simpa using h) rfl hc
  simpa using this

/-! ### Decimal digit runs -/

/-- The exact value of a decimal digit run (what `parseInt` and `BigInt`
compute on an all-digit string). -/
def decVal (ds : List Nat) : Nat := ds.foldl (fun a c => a * 10 + (c - 48)) 0

theorem decVal_append_digit (a : List Nat) (d : Nat) :
    decVal (a ++ [d]) = decVal a * 10 + (d - 48) := by
  unfold decVal
  rw [List.foldl_append]
  rfl

theorem natDecAux_spec : ∀ fuel n, n < fuel →
    natDecAux fuel n ≠ [] ∧ (natDecAux fuel n).all isDigit = true ∧
      decVal (natDecAux fuel n) = n := by
  intro fuel
  induction fuel with
  | zero => intro n h; omega
  | succ f ih =>
      intro n h
      unfold natDecAux
      by_cases hn : n < 10
      · rw [if_pos hn]
        refine ⟨by simp, by simp [isDigit]; omega, ?_⟩
        unfold decVal
        simp
      · rw [if_neg hn]
        have hlt : n / 10 < f := by
          have := Nat.div_lt_self (by omega : 0 < n) (by omega : 1 < 10)
          omega
        obtain ⟨h1, h2, h3⟩ := ih (n / 10) hlt
        have hm : n % 10 < 10 := Nat.mod_lt _ (by omega)
        refine ⟨by simp, ?_, ?_⟩
        · rw [List.all_append, h2]
          simp [isDigit]
          omega
        · rw [decVal_append_digit, h3]
          omega

theorem natDec_spec (n : Nat) :
    natDec n ≠ [] ∧ (natDec n).all isDigit = true ∧ decVal (natDec n) = n :=
  natDecAux_spec (n + 1) n (by omega)

theorem isWs_of_digit {c : Nat} (h : isDigit c = true) : isWs c = false := by
  simp only [isDigit, Bool.and_eq_true, decide_eq_true_eq] at h
  simp only [isWs]
  simp only [Bool.or_eq_false_iff, beq_eq_false_iff_ne, ne_eq]
  omega

theorem natDec_head (n : Nat) :
    ∃ c r, natDec n = c :: r ∧ isDigit c = true := by
  obtain ⟨h1, h2, _⟩ := natDec_spec n
  cases hd : natDec n with
  | nil => exact absurd hd h1
  | cons c r =>
      rw [hd] at h2
      simp only [List.all_cons, Bool.and_eq_true] at h2
      exact ⟨c, r, rfl, h2.1⟩

/-- The first byte of `intDec v` is a minus sign or a digit. -/
theorem intDec_head (v : Int) :
    ∃ c r, intDec v = c :: r ∧ (c = 45 ∨ isDigit c = true) := by
  unfold intDec
  by_cases hv : v < 0
  · rw [if_pos hv]
    exact ⟨45, _, rfl, Or.inl rfl⟩
  · rw [if_neg hv]
    obtain ⟨c, r, hd, hc⟩ := natDec_head v.toNat
    exact ⟨c, r, hd, Or.inr hc⟩

theorem intDec_ne_nil (v : Int) : intDec v ≠ [] := by
  obtain ⟨c, r, hd, _⟩ := intDec_head v
  rw [hd]
  simp

theorem one_le_length_intDec (v : Int) : 1 ≤ (intDec v).length := by
  obtain ⟨c, r, hd, _⟩ := intDec_head v
  rw [hd]
  simp

/-! ### The SNBT parser (`SNBTParser`) -/

/-- `consume(expected)`: fail at end of input or on a mismatch, else
return the position after the consumed character. -/
def consumeChar (input : List Nat) (pos : Nat) (expected : Nat) : Option Nat :=
  match input[pos]? with
  | some c => if c = expected then some (pos + 1) else none
  | none => none

/-- `tag.value` of a numeric scalar, as pushed by `parseTypedArray`. -/
def tagScalar : Tag → Option Int
  | .byte v => some v
  | .short v => some v
  | .int v => some v
  | .long v => some v
  | _ => none

/-- Type selection and numeric conversion at the end of `parseNumber`.
`run` is the digit run (which may contain dots), `suf` the lower-cased
suffix if one was consumed, `pos` the position after everything consumed.
Results whose JS value would be `NaN` (`parseInt` of an empty digit
prefix, under an integer type) or a float (`parseFloat`) are outside the
exact-integer model and are `none`; `BigInt(value)` genuinely throws on
an empty or dotted literal. -/
def finishNum (neg : Bool) (run : List Nat) (suf : Option Nat) (pos : Nat)
    (hasDot : Bool) : Option (Tag × Nat) :=
  let mag : Option Int :=
    match run.takeWhile isDigit with
    | [] => none
    | ds => some ((decVal ds : Nat) : Int)
  let sgn : Int → Int := fun v => if neg then -v else v
  match suf with
  | some c =>
      if c = 98 then mag.map (fun m => (Tag.byte (sgn m), pos))
      else if c = 115 then mag.map (fun m => (Tag.short (sgn m), pos))
      else if c = 108 then
        if hasDot || run.isEmpty then none
        else some (Tag.long (sgn ((decVal run : Nat) : Int)), pos)
      else none
  | none =>
      if hasDot then none
      else mag.map (fun m => (Tag.int (sgn m), pos))

/-- The body of `parseNumber` after the sign check: the digit-and-dot
run, then the optional suffix. -/
def snbtNumGo (input : List Nat) (pos1 : Nat) (neg : Bool) : Option (Tag × Nat) :=
  let run := (input.drop pos1).takeWhile isNumChar
  let pos2 := pos1 + run.length
  let hasDot : Bool := decide (46 ∈ run)
  match input[pos2]? with
  | some c =>
      if isSufByte c then finishNum neg run (some (lowerChar c)) (pos2 + 1) hasDot
      else finishNum neg run none pos2 hasDot
  | none => finishNum neg run none pos2 hasDot

/-- `parseNumber()`: optional minus sign, a run of digits and dots, an
optional one-letter suffix. -/
def snbtParseNumber (input : List Nat) (pos : Nat) : Option (Tag × Nat) :=
  if input[pos]? = some 45 then snbtNumGo input (pos + 1) true
  else snbtNumGo input pos false

/-- The `parseString` loop: content up to the closing quote, decoding
backslash escapes.  The loop advances by at least one position per step,
so `input.length + 1` fuel (used by the entry point) never runs out. -/
def snbtQuotedLoop : Nat → List Nat → Nat → Nat → Option (List Nat × Nat)
  | 0, _, _, _ => none
  | fuel + 1, input, pos, quote =>
      match input[pos]? with
      | none => none
      | some c =>
          if c = quote then some ([], pos + 1)
          else if c = 92 then
            match input[pos + 1]? with
            | none => none
            | some e =>
                let d := if e = 110 then 10 else if e = 116 then 9
                  else if e = 114 then 13 else e
                (snbtQuotedLoop fuel input (pos + 2) quote).map
                  (fun r => (d :: r.1, r.2))
          else
            (snbtQuotedLoop fuel input (pos + 1) quote).map
              (fun r => (c :: r.1, r.2))

/-- `parseString()`: consume the quote character, then scan to its
match. -/
def snbtParseString (input : List Nat) (pos : Nat) : Option (List Nat × Nat) :=
  match input[pos]? with
  | none => none
  | some q => snbtQuotedLoop (input.length + 1) input (pos + 1) q

/-- `parseKey()`: skip whitespace, then a quoted string or a (possibly
empty) run of bare-key characters. -/
def snbtParseKey (input : List Nat) (pos : Nat) : Option (List Nat × Nat) :=
  let p := skipWs input pos
  if input[p]? = some 34 ∨ input[p]? = some 39 then snbtParseString input p
  else
    let k := (input.drop p).takeWhile isKeyChar
    some (k, p + k.length)

/-- The `parseTypedArray` loop: `parseNumber` elements with their `value`
pushed, comma-separated, up to (not consuming) the closing bracket. -/
def snbtTypedLoop : Nat → List Nat → Nat → Option (List Int × Nat)
  | 0, _, _ => none
  | fuel + 1, input, pos =>
      if input[pos]? = some 93 then some ([], pos)
      else
        let p1 := skipWs input pos
        match snbtParseNumber input p1 with
        | none => none
        | some (tg, p2) =>
            match tagScalar tg with
            | none => none
            | some v =>
                let p3 := skipWs input p2
                if input[p3]? = some 93 then some ([v], p3)
                else
                  match consumeChar input p3 44 with
                  | none => none
                  | some p4 =>
                      (snbtTypedLoop fuel input p4).map (fun r => (v :: r.1, r.2))

/-- Reinterpret a parsed item under the list entry running `listType`:
the JS list stores bare payloads, and a byte/short/int payload is a plain
number that re-tags freely; any other mismatch is representable in `Tag`
only when the types already agree. -/
def retype (et : TagType) (t : Tag) : Option Tag :=
  if typeOf t = et then some t
  else
    match et, t with
    | .tByte, .short v => some (.byte v)
    | .tByte, .int v => some (.byte v)
    | .tShort, .byte v => some (.short v)
    | .tShort, .int v => some (.short v)
    | .tInt, .byte v => some (.int v)
    | .tInt, .short v => some (.int v)
    | _, _ => none

/-- JS object insertion `compound[key] = value`: replace in place if the
key exists, else append. -/
def insertJS : List (List Nat × Tag) → List Nat → Tag → List (List Nat × Tag)
  | [], k, v => [(k, v)]
  | (k1, v1) :: rest, k, v =>
      if k1 = k then (k, v) :: rest else (k1, v1) :: insertJS rest k v

mutual

/-- `parseValue()`. -/
def snbtParseValue : Nat → List Nat → Nat → Option (Tag × Nat)
  | 0, _, _ => none
  | fuel + 1, input, pos =>
      let p := skipWs input pos
      if input[p]? = some 123 then snbtParseCompound fuel input p
      else if input[p]? = some 91 then snbtParseArray fuel input p
      else if input[p]? = some 34 ∨ input[p]? = some 39 then
        (snbtParseString input p).map (fun r => (Tag.string r.1, r.2))
      else snbtParseNumber input p
termination_by structural fuel _ _ => fuel

/-- `parseCompound()`. -/
def snbtParseCompound : Nat → List Nat → Nat → Option (Tag × Nat)
  | 0, _, _ => none
  | fuel + 1, input, pos =>
      match consumeChar input pos 123 with
      | none => none
      | some p1 =>
          let p2 := skipWs input p1
          if input[p2]? = some 125 then some (.compound [], p2 + 1)
          else snbtParseCompoundLoop fuel input p2 []
termination_by structural fuel _ _ => fuel

/-- The `parseCompound` entry loop. -/
def snbtParseCompoundLoop :
    Nat → List Nat → Nat → List (List Nat × Tag) → Option (Tag × Nat)
  | 0, _, _, _ => none
  | fuel + 1, input, pos, acc =>
      let p1 := skipWs input pos
      match snbtParseKey input p1 with
      | none => none
      | some (key, p2) =>
          let p3 := skipWs input p2
          match consumeChar input p3 58 with
          | none => none
          | some p4 =>
              let p5 := skipWs input p4
              match snbtParseValue fuel input p5 with
              | none => none
              | some (v, p6) =>
                  let acc2 := insertJS acc key v
                  let p7 := skipWs input p6
                  if input[p7]? = some 125 then some (.compound acc2, p7 + 1)
                  else
                    match consumeChar input p7 44 with
                    | none => none
                    | some p8 => snbtParseCompoundLoop fuel input p8 acc2
termination_by structural fuel _ _ _ => fuel

/-- `parseArray()`: the `B;`/`I;`/`L;` typed forms, the empty list (which
comes back with element type byte), or the regular list loop. -/
def snbtParseArray : Nat → List Nat → Nat → Option (Tag × Nat)
  | 0, _, _ => none
  | fuel + 1, input, pos =>
      match consumeChar input pos 91 with
      | none => none
      | some p1 =>
          let p2 := skipWs input p1
          if input[p2]? = some 66 then
            match consumeChar input (p2 + 1) 59 with
            | none => none
            | some p3 =>
                match snbtTypedLoop (input.length + 1) input (skipWs input p3) with
                | none => none
                | some (vs, p4) =>
                    (consumeChar input p4 93).map (fun p5 => (Tag.byteArray vs, p5))
          else if input[p2]? = some 73 then
            match consumeChar input (p2 + 1) 59 with
            | none => none
            | some p3 =>
                match snbtTypedLoop (input.length + 1) input (skipWs input p3) with
                | none => none
                | some (vs, p4) =>
                    (consumeChar input p4 93).map (fun p5 => (Tag.intArray vs, p5))
          else if input[p2]? = some 76 then
            match consumeChar input (p2 + 1) 59 with
            | none => none
            | some p3 =>
                match snbtTypedLoop (input.length + 1) input (skipWs input p3) with
                | none => none
                | some (vs, p4) =>
                    (consumeChar input p4 93).map (fun p5 => (Tag.longArray vs, p5))
          else
            let p3 := skipWs input p2
            if input[p3]? = some 93 then some (.list .tByte [], p3 + 1)
            else snbtParseListLoop fuel input p3 none []
termination_by structural fuel _ _ => fuel

/-- The regular-list loop. -/
def snbtParseListLoop :
    Nat → List Nat → Nat → Option TagType → List Tag → Option (Tag × Nat)
  | 0, _, _, _, _ => none
  | fuel + 1, input, pos, lt, acc =>
      let p1 := skipWs input pos
      match snbtParseValue fuel input p1 with
      | none => none
      | some (item, p2) =>
          let lt2 := lt.getD (typeOf item)
          match retype lt2 item with
          | none => none
          | some item2 =>
              let acc2 := acc ++ [item2]
              let p3 := skipWs input p2
              if input[p3]? = some 93 then some (.list lt2 acc2, p3 + 1)
              else
                match consumeChar input p3 44 with
                | none => none
                | some p4 => snbtParseListLoop fuel input p4 (some lt2) acc2
termination_by structural fuel _ _ _ _ => fuel

end

/-- `fromSNBT`: trim, skip leading whitespace, parse one value.
`2·length + 2` fuel covers the recursion on any emitted text (the parser
burns at most `needSV` units, bounded by twice the text length). -/
def fromSNBT (s : List Nat) : Option Tag :=
  let input := jsTrim s
  (snbtParseValue (2 * input.length + 2) input (skipWs input 0)).map Prod.fst

/-! ### The SNBT writer (`SNBTConverter.toSNBT`) -/

/-- `value.replace` doubling backslashes then escaping double quotes. -/
def escapeSNBT : List Nat → List Nat
  | [] => []
  | c :: rest =>
      (if c = 92 then [92, 92] else if c = 34 then [92, 34] else [c]) ++
        escapeSNBT rest

/-- Typed-array element join: each element rendered with the given
suffix, comma-separated. -/
def numJoin (suf : List Nat) : List Int → List Nat
  | [] => []
  | [v] => intDec v ++ suf
  | v :: w :: rest => intDec v ++ suf ++ [44] ++ numJoin suf (w :: rest)

/-- `join` of pre-rendered item texts: separator `,` followed by the
layout whitespace (empty when single-line, newline plus indent when
multiline). -/
def sepJoin (ws : List Nat) : List (List Nat) → List Nat
  | [] => []
  | [t] => t
  | t :: u :: rest => t ++ [44] ++ ws ++ sepJoin ws (u :: rest)

/-- `'  '.repeat(n)`. -/
def indentStr (n : Nat) : List Nat := List.replicate (2 * n) 32

/-- A compound key as emitted: bare when it matches the writer regex,
otherwise quoted verbatim (no escaping). -/
def keyStr (k : List Nat) : List Nat :=
  if bareKeyOk k then k else [34] ++ k ++ [34]

mutual

/-- `toSNBT(nbtData, indent)` on tags.  `none` marks the model boundary:
a float or double (the byte form of JS float printing is not modelled)
or a list whose items do not all carry the declared element type (the
writer would re-label raw payloads, leaving the `Tag`-representable
fragment).  Text lengths are byte lengths (JS counts UTF-16 units; the
two agree on ASCII). -/
def toSNBT : Tag → Nat → Option (List Nat)
  | .byte v, _ => some (intDec v ++ [98])
  | .short v, _ => some (intDec v ++ [115])
  | .int v, _ => some (intDec v)
  | .long v, _ => some (intDec v ++ [76])
  | .float _, _ => none
  | .double _, _ => none
  | .string s, _ => some ([34] ++ escapeSNBT s ++ [34])
  | .byteArray vs, _ => some ([91, 66, 59] ++ numJoin [98] vs ++ [93])
  | .intArray vs, _ => some ([91, 73, 59] ++ numJoin [] vs ++ [93])
  | .longArray vs, _ => some ([91, 76, 59] ++ numJoin [76] vs ++ [93])
  | .list _ [], _ => some [91, 93]
  | .list et (x :: xs), ind =>
      if (x :: xs).all (fun it => decide (typeOf it = et)) then
        match toSNBTList (x :: xs) (ind + 1) with
        | none => none
        | some texts =>
            if texts.all (fun t => t.length < 20) then
              some ([91] ++ (sepJoin [] texts ++ [93]))
            else
              some ([91] ++ ((10 :: indentStr (ind + 1)) ++
                (sepJoin (10 :: indentStr (ind + 1)) texts ++
                  ((10 :: indentStr ind) ++ [93]))))
      else none
  | .compound [], _ => some [123, 125]
  | .compound (e :: es), ind =>
      match toSNBTEntries (e :: es) (ind + 1) with
      | none => none
      | some texts =>
          if texts.all (fun t => t.length < 30) then
            some ([123] ++ (sepJoin [] texts ++ [125]))
          else
            some ([123] ++ ((10 :: indentStr (ind + 1)) ++
              (sepJoin (10 :: indentStr (ind + 1)) texts ++
                ((10 :: indentStr ind) ++ [125]))))

/-- The item texts of a list (each at `indent + 1`). -/
def toSNBTList : List Tag → Nat → Option (List (List Nat))
  | [], _ => some []
  | t :: rest, ind =>
      match toSNBT t ind with
      | none => none
      | some s =>
          match toSNBTList rest ind with
          | none => none
          | some ss => some (s :: ss)

/-- The `key:value` texts of a compound (values at `indent + 1`). -/
def toSNBTEntries : List (List Nat × Tag) → Nat → Option (List (List Nat))
  | [], _ => some []
  | (k, t) :: rest, ind =>
      match toSNBT t ind with
      | none => none
      | some s =>
          match toSNBTEntries rest ind with
          | none => none
          | some ss => some ((keyStr k ++ ([58] ++ s)) :: ss)

end

/-! ### The round-trip fragment -/

/-- Keys with no duplicates (JS object keys are unique). -/
def distinctKeys : List (List Nat) → Bool
  | [] => true
  | k :: rest => !(decide (k ∈ rest)) && distinctKeys rest

/-- A key the writer emits recoverably: either bare, or quoted with no
quote or backslash byte inside (the writer quotes without escaping). -/
def keyOk (k : List Nat) : Bool :=
  bareKeyOk k || k.all (fun c => !(c == 34) && !(c == 92))

mutual

/-- The fragment of tags on which the SNBT round trip holds: no floats
or doubles, byte/short/int values (and byte/int array elements) in their
nominal ranges, lists homogeneous with empty lists declared byte-typed,
and compound keys distinct and recoverable. -/
def snbtValid : Tag → Bool
  | .byte v => inRange 1 v
  | .short v => inRange 2 v
  | .int v => inRange 4 v
  | .long _ => true
  | .float _ => false
  | .double _ => false
  | .string _ => true
  | .byteArray vs => vs.all (inRange 1)
  | .intArray vs => vs.all (inRange 4)
  | .longArray _ => true
  | .list et [] => decide (et = .tByte)
  | .list et (x :: xs) =>
      (x :: xs).all (fun it => decide (typeOf it = et)) &&
        snbtValidItems (x :: xs)
  | .compound entries =>
      distinctKeys (entries.map Prod.fst) && snbtValidEntries entries

def snbtValidItems : List Tag → Bool
  | [] => true
  | t :: rest => snbtValid t && snbtValidItems rest

def snbtValidEntries : List (List Nat × Tag) → Bool
  | [] => true
  | (k, t) :: rest => keyOk k && snbtValid t && snbtValidEntries rest

end

mutual

/-- Parser fuel needed on the emitted text of a tag. -/
def needSV : Tag → Nat
  | .list _ [] => 2
  | .list _ (x :: xs) => 2 + needSList (x :: xs)
  | .compound [] => 2
  | .compound (e :: es) => 2 + needSEntries (e :: es)
  | .byteArray _ => 2
  | .intArray _ => 2
  | .longArray _ => 2
  | _ => 1

def needSList : List Tag → Nat
  | [] => 0
  | t :: rest => 1 + max (needSV t) (needSList rest)

def needSEntries : List (List Nat × Tag) → Nat
  | [] => 0
  | (_, t) :: rest => 1 + max (needSV t) (needSEntries rest)

end

/-- Positions where the digit and suffix lookahead of `parseNumber` finds
nothing to consume: end of input, a separator, a closing bracket or
brace, or whitespace — how every emitted value is followed. -/
def followB (input : List Nat) (p : Nat) : Bool :=
  match input[p]? with
  | none => true
  | some c => c == 44 || c == 93 || c == 125 || isWs c

/-- First bytes an emitted value text can have: `{`, `[`, `"`, `-`, or a
digit. -/
def valueStart : List Nat → Bool
  | [] => false
  | c :: _ => c == 123 || c == 91 || c == 34 || c == 45 || isDigit c

/-- First bytes an emitted `key:value` text can have: a bare-key head or
a quote. -/
def entryStart : List Nat → Bool
  | [] => false
  | c :: _ => isAlphaU c || c == 34

def headNonWs : List Nat → Bool
  | [] => false
  | c :: _ => !isWs c

def lastNonWs (s : List Nat) : Bool := headNonWs s.reverse

/-! ### Character-class and text-shape lemmas -/

theorem valueStart_facts {c : Nat} {r : List Nat}
    (h : valueStart (c :: r) = true) :
    isWs c = false ∧ c ≠ 66 ∧ c ≠ 73 ∧ c ≠ 76 ∧ c ≠ 93 ∧ c ≠ 125 := by
  simp only [valueStart, isDigit, Bool.or_eq_true, beq_iff_eq, Bool.and_eq_true,
    decide_eq_true_eq] at h
  refine ⟨?_, by omega, by omega, by omega, by omega, by omega⟩
  simp only [isWs, Bool.or_eq_false_iff, beq_eq_false_iff_ne, ne_eq]
  omega

theorem entryStart_facts {c : Nat} {r : List Nat}
    (h : entryStart (c :: r) = true) :
    isWs c = false ∧ c ≠ 125 := by
  simp only [entryStart, isAlphaU, Bool.or_eq_true, beq_iff_eq, Bool.and_eq_true,
    decide_eq_true_eq] at h
  refine ⟨?_, by omega⟩
  simp only [isWs, Bool.or_eq_false_iff, beq_eq_false_iff_ne, ne_eq]
  omega

theorem numStop_of_sep {c : Nat}
    (h : c = 44 ∨ c = 93 ∨ c = 125 ∨ isWs c = true) : isNumChar c = false := by
  simp only [isWs, Bool.or_eq_true, beq_iff_eq] at h
  simp only [isNumChar, isDigit, Bool.or_eq_false_iff, beq_eq_false_iff_ne, ne_eq,
    Bool.and_eq_false_iff, decide_eq_false_iff_not, not_le]
  omega

theorem sufStop_of_sep {c : Nat}
    (h : c = 44 ∨ c = 93 ∨ c = 125 ∨ isWs c = true) : isSufByte c = false := by
  simp only [isWs, Bool.or_eq_true, beq_iff_eq] at h
  simp only [isSufByte, Bool.or_eq_false_iff, beq_eq_false_iff_ne, ne_eq]
  omega

theorem followB_elim {input : List Nat} {p : Nat} (h : followB input p = true) :
    input[p]? = none ∨
      ∃ c, input[p]? = some c ∧ (c = 44 ∨ c = 93 ∨ c = 125 ∨ isWs c = true) := by
  unfold followB at h
  cases hp : input[p]? with
  | none => exact Or.inl rfl
  | some c =>
      rw [hp] at h
      simp only [Bool.or_eq_true, beq_iff_eq] at h
      exact Or.inr ⟨c, rfl, by tauto⟩

theorem followB_intro {input : List Nat} {p : Nat} {c : Nat}
    (hp : input[p]? = some c) (h : c = 44 ∨ c = 93 ∨ c = 125 ∨ isWs c = true) :
    followB input p = true := by
  unfold followB
  rw [hp]
  simp only [Bool.or_eq_true, beq_iff_eq]
  tauto

theorem followB_none {input : List Nat} {p : Nat} (hp : input[p]? = none) :
    followB input p = true := by
  unfold followB
  rw [hp]

theorem takeWhile_all {p : Nat → Bool} {a : List Nat} (h : a.all p = true) :
    a.takeWhile p = a := by
  have := takeWhile_append_all (p := p) (a := a) [] h
  simpa using this

theorem all_num_of_digits {ds : List Nat} (h : ds.all isDigit = true) :
    ds.all isNumChar = true := by
  rw [List.all_eq_true] at h ⊢
  intro x hx
  simp [isNumChar, h x hx]

theorem not46_of_digits {ds : List Nat} (h : ds.all isDigit = true) :
    ¬ (46 ∈ ds) := by
  intro hm
  rw [List.all_eq_true] at h
  have := h 46 hm
  simp [isDigit] at this

/-- The digit run consumed by `parseNumber` is exactly `ds` when the text
continues with a non-run character (or ends, with a separator or nothing
after). -/
theorem run_exact {input : List Nat} {p1 : Nat} {ds r : List Nat}
    (hseg : SegN input p1 (ds ++ r)) (hall : ds.all isNumChar = true)
    (hstop : (∃ c rest, r = c :: rest ∧ isNumChar c = false) ∨
      (r = [] ∧ followB input (p1 + ds.length) = true)) :
    (input.drop p1).takeWhile isNumChar = ds := by
  obtain ⟨post, hd⟩ := SegN.drop_eq hseg
  rcases hstop with ⟨c, rest, hr, hc⟩ | ⟨hr, hf⟩
  · rw [hd, hr, List.append_assoc, takeWhile_append_all _ hall]
    rw [show (c :: rest) ++ post = c :: (rest ++ post) from rfl,
      takeWhile_neg_head _ hc]
    simp
  · subst hr
    simp only [List.append_nil] at hd
    rw [hd, takeWhile_append_all _ hall]
    cases hpost : post with
    | nil => simp
    | cons c2 rest =>
        have hpk : input[p1 + ds.length]? = some c2 := by
          have h1 : (input.drop p1)[ds.length]? = input[p1 + ds.length]? := by
            rw [List.getElem?_drop]
          rw [← h1, hd, hpost, List.getElem?_append_right (le_refl _)]
          simp
        rcases followB_elim hf with hnone | ⟨c, hp, hsep⟩
        · rw [hpk] at hnone
          cases hnone
        · rw [hpk] at hp
          injection hp with hp
          subst hp
          rw [takeWhile_neg_head _ (numStop_of_sep hsep)]
          simp

theorem finishNum_byte {m : Nat} {neg : Bool} {pos : Nat} :
    finishNum neg (natDec m) (some 98) pos false =
      some (Tag.byte (if neg then -(m : Int) else (m : Int)), pos) := by
  obtain ⟨hne, hdig, hdv⟩ := natDec_spec m
  obtain ⟨c0, r0, hnd, _⟩ := natDec_head m
  unfold finishNum
  dsimp only
  rw [takeWhile_all hdig, hnd]
  dsimp only
  rw [← hnd, hdv]
  simp

theorem finishNum_short {m : Nat} {neg : Bool} {pos : Nat} :
    finishNum neg (natDec m) (some 115) pos false =
      some (Tag.short (if neg then -(m : Int) else (m : Int)), pos) := by
  obtain ⟨hne, hdig, hdv⟩ := natDec_spec m
  obtain ⟨c0, r0, hnd, _⟩ := natDec_head m
  unfold finishNum
  dsimp only
  rw [takeWhile_all hdig, hnd]
  dsimp only
  rw [← hnd, hdv]
  simp

theorem finishNum_int {m : Nat} {neg : Bool} {pos : Nat} :
    finishNum neg (natDec m) none pos false =
      some (Tag.int (if neg then -(m : Int) else (m : Int)), pos) := by
  obtain ⟨hne, hdig, hdv⟩ := natDec_spec m
  obtain ⟨c0, r0, hnd, _⟩ := natDec_head m
  unfold finishNum
  dsimp only
  rw [takeWhile_all hdig, hnd]
  dsimp only
  rw [← hnd, hdv]
  simp

theorem finishNum_long {m : Nat} {neg : Bool} {pos : Nat} :
    finishNum neg (natDec m) (some 108) pos false =
      some (Tag.long (if neg then -(m : Int) else (m : Int)), pos) := by
  obtain ⟨hne, hdig, hdv⟩ := natDec_spec m
  obtain ⟨c0, r0, hnd, _⟩ := natDec_head m
  have hie : (natDec m).isEmpty = false := by
    rw [hnd]
    rfl
  unfold finishNum
  dsimp only
  rw [hie, hdv]
  simp

/-- The post-sign body of `parseNumber` on an emitted digit run with
suffix. -/
theorem snbtNumGo_spec {m : Nat} {suf : List Nat} {mkT : Int → Tag} (neg : Bool)
    (hspec : (suf = [98] ∧ mkT = Tag.byte) ∨ (suf = [115] ∧ mkT = Tag.short) ∨
      (suf = [] ∧ mkT = Tag.int) ∨ (suf = [76] ∧ mkT = Tag.long))
    {input : List Nat} {pos1 : Nat}
    (hseg : SegN input pos1 (natDec m ++ suf))
    (hfol : followB input (pos1 + (natDec m ++ suf).length) = true) :
    snbtNumGo input pos1 neg =
      some (mkT (if neg then -(m : Int) else (m : Int)),
        pos1 + (natDec m ++ suf).length) := by
  obtain ⟨hne, hdig, hdv⟩ := natDec_spec m
  unfold snbtNumGo
  dsimp only
  rcases hspec with ⟨hsuf, hmk⟩ | ⟨hsuf, hmk⟩ | ⟨hsuf, hmk⟩ | ⟨hsuf, hmk⟩ <;>
    subst hsuf <;> subst hmk
  · have hrun : (input.drop pos1).takeWhile isNumChar = natDec m :=
      run_exact hseg (all_num_of_digits hdig) (Or.inl ⟨98, [], rfl, by decide⟩)
    have hpk : input[pos1 + (natDec m).length]? = some 98 :=
      SegN.peek (SegN.after hseg)
    rw [hrun, decide_eq_false (not46_of_digits hdig), hpk]
    dsimp only
    rw [if_pos (by decide : isSufByte 98 = true),
      show lowerChar 98 = 98 from rfl, finishNum_byte]
    simp
    omega
  · have hrun : (input.drop pos1).takeWhile isNumChar = natDec m :=
      run_exact hseg (all_num_of_digits hdig) (Or.inl ⟨115, [], rfl, by decide⟩)
    have hpk : input[pos1 + (natDec m).length]? = some 115 :=
      SegN.peek (SegN.after hseg)
    rw [hrun, decide_eq_false (not46_of_digits hdig), hpk]
    dsimp only
    rw [if_pos (by decide : isSufByte 115 = true),
      show lowerChar 115 = 115 from rfl, finishNum_short]
    simp
    omega
  · have hfol' : followB input (pos1 + (natDec m).length) = true := by
      simpa using hfol
    have hrun : (input.drop pos1).takeWhile isNumChar = natDec m :=
      run_exact hseg (all_num_of_digits hdig) (Or.inr ⟨rfl, by simpa using hfol⟩)
    rw [hrun, decide_eq_false (not46_of_digits hdig)]
    rcases followB_elim hfol' with hnone | ⟨c, hp, hsep⟩
    · rw [hnone]
      dsimp only
      rw [finishNum_int]
      simp
    · rw [hp]
      dsimp only
      rw [if_neg (by rw [sufStop_of_sep hsep]; exact Bool.false_ne_true),
        finishNum_int]
      simp
  · have hrun : (input.drop pos1).takeWhile isNumChar = natDec m :=
      run_exact hseg (all_num_of_digits hdig) (Or.inl ⟨76, [], rfl, by decide⟩)
    have hpk : input[pos1 + (natDec m).length]? = some 76 :=
      SegN.peek (SegN.after hseg)
    rw [hrun, decide_eq_false (not46_of_digits hdig), hpk]
    dsimp only
    rw [if_pos (by decide : isSufByte 76 = true),
      show lowerChar 76 = 108 from rfl, finishNum_long]
    simp
    omega

/-- `parseNumber` on an emitted integer literal `intDec v ++ suf`. -/
theorem snbtParseNumber_spec {v : Int} {suf : List Nat} {mkT : Int → Tag}
    (hspec : (suf = [98] ∧ mkT = Tag.byte) ∨ (suf = [115] ∧ mkT = Tag.short) ∨
      (suf = [] ∧ mkT = Tag.int) ∨ (suf = [76] ∧ mkT = Tag.long))
    {input : List Nat} {pos : Nat}
    (hseg : SegN input pos (intDec v ++ suf))
    (hfol : followB input (pos + (intDec v ++ suf).length) = true) :
    snbtParseNumber input pos = some (mkT v, pos + (intDec v ++ suf).length) := by
  unfold snbtParseNumber
  by_cases hv : v < 0
  · have hiv : intDec v = 45 :: natDec (-v).toNat := by
      unfold intDec
      rw [if_pos hv]
    rw [hiv] at hseg hfol ⊢
    rw [show (45 :: natDec (-v).toNat) ++ suf = 45 :: (natDec (-v).toNat ++ suf)
      from rfl] at hseg hfol ⊢
    have hp45 : input[pos]? = some 45 := SegN.peek hseg
    rw [if_pos hp45]
    have hgo := snbtNumGo_spec (m := (-v).toNat) true hspec
      (SegN.cons_tail hseg) (by
        have h1 : pos + (45 :: (natDec (-v).toNat ++ suf)).length =
            pos + 1 + (natDec (-v).toNat ++ suf).length := by
          simp only [List.length_cons]
          omega
        rw [h1] at hfol
        exact hfol)
    rw [hgo]
    have hval : (if (true : Bool) = true then -((((-v).toNat : Nat) : Int))
        else (((-v).toNat : Nat) : Int)) = v := by
      rw [if_pos rfl]
      omega
    rw [hval]
    have hlen : pos + 1 + (natDec (-v).toNat ++ suf).length =
        pos + (45 :: (natDec (-v).toNat ++ suf)).length := by
      simp only [List.length_cons]
      omega
    rw [hlen]
  · have hiv : intDec v = natDec v.toNat := by
      unfold intDec
      rw [if_neg hv]
    rw [hiv] at hseg hfol ⊢
    have hp : ¬ input[pos]? = some 45 := by
      obtain ⟨c, r, hnd, hc⟩ := natDec_head v.toNat
      rw [hnd] at hseg
      intro hcontra
      rw [show (c :: r) ++ suf = c :: (r ++ suf) from rfl] at hseg
      rw [SegN.peek hseg] at hcontra
      injection hcontra with hcontra
      simp only [isDigit, Bool.and_eq_true, decide_eq_true_eq] at hc
      omega
    rw [if_neg hp]
    have hgo := snbtNumGo_spec (m := v.toNat) false hspec hseg hfol
    rw [hgo]
    have hval : (if (false : Bool) = true then -(((v.toNat : Nat) : Int))
        else ((v.toNat : Nat) : Int)) = v := by
      rw [if_neg (by simp)]
      omega
    rw [hval]

/-! ### Quoted strings and keys -/

theorem escape_eq_self {k : List Nat}
    (h : k.all (fun c => !(c == 34) && !(c == 92)) = true) : escapeSNBT k = k := by
  induction k with
  | nil => rfl
  | cons c rest ih =>
      simp only [List.all_cons, Bool.and_eq_true, Bool.not_eq_true',
        beq_eq_false_iff_ne, ne_eq] at h
      unfold escapeSNBT
      rw [if_neg h.1.2, if_neg h.1.1, ih (by
        rw [List.all_eq_true]
        intro x hx
        have := h.2
        rw [List.all_eq_true] at this
        exact this x hx)]
      rfl

theorem snbtQuotedLoop_spec : ∀ (str : List Nat) (fuel : Nat) {input : List Nat}
    {pos : Nat}, (escapeSNBT str).length < fuel →
    SegN input pos (escapeSNBT str ++ [34]) →
    snbtQuotedLoop fuel input pos 34 =
      some (str, pos + (escapeSNBT str).length + 1) := by
  intro str
  induction str with
  | nil =>
      intro fuel input pos hf hseg
      cases fuel with
      | zero => omega
      | succ f =>
          unfold snbtQuotedLoop
          rw [SegN.peek (by simpa using hseg)]
          dsimp only
          rw [if_pos rfl]
          simp [escapeSNBT]
  | cons c rest ih =>
      intro fuel input pos hf hseg
      by_cases hc92 : c = 92
      · subst hc92
        have he : escapeSNBT (92 :: rest) = 92 :: (92 :: escapeSNBT rest) := by
          simp [escapeSNBT]
        rw [he] at hseg hf ⊢
        cases fuel with
        | zero => simp at hf
        | succ f =>
            unfold snbtQuotedLoop
            rw [show (92 :: (92 :: escapeSNBT rest)) ++ [34] =
              92 :: (92 :: (escapeSNBT rest ++ [34])) from rfl] at hseg
            rw [SegN.peek hseg]
            dsimp only
            rw [if_neg (by decide), if_pos rfl,
              SegN.peek (SegN.cons_tail hseg)]
            dsimp only
            rw [ih f (by simp only [List.length_cons] at hf; omega)
              (SegN.cons_tail (SegN.cons_tail hseg))]
            simp only [Option.map_some', Option.some.injEq, Prod.mk.injEq,
              List.length_cons, true_and]
            norm_num
            omega
      · by_cases hc34 : c = 34
        · subst hc34
          have he : escapeSNBT (34 :: rest) = 92 :: (34 :: escapeSNBT rest) := by
            simp [escapeSNBT]
          rw [he] at hseg hf ⊢
          cases fuel with
          | zero => simp at hf
          | succ f =>
              unfold snbtQuotedLoop
              rw [show (92 :: (34 :: escapeSNBT rest)) ++ [34] =
                92 :: (34 :: (escapeSNBT rest ++ [34])) from rfl] at hseg
              rw [SegN.peek hseg]
              dsimp only
              rw [if_neg (by decide), if_pos rfl,
                SegN.peek (SegN.cons_tail hseg)]
              dsimp only
              rw [ih f (by simp only [List.length_cons] at hf; omega)
                (SegN.cons_tail (SegN.cons_tail hseg))]
              simp only [Option.map_some', Option.some.injEq, Prod.mk.injEq,
                List.length_cons, true_and]
              norm_num
              omega
        · have he : escapeSNBT (c :: rest) = c :: escapeSNBT rest := by
            simp only [escapeSNBT]
            rw [if_neg hc92, if_neg hc34]
            rfl
          rw [he] at hseg hf ⊢
          cases fuel with
          | zero => simp at hf
          | succ f =>
              unfold snbtQuotedLoop
              rw [show (c :: escapeSNBT rest) ++ [34] =
                c :: (escapeSNBT rest ++ [34]) from rfl] at hseg
              rw [SegN.peek hseg]
              dsimp only
              rw [if_neg hc34, if_neg hc92]
              rw [ih f (by simp only [List.length_cons] at hf; omega) (SegN.cons_tail hseg)]
              simp only [Option.map_some', Option.some.injEq, Prod.mk.injEq,
                List.length_cons, true_and]
              omega

/-- `parseString` on an emitted quoted string. -/
theorem snbtParseString_spec {str input : List Nat} {pos : Nat}
    (hseg : SegN input pos (34 :: (escapeSNBT str ++ [34]))) :
    snbtParseString input pos =
      some (str, pos + ((escapeSNBT str).length + 2)) := by
  unfold snbtParseString
  rw [SegN.peek hseg]
  dsimp only
  have hb := SegN.bound (SegN.cons_tail hseg)
  simp only [List.length_append, List.length_cons] at hb
  rw [snbtQuotedLoop_spec str (input.length + 1) (by omega)
    (SegN.cons_tail hseg)]
  simp only [Option.some.injEq, Prod.mk.injEq, true_and]
  omega

theorem isAlphaU_facts {c : Nat} (h : isAlphaU c = true) :
    isWs c = false ∧ c ≠ 34 ∧ c ≠ 39 ∧ c ≠ 125 ∧ isKeyChar c = true := by
  simp only [isAlphaU, Bool.or_eq_true, Bool.and_eq_true, beq_iff_eq,
    decide_eq_true_eq] at h
  refine ⟨?_, by omega, by omega, by omega, ?_⟩
  · simp only [isWs, Bool.or_eq_false_iff, beq_eq_false_iff_ne, ne_eq]
    omega
  · simp only [isKeyChar, isDigit, Bool.or_eq_true, Bool.and_eq_true,
      beq_iff_eq, decide_eq_true_eq]
    omega

/-- `parseKey` on an emitted key followed by the colon. -/
theorem snbtParseKey_spec {k : List Nat} (hk : keyOk k = true)
    {input r : List Nat} {pos : Nat}
    (hseg : SegN input pos (keyStr k ++ (58 :: r))) :
    snbtParseKey input pos = some (k, pos + (keyStr k).length) := by
  unfold snbtParseKey
  dsimp only
  by_cases hb : bareKeyOk k = true
  · have hks : keyStr k = k := by
      unfold keyStr
      rw [if_pos hb]
    rw [hks] at hseg ⊢
    cases k with
    | nil => simp [bareKeyOk] at hb
    | cons c rest =>
        simp only [bareKeyOk, Bool.and_eq_true] at hb
        obtain ⟨hws, h34, h39, _, hkc⟩ := isAlphaU_facts hb.1
        rw [show (c :: rest) ++ (58 :: r) = c :: (rest ++ (58 :: r)) from rfl]
          at hseg
        rw [skipWs_nop hseg hws, SegN.peek hseg]
        rw [if_neg (by
          rintro (h | h) <;> injection h with h <;> omega)]
        obtain ⟨post, hd⟩ := SegN.drop_eq hseg
        rw [show c :: (rest ++ (58 :: r)) = (c :: rest) ++ (58 :: r) from rfl]
          at hd
        rw [hd, List.append_assoc, takeWhile_append_all _ (by
          simp only [List.all_cons, Bool.and_eq_true]
          exact ⟨hkc, hb.2⟩)]
        rw [show (58 :: r) ++ post = 58 :: (r ++ post) from rfl,
          takeWhile_neg_head _ (by decide)]
        simp
  · have hq : k.all (fun c => !(c == 34) && !(c == 92)) = true := by
      unfold keyOk at hk
      rw [Bool.or_eq_true] at hk
      tauto
    have hks : keyStr k = 34 :: (k ++ [34]) := by
      unfold keyStr
      rw [if_neg hb]
      rfl
    rw [hks] at hseg ⊢
    rw [show (34 :: (k ++ [34])) ++ (58 :: r) =
      34 :: ((k ++ [34]) ++ (58 :: r)) from rfl] at hseg
    rw [skipWs_nop hseg (by decide), SegN.peek hseg, if_pos (Or.inl rfl)]
    have hseg' : SegN input pos (34 :: (escapeSNBT k ++ [34])) := by
      rw [escape_eq_self hq]
      exact SegN.front (a := 34 :: (k ++ [34])) (b := 58 :: r) (by
        rw [show (34 :: (k ++ [34])) ++ (58 :: r) =
          34 :: ((k ++ [34]) ++ (58 :: r)) from rfl]
        exact hseg)
    rw [snbtParseString_spec hseg', escape_eq_self hq]
    simp

/-! ### Typed arrays -/

theorem numJoin_len_ge (suf : List Nat) :
    ∀ vs : List Int, vs.length ≤ (numJoin suf vs).length := by
  intro vs
  induction vs with
  | nil => simp [numJoin]
  | cons v rest ih =>
      cases rest with
      | nil =>
          unfold numJoin
          have := one_le_length_intDec v
          simp
          omega
      | cons w rest2 =>
          unfold numJoin
          have := one_le_length_intDec v
          simp only [List.length_cons, List.length_append] at ih ⊢
          omega

theorem isWs_45 : isWs 45 = false := rfl

theorem intDec_head_nonWs (v : Int) :
    ∃ c r, intDec v = c :: r ∧ isWs c = false ∧ c ≠ 93 ∧ c ≠ 123 ∧ c ≠ 91 ∧
      c ≠ 34 ∧ c ≠ 39 := by
  obtain ⟨c, r, hd, hc⟩ := intDec_head v
  refine ⟨c, r, hd, ?_⟩
  rcases hc with rfl | hdig
  · refine ⟨rfl, by omega, by omega, by omega, by omega, by omega⟩
  · simp only [isDigit, Bool.and_eq_true, decide_eq_true_eq] at hdig
    refine ⟨?_, by omega, by omega, by omega, by omega, by omega⟩
    simp only [isWs, Bool.or_eq_false_iff, beq_eq_false_iff_ne, ne_eq]
    omega

theorem snbtTypedLoop_spec {suf : List Nat} {mkT : Int → Tag}
    (hspec : (suf = [98] ∧ mkT = Tag.byte) ∨ (suf = [] ∧ mkT = Tag.int) ∨
      (suf = [76] ∧ mkT = Tag.long)) :
    ∀ (vs : List Int) {input : List Nat} {pos fuel : Nat},
    vs.length < fuel →
    SegN input pos (numJoin suf vs ++ [93]) →
    snbtTypedLoop fuel input pos = some (vs, pos + (numJoin suf vs).length) := by
  have hspec4 : (suf = [98] ∧ mkT = Tag.byte) ∨ (suf = [115] ∧ mkT = Tag.short) ∨
      (suf = [] ∧ mkT = Tag.int) ∨ (suf = [76] ∧ mkT = Tag.long) := by tauto
  have hscal : ∀ v : Int, tagScalar (mkT v) = some v := by
    intro v
    rcases hspec with ⟨_, rfl⟩ | ⟨_, rfl⟩ | ⟨_, rfl⟩ <;> rfl
  intro vs
  induction vs with
  | nil =>
      intro input pos fuel hf hseg
      cases fuel with
      | zero => omega
      | succ f =>
          unfold snbtTypedLoop
          rw [if_pos (SegN.peek (by simpa [numJoin] using hseg))]
          simp [numJoin]
  | cons v rest ih =>
      intro input pos fuel hf hseg
      cases fuel with
      | zero => omega
      | succ f =>
          obtain ⟨c0, r0, hd0, hws0, h93, _, _, _, _⟩ := intDec_head_nonWs v
          cases rest with
          | nil =>
              have hnj : numJoin suf [v] = intDec v ++ suf := rfl
              rw [hnj] at hseg ⊢
              have hsegn : SegN input pos (intDec v ++ suf) := SegN.front hseg
              have hpk93 : input[pos + (intDec v ++ suf).length]? = some 93 :=
                SegN.peek (SegN.after hseg)
              have hfol : followB input (pos + (intDec v ++ suf).length) = true :=
                followB_intro hpk93 (by tauto)
              have hnum := snbtParseNumber_spec hspec4 hsegn hfol
              have hhead : SegN input pos (c0 :: (r0 ++ suf ++ [93])) := by
                obtain ⟨pre, post, hbq, hoq⟩ := hseg
                refine ⟨pre, post, ?_, hoq⟩
                rw [hbq, hd0]
                simp
              unfold snbtTypedLoop
              rw [if_neg (by
                rw [SegN.peek hhead]
                intro hcon
                injection hcon with hcon
                omega)]
              dsimp only
              rw [skipWs_nop hhead hws0, hnum]
              dsimp only
              rw [hscal]
              dsimp only
              rw [skipWs_nop (SegN.after hseg) (by decide), if_pos hpk93]
          | cons w rest2 =>
              have hnj : numJoin suf (v :: w :: rest2) =
                  (intDec v ++ suf) ++ ((44 :: numJoin suf (w :: rest2))) := by
                show ((intDec v ++ suf) ++ [44]) ++ numJoin suf (w :: rest2) = _
                rw [List.append_assoc]
                rfl
              rw [hnj] at hseg ⊢
              rw [List.append_assoc] at hseg
              have hsegn : SegN input pos (intDec v ++ suf) := SegN.front hseg
              have hrest : SegN input (pos + (intDec v ++ suf).length)
                  (44 :: (numJoin suf (w :: rest2) ++ [93])) := by
                have := SegN.after hseg
                simpa using this
              have hpk44 : input[pos + (intDec v ++ suf).length]? = some 44 :=
                SegN.peek hrest
              have hfol : followB input (pos + (intDec v ++ suf).length) = true :=
                followB_intro hpk44 (by tauto)
              have hnum := snbtParseNumber_spec hspec4 hsegn hfol
              have hhead : SegN input pos
                  (c0 :: (r0 ++ suf ++ (44 :: (numJoin suf (w :: rest2) ++ [93])))) := by
                obtain ⟨pre, post, hbq, hoq⟩ := hseg
                refine ⟨pre, post, ?_, hoq⟩
                rw [hbq, hd0]
                simp
              unfold snbtTypedLoop
              rw [if_neg (by
                rw [SegN.peek hhead]
                intro hcon
                injection hcon with hcon
                omega)]
              dsimp only
              rw [skipWs_nop hhead hws0, hnum]
              dsimp only
              rw [hscal]
              dsimp only
              rw [skipWs_nop hrest (by decide)]
              rw [if_neg (by
                rw [SegN.peek hrest]
                intro hcon
                injection hcon with hcon
                cases hcon)]
              unfold consumeChar
              rw [SegN.peek hrest]
              dsimp only
              rw [if_pos rfl]
              dsimp only
              rw [ih (by simp only [List.length_cons] at hf ⊢; omega) (by
                have := SegN.cons_tail hrest
                simpa using this)]
              simp only [Option.map_some', Option.some.injEq, Prod.mk.injEq,
                List.length_cons, List.length_append, true_and]
              omega

/-! ### Unfolding equations and small structure lemmas -/

theorem parseValue_eq (fuel : Nat) (input : List Nat) (pos : Nat) :
    snbtParseValue (fuel + 1) input pos =
      (if input[skipWs input pos]? = some 123 then
        snbtParseCompound fuel input (skipWs input pos)
      else if input[skipWs input pos]? = some 91 then
        snbtParseArray fuel input (skipWs input pos)
      else if input[skipWs input pos]? = some 34 ∨
          input[skipWs input pos]? = some 39 then
        (snbtParseString input (skipWs input pos)).map
          (fun r => (Tag.string r.1, r.2))
      else snbtParseNumber input (skipWs input pos)) := by
  rw [snbtParseValue]

theorem parseCompound_eq (fuel : Nat) (input : List Nat) (pos : Nat) :
    snbtParseCompound (fuel + 1) input pos =
      (match consumeChar input pos 123 with
      | none => none
      | some p1 =>
          if input[skipWs input p1]? = some 125 then
            some (.compound [], skipWs input p1 + 1)
          else snbtParseCompoundLoop fuel input (skipWs input p1) []) := by
  rw [snbtParseCompound]

theorem parseCompoundLoop_eq (fuel : Nat) (input : List Nat) (pos : Nat)
    (acc : List (List Nat × Tag)) :
    snbtParseCompoundLoop (fuel + 1) input pos acc =
      (match snbtParseKey input (skipWs input pos) with
      | none => none
      | some (key, p2) =>
          match consumeChar input (skipWs input p2) 58 with
          | none => none
          | some p4 =>
              match snbtParseValue fuel input (skipWs input p4) with
              | none => none
              | some (v, p6) =>
                  if input[skipWs input p6]? = some 125 then
                    some (.compound (insertJS acc key v), skipWs input p6 + 1)
                  else
                    match consumeChar input (skipWs input p6) 44 with
                    | none => none
                    | some p8 =>
                        snbtParseCompoundLoop fuel input p8 (insertJS acc key v)) := by
  rw [snbtParseCompoundLoop]

theorem parseArray_eq (fuel : Nat) (input : List Nat) (pos : Nat) :
    snbtParseArray (fuel + 1) input pos =
      (match consumeChar input pos 91 with
      | none => none
      | some p1 =>
          if input[skipWs input p1]? = some 66 then
            match consumeChar input (skipWs input p1 + 1) 59 with
            | none => none
            | some p3 =>
                match snbtTypedLoop (input.length + 1) input (skipWs input p3) with
                | none => none
                | some (vs, p4) =>
                    (consumeChar input p4 93).map (fun p5 => (Tag.byteArray vs, p5))
          else if input[skipWs input p1]? = some 73 then
            match consumeChar input (skipWs input p1 + 1) 59 with
            | none => none
            | some p3 =>
                match snbtTypedLoop (input.length + 1) input (skipWs input p3) with
                | none => none
                | some (vs, p4) =>
                    (consumeChar input p4 93).map (fun p5 => (Tag.intArray vs, p5))
          else if input[skipWs input p1]? = some 76 then
            match consumeChar input (skipWs input p1 + 1) 59 with
            | none => none
            | some p3 =>
                match snbtTypedLoop (input.length + 1) input (skipWs input p3) with
                | none => none
                | some (vs, p4) =>
                    (consumeChar input p4 93).map (fun p5 => (Tag.longArray vs, p5))
          else
            if input[skipWs input (skipWs input p1)]? = some 93 then
              some (.list .tByte [], skipWs input (skipWs input p1) + 1)
            else snbtParseListLoop fuel input (skipWs input (skipWs input p1)) none []) := by
  rw [snbtParseArray]

theorem parseListLoop_eq (fuel : Nat) (input : List Nat) (pos : Nat)
    (lt : Option TagType) (acc : List Tag) :
    snbtParseListLoop (fuel + 1) input pos lt acc =
      (match snbtParseValue fuel input (skipWs input pos) with
      | none => none
      | some (item, p2) =>
          match retype (lt.getD (typeOf item)) item with
          | none => none
          | some item2 =>
              if input[skipWs input p2]? = some 93 then
                some (.list (lt.getD (typeOf item)) (acc ++ [item2]),
                  skipWs input p2 + 1)
              else
                match consumeChar input (skipWs input p2) 44 with
                | none => none
                | some p4 =>
                    snbtParseListLoop fuel input p4 (some (lt.getD (typeOf item)))
                      (acc ++ [item2])) := by
  rw [snbtParseListLoop]

theorem insertJS_append {acc : List (List Nat × Tag)} {k : List Nat} {v : Tag}
    (h : ¬ k ∈ acc.map Prod.fst) : insertJS acc k v = acc ++ [(k, v)] := by
  induction acc with
  | nil => rfl
  | cons e rest ih =>
      obtain ⟨k1, v1⟩ := e
      simp only [List.map_cons, List.mem_cons] at h
      unfold insertJS
      rw [if_neg (by
        intro hcon
        exact h (Or.inl hcon.symm))]
      rw [ih (by intro hcon; exact h (Or.inr hcon))]
      rfl

theorem retype_self {et : TagType} {t : Tag} (h : typeOf t = et) :
    retype et t = some t := by
  unfold retype
  rw [if_pos h]

theorem sepJoin_len_mono (ws : List Nat) :
    ∀ texts : List (List Nat),
      (sepJoin [] texts).length ≤ (sepJoin ws texts).length := by
  intro texts
  induction texts with
  | nil => exact Nat.le_refl _
  | cons t rest ih =>
      cases rest with
      | nil => exact Nat.le_refl _
      | cons u rest2 =>
          unfold sepJoin
          simp only [List.length_append, List.length_cons, List.length_nil]
          omega

theorem indentStr_ws (n : Nat) : (indentStr n).all isWs = true := by
  rw [List.all_eq_true]
  intro x hx
  rw [List.eq_of_mem_replicate hx]
  rfl

theorem nlIndent_ws (n : Nat) : (10 :: indentStr n).all isWs = true := by
  simp only [List.all_cons, Bool.and_eq_true]
  exact ⟨rfl, indentStr_ws n⟩

theorem headNonWs_of_valueStart {s : List Nat} (h : valueStart s = true) :
    headNonWs s = true := by
  cases s with
  | nil => simp [valueStart] at h
  | cons c r =>
      obtain ⟨hws, _⟩ := valueStart_facts h
      simp [headNonWs, hws]

theorem headNonWs_of_entryStart {s : List Nat} (h : entryStart s = true) :
    headNonWs s = true := by
  cases s with
  | nil => simp [entryStart] at h
  | cons c r =>
      obtain ⟨hws, _⟩ := entryStart_facts h
      simp [headNonWs, hws]

theorem jsTrim_eq_self {s : List Nat} (h1 : headNonWs s = true)
    (h2 : lastNonWs s = true) : jsTrim s = s := by
  unfold jsTrim
  have hdw : s.dropWhile isWs = s := by
    cases s with
    | nil => rfl
    | cons c r =>
        simp only [headNonWs, Bool.not_eq_true'] at h1
        rw [List.dropWhile_cons, if_neg (by rw [h1]; exact Bool.false_ne_true)]
  rw [hdw]
  unfold lastNonWs at h2
  have hrw : s.reverse.dropWhile isWs = s.reverse := by
    cases hr : s.reverse with
    | nil => rfl
    | cons c r =>
        rw [hr] at h2
        simp only [headNonWs, Bool.not_eq_true'] at h2
        rw [List.dropWhile_cons, if_neg (by rw [h2]; exact Bool.false_ne_true)]
  rw [hrw, List.reverse_reverse]

theorem lastNonWs_concat {a : List Nat} {c : Nat} (h : isWs c = false) :
    lastNonWs (a ++ [c]) = true := by
  unfold lastNonWs
  rw [List.reverse_append]
  simp [headNonWs, h]

theorem lastNonWs_intDec (v : Int) : lastNonWs (intDec v) = true := by
  have hall : ∀ m : Nat, lastNonWs (natDec m) = true := by
    intro m
    obtain ⟨hne, hdig, _⟩ := natDec_spec m
    cases hr : (natDec m).reverse with
    | nil =>
        exfalso
        apply hne
        have := congrArg List.reverse hr
        simpa using this
    | cons c r =>
        unfold lastNonWs
        rw [hr]
        have hm : c ∈ natDec m := by
          have : c ∈ (natDec m).reverse := by rw [hr]; exact List.mem_cons_self _ _
          simpa using this
        rw [List.all_eq_true] at hdig
        simp [headNonWs, isWs_of_digit (hdig c hm)]
  unfold intDec
  by_cases hv : v < 0
  · rw [if_pos hv]
    have := hall (-v).toNat
    unfold lastNonWs at this ⊢
    rw [List.reverse_cons]
    cases hr : (natDec (-v).toNat).reverse with
    | nil =>
        obtain ⟨hne, _, _⟩ := natDec_spec (-v).toNat
        exfalso
        apply hne
        have := congrArg List.reverse hr
        simpa using this
    | cons c r =>
        rw [hr] at this
        simpa [headNonWs] using this
  · rw [if_neg hv]
    exact hall v.toNat

theorem one_le_needSV (t : Tag) : 1 ≤ needSV t := by
  cases t with
  | list et items =>
      cases items <;> (simp only [needSV]; omega)
  | compound entries =>
      cases entries <;> (simp only [needSV]; omega)
  | _ => simp [needSV]

theorem distinctKeys_cons {k : List Nat} {ks : List (List Nat)}
    (h : distinctKeys (k :: ks) = true) :
    ¬ k ∈ ks ∧ distinctKeys ks = true := by
  unfold distinctKeys at h
  simp only [Bool.and_eq_true, Bool.not_eq_true', decide_eq_false_iff_not] at h
  exact h

/-! ### Round-trip statement forms -/

theorem some_pair_eq {α : Type} {x y : α} {a b : Nat} (hx : x = y) (hab : a = b) :
    (some (x, a) : Option (α × Nat)) = some (y, b) := by
  rw [hx, hab]

theorem consumeChar_eq {input : List Nat} {pos c : Nat} (hp : input[pos]? = some c) :
    consumeChar input pos c = some (pos + 1) := by
  unfold consumeChar
  rw [hp]
  dsimp only
  rw [if_pos rfl]

theorem valueStart_intDec (v : Int) (tail : List Nat) :
    valueStart (intDec v ++ tail) = true := by
  obtain ⟨c, r, hd, hc⟩ := intDec_head v
  rw [hd, show (c :: r) ++ tail = c :: (r ++ tail) from rfl]
  rcases hc with rfl | hdig
  · rfl
  · simp [valueStart, hdig]

/-- The parser recovers `t` from its emitted text wherever it sits,
provided the text is followed by a separator, bracket, whitespace or the
end of input. -/
def ParsesAs (t : Tag) (s : List Nat) : Prop :=
  ∀ input pos fuel, SegN input pos s →
    followB input (pos + s.length) = true → needSV t ≤ fuel →
    snbtParseValue fuel input pos = some (t, pos + s.length)

/-- The list loop consumes the joined item texts plus the closing
bracket, appending the items to its accumulator. -/
def ListLoopOK (et : TagType) (items : List Tag) (texts : List (List Nat)) : Prop :=
  ∀ w1 ws wend input pos fuel lt acc,
    w1.all isWs = true → ws.all isWs = true → wend.all isWs = true →
    SegN input pos (w1 ++ (sepJoin ws texts ++ (wend ++ [93]))) →
    needSList items ≤ fuel → (lt = none ∨ lt = some et) → items ≠ [] →
    snbtParseListLoop fuel input pos lt acc =
      some (.list (lt.getD et) (acc ++ items),
        pos + (w1.length + ((sepJoin ws texts).length + (wend.length + 1))))

/-- The compound loop consumes the joined entry texts plus the closing
brace, appending the entries to its accumulator. -/
def CompLoopOK (entries : List (List Nat × Tag)) (texts : List (List Nat)) : Prop :=
  ∀ w1 ws wend input pos fuel acc,
    w1.all isWs = true → ws.all isWs = true → wend.all isWs = true →
    SegN input pos (w1 ++ (sepJoin ws texts ++ (wend ++ [125]))) →
    needSEntries entries ≤ fuel →
    distinctKeys (entries.map Prod.fst) = true →
    (∀ k, k ∈ acc.map Prod.fst → ¬ k ∈ entries.map Prod.fst) →
    entries ≠ [] →
    snbtParseCompoundLoop fuel input pos acc =
      some (.compound (acc ++ entries),
        pos + (w1.length + ((sepJoin ws texts).length + (wend.length + 1))))

theorem ParsesAs_scalar {v : Int} {suf : List Nat} {mkT : Int → Tag}
    (hspec : (suf = [98] ∧ mkT = Tag.byte) ∨ (suf = [115] ∧ mkT = Tag.short) ∨
      (suf = [] ∧ mkT = Tag.int) ∨ (suf = [76] ∧ mkT = Tag.long))
    (hneed : needSV (mkT v) = 1) : ParsesAs (mkT v) (intDec v ++ suf) := by
  intro input pos fuel hseg hfol hfuel
  rw [hneed] at hfuel
  obtain ⟨f, rfl⟩ : ∃ f, fuel = f + 1 := ⟨fuel - 1, by omega⟩
  obtain ⟨c, r, hd, hws, h93, h123, h91, h34, h39⟩ := intDec_head_nonWs v
  have hsegc : SegN input pos (c :: (r ++ suf)) := by
    rw [hd, show (c :: r) ++ suf = c :: (r ++ suf) from rfl] at hseg
    exact hseg
  rw [parseValue_eq, skipWs_nop hsegc hws, SegN.peek hsegc]
  rw [if_neg (by intro hcon; injection hcon with hcon; exact h123 hcon),
    if_neg (by intro hcon; injection hcon with hcon; exact h91 hcon),
    if_neg (by
      rintro (hcon | hcon) <;> injection hcon with hcon
      · exact h34 hcon
      · exact h39 hcon)]
  exact snbtParseNumber_spec hspec hseg hfol

theorem numJoin_cons_shape (suf : List Nat) (vs : List Int) :
    ∃ c r, numJoin suf vs ++ [93] = c :: r ∧ isWs c = false := by
  cases vs with
  | nil => exact ⟨93, [], rfl, rfl⟩
  | cons v rest =>
      obtain ⟨c, r, hd, hws, _⟩ := intDec_head_nonWs v
      cases rest with
      | nil =>
          refine ⟨c, r ++ suf ++ [93], ?_, hws⟩
          rw [show numJoin suf [v] = intDec v ++ suf from rfl, hd]
          simp
      | cons w r2 =>
          refine ⟨c, r ++ suf ++ (44 :: numJoin suf (w :: r2)) ++ [93], ?_, hws⟩
          rw [show numJoin suf (v :: w :: r2) =
            intDec v ++ suf ++ (44 :: numJoin suf (w :: r2)) from by
              show ((intDec v ++ suf) ++ [44]) ++ numJoin suf (w :: r2) = _
              simp, hd]
          simp


theorem typedTail {vs : List Int} {suf : List Nat} {mkT : Int → Tag}
    (hspec : (suf = [98] ∧ mkT = Tag.byte) ∨ (suf = [] ∧ mkT = Tag.int) ∨
      (suf = [76] ∧ mkT = Tag.long))
    (mkA : List Int → Tag) {input : List Nat} {q : Nat}
    (hseg : SegN input q (numJoin suf vs ++ [93])) :
    (match snbtTypedLoop (input.length + 1) input (skipWs input q) with
     | none => none
     | some (vs2, p4) => (consumeChar input p4 93).map (fun p5 => (mkA vs2, p5))) =
      some (mkA vs, q + ((numJoin suf vs).length + 1)) := by
  obtain ⟨c, r, hcr, hws⟩ := numJoin_cons_shape suf vs
  have hsegc : SegN input q (c :: r) := by
    rw [hcr] at hseg
    exact hseg
  rw [skipWs_nop hsegc hws]
  have hb := SegN.bound hseg
  have hg := numJoin_len_ge suf vs
  simp only [List.length_append, List.length_cons, List.length_nil] at hb
  have hfuel : vs.length < input.length + 1 := by omega
  rw [snbtTypedLoop_spec hspec vs hfuel hseg]
  dsimp only
  have hpk : input[q + (numJoin suf vs).length]? = some 93 :=
    SegN.peek (SegN.after hseg)
  rw [consumeChar_eq hpk]
  simp only [Option.map_some']
  exact some_pair_eq rfl (by omega)

theorem valueStart_cons {s : List Nat} (h : valueStart s = true) :
    ∃ c r, s = c :: r ∧ isWs c = false ∧ c ≠ 66 ∧ c ≠ 73 ∧ c ≠ 76 ∧
      c ≠ 93 ∧ c ≠ 125 := by
  cases s with
  | nil => simp [valueStart] at h
  | cons c r => exact ⟨c, r, rfl, valueStart_facts h⟩

theorem entryStart_cons {s : List Nat} (h : entryStart s = true) :
    ∃ c r, s = c :: r ∧ isWs c = false ∧ c ≠ 125 := by
  cases s with
  | nil => simp [entryStart] at h
  | cons c r => exact ⟨c, r, rfl, entryStart_facts h⟩

theorem sepJoin_head (ws t1 : List Nat) (trest : List (List Nat)) (tail : List Nat) :
    ∃ r, sepJoin ws (t1 :: trest) ++ tail = t1 ++ r := by
  cases trest with
  | nil => exact ⟨tail, rfl⟩
  | cons u r2 =>
      refine ⟨[44] ++ (ws ++ (sepJoin ws (u :: r2) ++ tail)), ?_⟩
      show (((t1 ++ [44]) ++ ws) ++ sepJoin ws (u :: r2)) ++ tail = _
      simp [List.append_assoc]

theorem ParsesAs_typedArr {vs : List Int}
    {marker : Nat} {suf : List Nat} {mkT : Int → Tag} {mkA : List Int → Tag}
    (hm : (marker = 66 ∧ suf = [98] ∧ mkT = Tag.byte ∧ mkA = Tag.byteArray) ∨
          (marker = 73 ∧ suf = [] ∧ mkT = Tag.int ∧ mkA = Tag.intArray) ∨
          (marker = 76 ∧ suf = [76] ∧ mkT = Tag.long ∧ mkA = Tag.longArray)) :
    ParsesAs (mkA vs) (([91, marker, 59] ++ numJoin suf vs) ++ [93]) := by
  intro input pos fuel hseg hfol hfuel
  have hshape : (([91, marker, 59] ++ numJoin suf vs) ++ [93] : List Nat) =
      91 :: (marker :: (59 :: (numJoin suf vs ++ [93]))) := by simp
  rw [hshape] at hseg
  have hs2 := SegN.cons_tail hseg
  have hs3 := SegN.cons_tail hs2
  have hs4 := SegN.cons_tail hs3
  rcases hm with ⟨rfl, rfl, hT, rfl⟩ | ⟨rfl, rfl, hT, rfl⟩ | ⟨rfl, rfl, hT, rfl⟩
  · simp only [needSV] at hfuel
    obtain ⟨g, rfl⟩ : ∃ g, fuel = g + 2 := ⟨fuel - 2, by omega⟩
    rw [parseValue_eq, skipWs_nop hseg (by decide), SegN.peek hseg,
      if_neg (by decide), if_pos rfl, parseArray_eq, consumeChar_eq (SegN.peek hseg)]
    dsimp only
    rw [skipWs_nop hs2 (by decide), SegN.peek hs2, if_pos rfl,
      consumeChar_eq (SegN.peek hs3)]
    dsimp only
    rw [typedTail (Or.inl ⟨rfl, rfl⟩) Tag.byteArray hs4]
    exact some_pair_eq rfl (by
      simp only [List.length_append, List.length_cons, List.length_nil]
      omega)
  · simp only [needSV] at hfuel
    obtain ⟨g, rfl⟩ : ∃ g, fuel = g + 2 := ⟨fuel - 2, by omega⟩
    rw [parseValue_eq, skipWs_nop hseg (by decide), SegN.peek hseg,
      if_neg (by decide), if_pos rfl, parseArray_eq, consumeChar_eq (SegN.peek hseg)]
    dsimp only
    rw [skipWs_nop hs2 (by decide), SegN.peek hs2, if_neg (by decide), if_pos rfl,
      consumeChar_eq (SegN.peek hs3)]
    dsimp only
    rw [typedTail (Or.inr (Or.inl ⟨rfl, rfl⟩)) Tag.intArray hs4]
    exact some_pair_eq rfl (by
      simp only [List.length_append, List.length_cons, List.length_nil]
      omega)
  · simp only [needSV] at hfuel
    obtain ⟨g, rfl⟩ : ∃ g, fuel = g + 2 := ⟨fuel - 2, by omega⟩
    rw [parseValue_eq, skipWs_nop hseg (by decide), SegN.peek hseg,
      if_neg (by decide), if_pos rfl, parseArray_eq, consumeChar_eq (SegN.peek hseg)]
    dsimp only
    rw [skipWs_nop hs2 (by decide), SegN.peek hs2, if_neg (by decide),
      if_neg (by decide), if_pos rfl, consumeChar_eq (SegN.peek hs3)]
    dsimp only
    rw [typedTail (Or.inr (Or.inr ⟨rfl, rfl⟩)) Tag.longArray hs4]
    exact some_pair_eq rfl (by
      simp only [List.length_append, List.length_cons, List.length_nil]
      omega)

theorem list_value_pack {et : TagType} {items : List Tag} {texts : List (List Nat)}
    (hne : items ≠ []) (htne : texts ≠ [])
    (hvs : ∀ s, s ∈ texts → valueStart s = true)
    (hbound : needSList items ≤ 2 * (sepJoin [] texts).length + 1)
    (hloop : ListLoopOK et items texts)
    (w0 ws wend : List Nat)
    (hw0 : w0.all isWs = true) (hws : ws.all isWs = true)
    (hwend : wend.all isWs = true) {s : List Nat}
    (hs : s = [91] ++ (w0 ++ (sepJoin ws texts ++ (wend ++ [93])))) :
    valueStart s = true ∧ lastNonWs s = true ∧
      needSV (.list et items) ≤ 2 * s.length ∧ ParsesAs (.list et items) s := by
  subst hs
  obtain ⟨t1, trest, rfl⟩ : ∃ t1 trest, texts = t1 :: trest := by
    cases texts with
    | nil => exact absurd rfl htne
    | cons a b => exact ⟨a, b, rfl⟩
  obtain ⟨c1, t1r, rfl, hc1ws, h66, h73, h76, h93, h125⟩ :=
    valueStart_cons (hvs _ (List.mem_cons_self _ _))
  obtain ⟨x, xs, rfl⟩ : ∃ x xs, items = x :: xs := by
    cases items with
    | nil => exact absurd rfl hne
    | cons a b => exact ⟨a, b, rfl⟩
  obtain ⟨rr, hrr⟩ := sepJoin_head ws (c1 :: t1r) trest (wend ++ [93])
  refine ⟨rfl, ?_, ?_, ?_⟩
  · have hsplit : ([91] ++ (w0 ++ (sepJoin ws ((c1 :: t1r) :: trest) ++
        (wend ++ [93]))) : List Nat) =
        ([91] ++ (w0 ++ (sepJoin ws ((c1 :: t1r) :: trest) ++ wend))) ++ [93] := by
      simp [List.append_assoc]
    rw [hsplit]
    exact lastNonWs_concat (by decide)
  · have hmono := sepJoin_len_mono ws ((c1 :: t1r) :: trest)
    simp only [needSV]
    simp only [List.length_append, List.length_cons, List.length_nil]
    omega
  · intro input pos fuel hseg hfol hfuel
    simp only [needSV] at hfuel
    obtain ⟨g, rfl⟩ : ∃ g, fuel = g + 2 := ⟨fuel - 2, by omega⟩
    have hsegc : SegN input pos (91 :: (w0 ++ (sepJoin ws ((c1 :: t1r) :: trest) ++
        (wend ++ [93])))) := hseg
    rw [parseValue_eq, skipWs_nop hsegc (by decide), SegN.peek hsegc,
      if_neg (by decide), if_pos rfl, parseArray_eq, consumeChar_eq (SegN.peek hsegc)]
    dsimp only
    have hsA : SegN input (pos + 1) (w0 ++ (sepJoin ws ((c1 :: t1r) :: trest) ++
        (wend ++ [93]))) := SegN.cons_tail hsegc
    have hs1 : SegN input (pos + 1) (w0 ++ (c1 :: (t1r ++ rr))) := by
      rw [hrr] at hsA
      rw [show ((c1 :: t1r) ++ rr : List Nat) = c1 :: (t1r ++ rr) from rfl] at hsA
      exact hsA
    have hskw0 : skipWs input (pos + 1) = pos + 1 + w0.length :=
      skipWs_seg hs1 hw0 hc1ws
    have hs2 : SegN input (pos + 1 + w0.length) (c1 :: (t1r ++ rr)) :=
      SegN.after hs1
    rw [hskw0, skipWs_nop hs2 hc1ws, SegN.peek hs2,
      if_neg (by intro hcon; injection hcon with hcon; exact h66 hcon),
      if_neg (by intro hcon; injection hcon with hcon; exact h73 hcon),
      if_neg (by intro hcon; injection hcon with hcon; exact h76 hcon),
      if_neg (by intro hcon; injection hcon with hcon; exact h93 hcon)]
    have hseg' : SegN input (pos + 1 + w0.length)
        ([] ++ (sepJoin ws ((c1 :: t1r) :: trest) ++ (wend ++ [93]))) := by
      have hsB := SegN.cons_tail hsegc
      simpa using SegN.after hsB
    rw [hloop [] ws wend input (pos + 1 + w0.length) g none [] rfl hws hwend
      hseg' (by omega) (Or.inl rfl) (List.cons_ne_nil x xs)]
    exact some_pair_eq rfl (by
      simp only [List.length_append, List.length_cons, List.length_nil]
      omega)

theorem comp_value_pack {entries : List (List Nat × Tag)} {texts : List (List Nat)}
    (hne : entries ≠ []) (htne : texts ≠ [])
    (hvs : ∀ s, s ∈ texts → entryStart s = true)
    (hbound : needSEntries entries ≤ 2 * (sepJoin [] texts).length + 1)
    (hkeys : distinctKeys (entries.map Prod.fst) = true)
    (hloop : CompLoopOK entries texts)
    (w0 ws wend : List Nat)
    (hw0 : w0.all isWs = true) (hws : ws.all isWs = true)
    (hwend : wend.all isWs = true) {s : List Nat}
    (hs : s = [123] ++ (w0 ++ (sepJoin ws texts ++ (wend ++ [125])))) :
    valueStart s = true ∧ lastNonWs s = true ∧
      needSV (.compound entries) ≤ 2 * s.length ∧
      ParsesAs (.compound entries) s := by
  subst hs
  obtain ⟨t1, trest, rfl⟩ : ∃ t1 trest, texts = t1 :: trest := by
    cases texts with
    | nil => exact absurd rfl htne
    | cons a b => exact ⟨a, b, rfl⟩
  obtain ⟨c1, t1r, rfl, hc1ws, h125⟩ :=
    entryStart_cons (hvs _ (List.mem_cons_self _ _))
  obtain ⟨e, es, rfl⟩ : ∃ e es, entries = e :: es := by
    cases entries with
    | nil => exact absurd rfl hne
    | cons a b => exact ⟨a, b, rfl⟩
  obtain ⟨rr, hrr⟩ := sepJoin_head ws (c1 :: t1r) trest (wend ++ [125])
  refine ⟨rfl, ?_, ?_, ?_⟩
  · have hsplit : ([123] ++ (w0 ++ (sepJoin ws ((c1 :: t1r) :: trest) ++
        (wend ++ [125]))) : List Nat) =
        ([123] ++ (w0 ++ (sepJoin ws ((c1 :: t1r) :: trest) ++ wend))) ++ [125] := by
      simp [List.append_assoc]
    rw [hsplit]
    exact lastNonWs_concat (by decide)
  · have hmono := sepJoin_len_mono ws ((c1 :: t1r) :: trest)
    simp only [needSV]
    simp only [List.length_append, List.length_cons, List.length_nil]
    omega
  · intro input pos fuel hseg hfol hfuel
    simp only [needSV] at hfuel
    obtain ⟨g, rfl⟩ : ∃ g, fuel = g + 2 := ⟨fuel - 2, by omega⟩
    have hsegc : SegN input pos (123 :: (w0 ++ (sepJoin ws ((c1 :: t1r) :: trest) ++
        (wend ++ [125])))) := hseg
    rw [parseValue_eq, skipWs_nop hsegc (by decide), SegN.peek hsegc, if_pos rfl,
      parseCompound_eq, consumeChar_eq (SegN.peek hsegc)]
    dsimp only
    have hsA : SegN input (pos + 1) (w0 ++ (sepJoin ws ((c1 :: t1r) :: trest) ++
        (wend ++ [125]))) := SegN.cons_tail hsegc
    have hs1 : SegN input (pos + 1) (w0 ++ (c1 :: (t1r ++ rr))) := by
      rw [hrr] at hsA
      rw [show ((c1 :: t1r) ++ rr : List Nat) = c1 :: (t1r ++ rr) from rfl] at hsA
      exact hsA
    have hskw0 : skipWs input (pos + 1) = pos + 1 + w0.length :=
      skipWs_seg hs1 hw0 hc1ws
    have hs2 : SegN input (pos + 1 + w0.length) (c1 :: (t1r ++ rr)) :=
      SegN.after hs1
    rw [hskw0, SegN.peek hs2,
      if_neg (by intro hcon; injection hcon with hcon; exact h125 hcon)]
    have hseg' : SegN input (pos + 1 + w0.length)
        ([] ++ (sepJoin ws ((c1 :: t1r) :: trest) ++ (wend ++ [125]))) := by
      have hsB := SegN.cons_tail hsegc
      simpa using SegN.after hsB
    rw [hloop [] ws wend input (pos + 1 + w0.length) g [] rfl hws hwend
      hseg' (by omega) hkeys (by
        intro k hk
        simp at hk) (List.cons_ne_nil e es)]
    exact some_pair_eq rfl (by
      simp only [List.length_append, List.length_cons, List.length_nil]
      omega)

theorem listLoopOK_nil (et : TagType) : ListLoopOK et [] [] := by
  intro w1 ws wend input pos fuel lt acc h1 h2 h3 h4 h5 h6 hne
  exact absurd rfl hne

theorem compLoopOK_nil : CompLoopOK [] [] := by
  intro w1 ws wend input pos fuel acc h1 h2 h3 h4 h5 h6 h7 hne
  exact absurd rfl hne

theorem getD_eq_of_lt {lt : Option TagType} {et : TagType}
    (hlt : lt = none ∨ lt = some et) : lt.getD et = et := by
  rcases hlt with rfl | rfl <;> rfl

/-- One step of the regular-list loop: the head item text, then either
the closing bracket (after trailing layout whitespace) or a comma and
the rest. -/
theorem listLoop_build {et : TagType} {x : Tag} {xs : List Tag} {s1 : List Nat}
    {trest : List (List Nat)}
    (htx : typeOf x = et)
    (hvx : valueStart s1 = true)
    (hpx : ParsesAs x s1)
    (hlen : trest.length = xs.length)
    (hloopr : ListLoopOK et xs trest) :
    ListLoopOK et (x :: xs) (s1 :: trest) := by
  intro w1 ws wend input pos fuel lt acc hw1 hws hwend hseg hfuel hlt hne
  simp only [needSList] at hfuel
  obtain ⟨f, rfl⟩ : ∃ f, fuel = f + 1 := ⟨fuel - 1, by omega⟩
  have hfx : needSV x ≤ f := by omega
  have hfxs : needSList xs ≤ f := by omega
  obtain ⟨c1, s1r, rfl, hc1ws, _, _, _, h93, _⟩ := valueStart_cons hvx
  have hgd : lt.getD (typeOf x) = et := by
    rw [htx]
    exact getD_eq_of_lt hlt
  have hgd2 : lt.getD et = et := getD_eq_of_lt hlt
  cases trest with
  | nil =>
      have hxs : xs = [] := by
        cases xs with
        | nil => rfl
        | cons a b => simp at hlen
      subst hxs
      have hseg1 : SegN input pos (w1 ++ (c1 :: (s1r ++ (wend ++ [93])))) := hseg
      have hsk : skipWs input pos = pos + w1.length := skipWs_seg hseg1 hw1 hc1ws
      rw [parseListLoop_eq, hsk]
      have hsegT : SegN input (pos + w1.length) ((c1 :: s1r) ++ (wend ++ [93])) :=
        SegN.after hseg1
      have hsegItem : SegN input (pos + w1.length) (c1 :: s1r) := SegN.front hsegT
      have hsegEnd : SegN input (pos + w1.length + (c1 :: s1r).length)
          (wend ++ [93]) := SegN.after hsegT
      have hfol1 : followB input (pos + w1.length + (c1 :: s1r).length) = true := by
        cases wend with
        | nil => exact followB_intro (SegN.peek hsegEnd) (by tauto)
        | cons wc wr =>
            have hwc : isWs wc = true := by
              simp only [List.all_cons, Bool.and_eq_true] at hwend
              exact hwend.1
            exact followB_intro (SegN.peek hsegEnd) (by tauto)
      rw [hpx input (pos + w1.length) f hsegItem hfol1 hfx]
      dsimp only
      rw [hgd, retype_self htx]
      dsimp only
      have hsegEnd2 : SegN input (pos + w1.length + (c1 :: s1r).length)
          (wend ++ (93 :: [])) := hsegEnd
      have hsk2 : skipWs input (pos + w1.length + (c1 :: s1r).length) =
          pos + w1.length + (c1 :: s1r).length + wend.length :=
        skipWs_seg hsegEnd2 hwend rfl
      rw [hsk2]
      have hpk93 : input[pos + w1.length + (c1 :: s1r).length + wend.length]? =
          some 93 := by
        have := SegN.after hsegEnd2
        exact SegN.peek this
      rw [if_pos hpk93]
      refine some_pair_eq (by rw [hgd2]) ?_
      have hsj : sepJoin ws [(c1 :: s1r)] = c1 :: s1r := rfl
      rw [hsj]
      simp only [List.length_cons]
      omega
  | cons t2 tr2 =>
      obtain ⟨x2, xs2, rfl⟩ : ∃ x2 xs2, xs = x2 :: xs2 := by
        cases xs with
        | nil => simp at hlen
        | cons a b => exact ⟨a, b, rfl⟩
      have hshape : (sepJoin ws ((c1 :: s1r) :: t2 :: tr2) ++ (wend ++ [93])
          : List Nat) = (c1 :: s1r) ++
            ([44] ++ (ws ++ (sepJoin ws (t2 :: tr2) ++ (wend ++ [93])))) := by
        show ((((c1 :: s1r) ++ [44]) ++ ws) ++ sepJoin ws (t2 :: tr2)) ++
          (wend ++ [93]) = _
        simp [List.append_assoc]
      have hseg1 : SegN input pos (w1 ++ ((c1 :: s1r) ++
          ([44] ++ (ws ++ (sepJoin ws (t2 :: tr2) ++ (wend ++ [93])))))) := by
        rw [hshape] at hseg
        exact hseg
      have hseg1c : SegN input pos (w1 ++ (c1 :: (s1r ++
          ([44] ++ (ws ++ (sepJoin ws (t2 :: tr2) ++ (wend ++ [93]))))))) := hseg1
      have hsk : skipWs input pos = pos + w1.length := skipWs_seg hseg1c hw1 hc1ws
      rw [parseListLoop_eq, hsk]
      have hsegT : SegN input (pos + w1.length) ((c1 :: s1r) ++
          ([44] ++ (ws ++ (sepJoin ws (t2 :: tr2) ++ (wend ++ [93]))))) :=
        SegN.after hseg1
      have hsegItem : SegN input (pos + w1.length) (c1 :: s1r) := SegN.front hsegT
      have hsegSep : SegN input (pos + w1.length + (c1 :: s1r).length)
          (44 :: (ws ++ (sepJoin ws (t2 :: tr2) ++ (wend ++ [93])))) :=
        SegN.after hsegT
      have hfol1 : followB input (pos + w1.length + (c1 :: s1r).length) = true :=
        followB_intro (SegN.peek hsegSep) (by tauto)
      rw [hpx input (pos + w1.length) f hsegItem hfol1 hfx]
      dsimp only
      rw [hgd, retype_self htx]
      dsimp only
      rw [skipWs_nop hsegSep (by decide), SegN.peek hsegSep,
        if_neg (by decide), consumeChar_eq (SegN.peek hsegSep)]
      dsimp only
      have hsegRest : SegN input (pos + w1.length + (c1 :: s1r).length + 1)
          (ws ++ (sepJoin ws (t2 :: tr2) ++ (wend ++ [93]))) := by
        have := SegN.cons_tail hsegSep
        exact this
      rw [hloopr ws ws wend input (pos + w1.length + (c1 :: s1r).length + 1) f
        (some et) (acc ++ [x]) hws hws hwend hsegRest hfxs (Or.inr rfl)
        (List.cons_ne_nil x2 xs2)]
      refine some_pair_eq ?_ ?_
      · rw [hgd2]
        simp
      · have hlensj := congrArg List.length hshape
        simp only [List.length_append, List.length_cons, List.length_nil] at hlensj ⊢
        omega

theorem keyStr_shape {k : List Nat} (hk : keyOk k = true) :
    ∃ c r, keyStr k = c :: r ∧ isWs c = false ∧ c ≠ 125 := by
  unfold keyStr
  by_cases hb : bareKeyOk k = true
  · rw [if_pos hb]
    cases k with
    | nil => simp [bareKeyOk] at hb
    | cons c r =>
        simp only [bareKeyOk, Bool.and_eq_true] at hb
        obtain ⟨hws, _, _, h125, _⟩ := isAlphaU_facts hb.1
        exact ⟨c, r, rfl, hws, h125⟩
  · rw [if_neg hb]
    exact ⟨34, k ++ [34], by simp, by decide, by decide⟩

theorem entryStart_keyStr {k : List Nat} (hk : keyOk k = true) (tail : List Nat) :
    entryStart (keyStr k ++ tail) = true := by
  unfold keyStr
  by_cases hb : bareKeyOk k = true
  · rw [if_pos hb]
    cases k with
    | nil => simp [bareKeyOk] at hb
    | cons c r =>
        simp only [bareKeyOk, Bool.and_eq_true] at hb
        show entryStart (c :: (r ++ tail)) = true
        simp [entryStart, hb.1]
  · rw [if_neg hb]
    rfl

/-- One step of the compound-entry loop. -/
theorem compLoop_build {k : List Nat} {t : Tag} {es : List (List Nat × Tag)}
    {vt : List Nat} {trest : List (List Nat)}
    (hkOk : keyOk k = true)
    (hvt : valueStart vt = true)
    (hpt : ParsesAs t vt)
    (hlen : trest.length = es.length)
    (hloopr : CompLoopOK es trest) :
    CompLoopOK ((k, t) :: es) ((keyStr k ++ ([58] ++ vt)) :: trest) := by
  intro w1 ws wend input pos fuel acc hw1 hws hwend hseg hfuel hkeys hdisj hne
  simp only [needSEntries] at hfuel
  obtain ⟨f, rfl⟩ : ∃ f, fuel = f + 1 := ⟨fuel - 1, by omega⟩
  have hft : needSV t ≤ f := by omega
  have hfes : needSEntries es ≤ f := by omega
  simp only [List.map_cons] at hkeys
  obtain ⟨hknotin, hkeysrest⟩ := distinctKeys_cons hkeys
  have hknot : ¬ k ∈ acc.map Prod.fst := by
    intro hmem
    exact hdisj k hmem (by simp)
  obtain ⟨ck, rk, hks, hckws, hck125⟩ := keyStr_shape hkOk
  obtain ⟨cv, vr, rfl, hcvws, _, _, _, h93v, h125v⟩ := valueStart_cons hvt
  cases trest with
  | nil =>
      have hes : es = [] := by
        cases es with
        | nil => rfl
        | cons a b => simp at hlen
      subst hes
      have hseg0 : SegN input pos (w1 ++ ((keyStr k ++ ([58] ++ (cv :: vr))) ++
          (wend ++ [125]))) := hseg
      have hshape : ((keyStr k ++ ([58] ++ (cv :: vr))) ++ (wend ++ [125])
          : List Nat) = keyStr k ++ (58 :: ((cv :: vr) ++ (wend ++ [125]))) := by
        simp [List.append_assoc]
      rw [hshape] at hseg0
      have hseg0c : SegN input pos (w1 ++ (ck :: (rk ++
          (58 :: ((cv :: vr) ++ (wend ++ [125])))))) := by
        rw [hks] at hseg0
        exact hseg0
      have hsk : skipWs input pos = pos + w1.length := skipWs_seg hseg0c hw1 hckws
      rw [parseCompoundLoop_eq, hsk]
      have hsegKey : SegN input (pos + w1.length) (keyStr k ++
          (58 :: ((cv :: vr) ++ (wend ++ [125])))) := SegN.after hseg0
      rw [snbtParseKey_spec hkOk hsegKey]
      dsimp only
      have hsegColon : SegN input (pos + w1.length + (keyStr k).length)
          (58 :: ((cv :: vr) ++ (wend ++ [125]))) := SegN.after hsegKey
      rw [skipWs_nop hsegColon (by decide), consumeChar_eq (SegN.peek hsegColon)]
      dsimp only
      have hsegVal : SegN input (pos + w1.length + (keyStr k).length + 1)
          ((cv :: vr) ++ (wend ++ [125])) := SegN.cons_tail hsegColon
      have hsegItem : SegN input (pos + w1.length + (keyStr k).length + 1)
          (cv :: vr) := SegN.front hsegVal
      have hsegEnd : SegN input (pos + w1.length + (keyStr k).length + 1 +
          (cv :: vr).length) (wend ++ [125]) := SegN.after hsegVal
      have hfol1 : followB input (pos + w1.length + (keyStr k).length + 1 +
          (cv :: vr).length) = true := by
        cases wend with
        | nil => exact followB_intro (SegN.peek hsegEnd) (by tauto)
        | cons wc wr =>
            have hwc : isWs wc = true := by
              simp only [List.all_cons, Bool.and_eq_true] at hwend
              exact hwend.1
            exact followB_intro (SegN.peek hsegEnd) (by tauto)
      rw [skipWs_nop hsegItem hcvws,
        hpt input (pos + w1.length + (keyStr k).length + 1) f hsegItem hfol1 hft]
      dsimp only
      rw [insertJS_append hknot]
      have hsegEnd2 : SegN input (pos + w1.length + (keyStr k).length + 1 +
          (cv :: vr).length) (wend ++ (125 :: [])) := hsegEnd
      have hsk2 : skipWs input (pos + w1.length + (keyStr k).length + 1 +
          (cv :: vr).length) = pos + w1.length + (keyStr k).length + 1 +
          (cv :: vr).length + wend.length := skipWs_seg hsegEnd2 hwend rfl
      rw [hsk2, if_pos (SegN.peek (SegN.after hsegEnd2))]
      refine some_pair_eq rfl ?_
      have hsj : sepJoin ws [(keyStr k ++ ([58] ++ (cv :: vr)))] =
          keyStr k ++ ([58] ++ (cv :: vr)) := rfl
      rw [hsj]
      simp only [List.length_append, List.length_cons, List.length_nil]
      omega
  | cons t2 tr2 =>
      obtain ⟨e2, es2, rfl⟩ : ∃ e2 es2, es = e2 :: es2 := by
        cases es with
        | nil => simp at hlen
        | cons a b => exact ⟨a, b, rfl⟩
      have hshape : (sepJoin ws ((keyStr k ++ ([58] ++ (cv :: vr))) :: t2 :: tr2) ++
          (wend ++ [125]) : List Nat) = keyStr k ++ (58 :: ((cv :: vr) ++
            ([44] ++ (ws ++ (sepJoin ws (t2 :: tr2) ++ (wend ++ [125])))))) := by
        show ((((keyStr k ++ ([58] ++ (cv :: vr))) ++ [44]) ++ ws) ++
          sepJoin ws (t2 :: tr2)) ++ (wend ++ [125]) = _
        simp [List.append_assoc]
      have hseg0 : SegN input pos (w1 ++ (keyStr k ++ (58 :: ((cv :: vr) ++
          ([44] ++ (ws ++ (sepJoin ws (t2 :: tr2) ++ (wend ++ [125])))))))) := by
        rw [hshape] at hseg
        exact hseg
      have hseg0c : SegN input pos (w1 ++ (ck :: (rk ++ (58 :: ((cv :: vr) ++
          ([44] ++ (ws ++ (sepJoin ws (t2 :: tr2) ++ (wend ++ [125]))))))))) := by
        rw [hks] at hseg0
        exact hseg0
      have hsk : skipWs input pos = pos + w1.length := skipWs_seg hseg0c hw1 hckws
      rw [parseCompoundLoop_eq, hsk]
      have hsegKey : SegN input (pos + w1.length) (keyStr k ++ (58 :: ((cv :: vr) ++
          ([44] ++ (ws ++ (sepJoin ws (t2 :: tr2) ++ (wend ++ [125]))))))) :=
        SegN.after hseg0
      rw [snbtParseKey_spec hkOk hsegKey]
      dsimp only
      have hsegColon : SegN input (pos + w1.length + (keyStr k).length)
          (58 :: ((cv :: vr) ++ ([44] ++ (ws ++ (sepJoin ws (t2 :: tr2) ++
            (wend ++ [125])))))) := SegN.after hsegKey
      rw [skipWs_nop hsegColon (by decide), consumeChar_eq (SegN.peek hsegColon)]
      dsimp only
      have hsegVal : SegN input (pos + w1.length + (keyStr k).length + 1)
          ((cv :: vr) ++ ([44] ++ (ws ++ (sepJoin ws (t2 :: tr2) ++
            (wend ++ [125]))))) := SegN.cons_tail hsegColon
      have hsegItem : SegN input (pos + w1.length + (keyStr k).length + 1)
          (cv :: vr) := SegN.front hsegVal
      have hsegSep : SegN input (pos + w1.length + (keyStr k).length + 1 +
          (cv :: vr).length) (44 :: (ws ++ (sepJoin ws (t2 :: tr2) ++
            (wend ++ [125])))) := SegN.after hsegVal
      have hfol1 : followB input (pos + w1.length + (keyStr k).length + 1 +
          (cv :: vr).length) = true :=
        followB_intro (SegN.peek hsegSep) (by tauto)
      rw [skipWs_nop hsegItem hcvws,
        hpt input (pos + w1.length + (keyStr k).length + 1) f hsegItem hfol1 hft]
      dsimp only
      rw [insertJS_append hknot]
      rw [skipWs_nop hsegSep (by decide), SegN.peek hsegSep, if_neg (by decide),
        consumeChar_eq (SegN.peek hsegSep)]
      dsimp only
      have hsegRest : SegN input (pos + w1.length + (keyStr k).length + 1 +
          (cv :: vr).length + 1) (ws ++ (sepJoin ws (t2 :: tr2) ++
            (wend ++ [125]))) := SegN.cons_tail hsegSep
      have hdisj2 : ∀ k2, k2 ∈ (acc ++ [(k, t)]).map Prod.fst →
          ¬ k2 ∈ (e2 :: es2).map Prod.fst := by
        intro k2 hk2 hcon
        rw [List.map_append] at hk2
        rcases List.mem_append.mp hk2 with hk2 | hk2
        · exact hdisj k2 hk2 (by
            rw [List.map_cons]
            exact List.mem_cons_of_mem _ hcon)
        · have hk2k : k2 = k := by simpa using hk2
          subst hk2k
          exact hknotin hcon
      rw [hloopr ws ws wend input (pos + w1.length + (keyStr k).length + 1 +
        (cv :: vr).length + 1) f (acc ++ [(k, t)]) hws hws hwend hsegRest hfes
        hkeysrest hdisj2 (List.cons_ne_nil e2 es2)]
      refine some_pair_eq (by simp) ?_
      have hlensj := congrArg List.length hshape
      simp only [List.length_append, List.length_cons, List.length_nil] at hlensj ⊢
      omega

set_option maxHeartbeats 1000000 in
theorem snbt_aux : ∀ N : Nat,
    (∀ t : Tag, sizeOf t ≤ N → ∀ ind : Nat, snbtValid t = true →
      ∃ s, toSNBT t ind = some s ∧ valueStart s = true ∧ lastNonWs s = true ∧
        needSV t ≤ 2 * s.length ∧ ParsesAs t s) ∧
    (∀ items : List Tag, sizeOf items ≤ N → ∀ (et : TagType) (ind : Nat),
      items.all (fun it => decide (typeOf it = et)) = true →
      snbtValidItems items = true →
      ∃ texts, toSNBTList items ind = some texts ∧
        (∀ s, s ∈ texts → valueStart s = true) ∧ texts.length = items.length ∧
        needSList items ≤ 2 * (sepJoin [] texts).length + 1 ∧
        ListLoopOK et items texts) ∧
    (∀ entries : List (List Nat × Tag), sizeOf entries ≤ N → ∀ ind : Nat,
      snbtValidEntries entries = true →
      ∃ texts, toSNBTEntries entries ind = some texts ∧
        (∀ s, s ∈ texts → entryStart s = true) ∧ texts.length = entries.length ∧
        needSEntries entries ≤ 2 * (sepJoin [] texts).length + 1 ∧
        CompLoopOK entries texts) := by
  intro N
  induction N using Nat.strong_induction_on with
  | _ N ih =>
  refine ⟨?_, ?_, ?_⟩
  · intro t hsize ind hval
    cases t with
    | byte v =>
        refine ⟨intDec v ++ [98], by rw [toSNBT], valueStart_intDec v _,
          lastNonWs_concat (by decide), ?_, ParsesAs_scalar (Or.inl ⟨rfl, rfl⟩) rfl⟩
        have := one_le_length_intDec v
        simp only [needSV, List.length_append, List.length_cons, List.length_nil]
        omega
    | short v =>
        refine ⟨intDec v ++ [115], by rw [toSNBT], valueStart_intDec v _,
          lastNonWs_concat (by decide), ?_,
          ParsesAs_scalar (Or.inr (Or.inl ⟨rfl, rfl⟩)) rfl⟩
        have := one_le_length_intDec v
        simp only [needSV, List.length_append, List.length_cons, List.length_nil]
        omega
    | int v =>
        refine ⟨intDec v, by rw [toSNBT], ?_, lastNonWs_intDec v, ?_, ?_⟩
        · have := valueStart_intDec v []
          rwa [List.append_nil] at this
        · have := one_le_length_intDec v
          simp only [needSV]
          omega
        · have := ParsesAs_scalar (v := v) (Or.inr (Or.inr (Or.inl ⟨rfl, rfl⟩))) rfl
          rwa [List.append_nil] at this
    | long v =>
        refine ⟨intDec v ++ [76], by rw [toSNBT], valueStart_intDec v _,
          lastNonWs_concat (by decide), ?_,
          ParsesAs_scalar (Or.inr (Or.inr (Or.inr ⟨rfl, rfl⟩))) rfl⟩
        have := one_le_length_intDec v
        simp only [needSV, List.length_append, List.length_cons, List.length_nil]
        omega
    | float bits => simp [snbtValid] at hval
    | double bits => simp [snbtValid] at hval
    | string str =>
        refine ⟨[34] ++ escapeSNBT str ++ [34], by rw [toSNBT],
          by simp [valueStart], lastNonWs_concat (by decide), ?_, ?_⟩
        · simp only [needSV, List.length_append, List.length_cons, List.length_nil]
          omega
        · intro input pos fuel hseg hfol hfuel
          simp only [needSV] at hfuel
          obtain ⟨f, rfl⟩ : ∃ f, fuel = f + 1 := ⟨fuel - 1, by omega⟩
          have hsegc : SegN input pos (34 :: (escapeSNBT str ++ [34])) := by
            have hshape : (([34] ++ escapeSNBT str) ++ [34] : List Nat) =
                34 :: (escapeSNBT str ++ [34]) := by simp
            rwa [hshape] at hseg
          rw [parseValue_eq, skipWs_nop hsegc (by decide), SegN.peek hsegc,
            if_neg (by decide), if_neg (by decide), if_pos (Or.inl rfl),
            snbtParseString_spec hsegc]
          simp only [Option.map_some']
          exact some_pair_eq rfl (by
            simp only [List.length_append, List.length_cons, List.length_nil]
            omega)
    | byteArray vs =>
        refine ⟨[91, 66, 59] ++ numJoin [98] vs ++ [93], by rw [toSNBT],
          by simp [valueStart], lastNonWs_concat (by decide), ?_,
          ParsesAs_typedArr (Or.inl ⟨rfl, rfl, rfl, rfl⟩)⟩
        simp only [needSV, List.length_append, List.length_cons, List.length_nil]
        omega
    | intArray vs =>
        refine ⟨[91, 73, 59] ++ numJoin [] vs ++ [93], by rw [toSNBT],
          by simp [valueStart], lastNonWs_concat (by decide), ?_,
          ParsesAs_typedArr (Or.inr (Or.inl ⟨rfl, rfl, rfl, rfl⟩))⟩
        simp only [needSV, List.length_append, List.length_cons, List.length_nil]
        omega
    | longArray vs =>
        refine ⟨[91, 76, 59] ++ numJoin [76] vs ++ [93], by rw [toSNBT],
          by simp [valueStart], lastNonWs_concat (by decide), ?_,
          ParsesAs_typedArr (Or.inr (Or.inr ⟨rfl, rfl, rfl, rfl⟩))⟩
        simp only [needSV, List.length_append, List.length_cons, List.length_nil]
        omega
    | list et items =>
        cases items with
        | nil =>
            have het : et = .tByte := by simpa [snbtValid] using hval
            subst het
            refine ⟨[91, 93], by rw [toSNBT], rfl, by decide, by decide, ?_⟩
            intro input pos fuel hseg hfol hfuel
            simp only [needSV] at hfuel
            obtain ⟨g, rfl⟩ : ∃ g, fuel = g + 2 := ⟨fuel - 2, by omega⟩
            have hsegc : SegN input pos (91 :: (93 :: [])) := hseg
            have hs2 := SegN.cons_tail hsegc
            rw [parseValue_eq, skipWs_nop hsegc (by decide), SegN.peek hsegc,
              if_neg (by decide), if_pos rfl, parseArray_eq,
              consumeChar_eq (SegN.peek hsegc)]
            dsimp only
            simp only [skipWs_nop hs2 (by decide)]
            rw [SegN.peek hs2, if_neg (by decide), if_neg (by decide),
              if_neg (by decide), if_pos rfl]
            exact some_pair_eq rfl (by simp)
        | cons x xs =>
            simp only [snbtValid, Bool.and_eq_true] at hval
            obtain ⟨hhom, hitems⟩ := hval
            have hlt : sizeOf (x :: xs) < N := by
              have hs := Tag.list.sizeOf_spec et (x :: xs)
              omega
            obtain ⟨texts, htexts, hvs, hlentexts, hbound, hloop⟩ :=
              (ih _ hlt).2.1 (x :: xs) (le_refl _) et (ind + 1) hhom hitems
            have htne : texts ≠ [] := by
              intro hcon
              rw [hcon] at hlentexts
              simp at hlentexts
            by_cases hthr : texts.all (fun t => t.length < 20) = true
            · have hemit : toSNBT (.list et (x :: xs)) ind =
                  some ([91] ++ (sepJoin [] texts ++ [93])) := by
                rw [toSNBT, if_pos hhom, htexts]
                dsimp only
                rw [if_pos hthr]
              obtain ⟨hv1, hv2, hv3, hv4⟩ := list_value_pack (List.cons_ne_nil x xs)
                htne hvs hbound hloop [] [] [] rfl rfl rfl
                (s := [91] ++ (sepJoin [] texts ++ [93])) (by simp)
              exact ⟨_, hemit, hv1, hv2, hv3, hv4⟩
            · have hemit : toSNBT (.list et (x :: xs)) ind =
                  some ([91] ++ ((10 :: indentStr (ind + 1)) ++
                    (sepJoin (10 :: indentStr (ind + 1)) texts ++
                      ((10 :: indentStr ind) ++ [93])))) := by
                rw [toSNBT, if_pos hhom, htexts]
                dsimp only
                rw [if_neg hthr]
              obtain ⟨hv1, hv2, hv3, hv4⟩ := list_value_pack (List.cons_ne_nil x xs)
                htne hvs hbound hloop (10 :: indentStr (ind + 1))
                (10 :: indentStr (ind + 1)) (10 :: indentStr ind)
                (nlIndent_ws _) (nlIndent_ws _) (nlIndent_ws _)
                (s := [91] ++ ((10 :: indentStr (ind + 1)) ++
                  (sepJoin (10 :: indentStr (ind + 1)) texts ++
                    ((10 :: indentStr ind) ++ [93])))) rfl
              exact ⟨_, hemit, hv1, hv2, hv3, hv4⟩
    | compound entries =>
        cases entries with
        | nil =>
            refine ⟨[123, 125], by rw [toSNBT], rfl, by decide, by decide, ?_⟩
            intro input pos fuel hseg hfol hfuel
            simp only [needSV] at hfuel
            obtain ⟨g, rfl⟩ : ∃ g, fuel = g + 2 := ⟨fuel - 2, by omega⟩
            have hsegc : SegN input pos (123 :: (125 :: [])) := hseg
            have hs2 := SegN.cons_tail hsegc
            rw [parseValue_eq, skipWs_nop hsegc (by decide), SegN.peek hsegc,
              if_pos rfl, parseCompound_eq, consumeChar_eq (SegN.peek hsegc)]
            dsimp only
            rw [skipWs_nop hs2 (by decide), SegN.peek hs2, if_pos rfl]
            exact some_pair_eq rfl (by simp)
        | cons e es =>
            simp only [snbtValid, Bool.and_eq_true] at hval
            obtain ⟨hkeys, hentries⟩ := hval
            have hlt : sizeOf (e :: es) < N := by
              have hs := Tag.compound.sizeOf_spec (e :: es)
              omega
            obtain ⟨texts, htexts, hvs, hlentexts, hbound, hloop⟩ :=
              (ih _ hlt).2.2 (e :: es) (le_refl _) (ind + 1) hentries
            have htne : texts ≠ [] := by
              intro hcon
              rw [hcon] at hlentexts
              simp at hlentexts
            by_cases hthr : texts.all (fun t => t.length < 30) = true
            · have hemit : toSNBT (.compound (e :: es)) ind =
                  some ([123] ++ (sepJoin [] texts ++ [125])) := by
                rw [toSNBT, htexts]
                dsimp only
                rw [if_pos hthr]
              obtain ⟨hv1, hv2, hv3, hv4⟩ := comp_value_pack (List.cons_ne_nil e es)
                htne hvs hbound hkeys hloop [] [] []
                rfl rfl rfl (s := [123] ++ (sepJoin [] texts ++ [125])) (by simp)
              exact ⟨_, hemit, hv1, hv2, hv3, hv4⟩
            · have hemit : toSNBT (.compound (e :: es)) ind =
                  some ([123] ++ ((10 :: indentStr (ind + 1)) ++
                    (sepJoin (10 :: indentStr (ind + 1)) texts ++
                      ((10 :: indentStr ind) ++ [125])))) := by
                rw [toSNBT, htexts]
                dsimp only
                rw [if_neg hthr]
              obtain ⟨hv1, hv2, hv3, hv4⟩ := comp_value_pack (List.cons_ne_nil e es)
                htne hvs hbound hkeys hloop (10 :: indentStr (ind + 1))
                (10 :: indentStr (ind + 1)) (10 :: indentStr ind)
                (nlIndent_ws _) (nlIndent_ws _) (nlIndent_ws _)
                (s := [123] ++ ((10 :: indentStr (ind + 1)) ++
                  (sepJoin (10 :: indentStr (ind + 1)) texts ++
                    ((10 :: indentStr ind) ++ [125])))) rfl
              exact ⟨_, hemit, hv1, hv2, hv3, hv4⟩
  · intro items hsize et ind hhom hvalid
    cases items with
    | nil =>
        refine ⟨[], by rw [toSNBTList], by simp, rfl, ?_, listLoopOK_nil et⟩
        simp [needSList, sepJoin]
    | cons x xs =>
        simp only [List.all_cons, Bool.and_eq_true, decide_eq_true_eq] at hhom
        obtain ⟨htx, hhomr⟩ := hhom
        simp only [snbtValidItems, Bool.and_eq_true] at hvalid
        obtain ⟨hvx, hvxs⟩ := hvalid
        have hcs := List.cons.sizeOf_spec x xs
        have hltx : sizeOf x < N := by omega
        have hltxs : sizeOf xs < N := by omega
        obtain ⟨s1, hemit1, hv1, _, hneed1, hp1⟩ :=
          (ih _ hltx).1 x (le_refl _) ind hvx
        obtain ⟨trest, hemitr, hvsr, hlenr, hboundr, hloopr⟩ :=
          (ih _ hltxs).2.1 xs (le_refl _) et ind hhomr hvxs
        have hhomr2 : xs.all (fun it => decide (typeOf it = et)) = true := hhomr
        refine ⟨s1 :: trest, ?_, ?_, ?_, ?_,
          listLoop_build htx hv1 hp1 hlenr hloopr⟩
        · rw [toSNBTList, hemit1]
          dsimp only
          rw [hemitr]
        · intro s hs
          rcases List.mem_cons.mp hs with rfl | hs
          · exact hv1
          · exact hvsr s hs
        · simp [hlenr]
        · cases trest with
          | nil =>
              have hxs : xs = [] := by
                cases xs with
                | nil => rfl
                | cons a b => simp at hlenr
              subst hxs
              have hsj : sepJoin [] [s1] = s1 := rfl
              simp only [needSList, hsj]
              omega
          | cons t2 tr2 =>
              have hsjlen : (sepJoin [] (s1 :: t2 :: tr2)).length =
                  s1.length + 1 + (sepJoin [] (t2 :: tr2)).length := by
                show ((((s1 ++ [44]) ++ []) ++ sepJoin [] (t2 :: tr2))).length = _
                simp only [List.length_append, List.length_cons, List.length_nil]
              simp only [needSList] at hboundr ⊢
              rw [hsjlen]
              omega
  · intro entries hsize ind hvalid
    cases entries with
    | nil =>
        refine ⟨[], by rw [toSNBTEntries], by simp, rfl, ?_, compLoopOK_nil⟩
        simp [needSEntries, sepJoin]
    | cons e es =>
        obtain ⟨k, t⟩ := e
        simp only [snbtValidEntries, Bool.and_eq_true] at hvalid
        obtain ⟨⟨hkOk, hvt⟩, hves⟩ := hvalid
        have hcs := List.cons.sizeOf_spec (k, t) es
        have hps := Prod.mk.sizeOf_spec k t
        have hltt : sizeOf t < N := by omega
        have hltes : sizeOf es < N := by omega
        obtain ⟨vt, hemit1, hv1, _, hneed1, hp1⟩ :=
          (ih _ hltt).1 t (le_refl _) ind hvt
        obtain ⟨trest, hemitr, hvsr, hlenr, hboundr, hloopr⟩ :=
          (ih _ hltes).2.2 es (le_refl _) ind hves
        refine ⟨(keyStr k ++ ([58] ++ vt)) :: trest, ?_, ?_, ?_, ?_,
          compLoop_build hkOk hv1 hp1 hlenr hloopr⟩
        · rw [toSNBTEntries, hemit1]
          dsimp only
          rw [hemitr]
        · intro s hs
          rcases List.mem_cons.mp hs with rfl | hs
          · exact entryStart_keyStr hkOk _
          · exact hvsr s hs
        · simp [hlenr]
        · cases trest with
          | nil =>
              have hes : es = [] := by
                cases es with
                | nil => rfl
                | cons a b => simp at hlenr
              subst hes
              have hsj : sepJoin [] [(keyStr k ++ ([58] ++ vt))] =
                  keyStr k ++ ([58] ++ vt) := rfl
              simp only [needSEntries, hsj, List.length_append, List.length_cons,
                List.length_nil]
              omega
          | cons t2 tr2 =>
              have hsjlen : (sepJoin [] ((keyStr k ++ ([58] ++ vt)) :: t2 ::
                  tr2)).length = (keyStr k ++ ([58] ++ vt)).length + 1 +
                  (sepJoin [] (t2 :: tr2)).length := by
                show (((((keyStr k ++ ([58] ++ vt)) ++ [44]) ++ []) ++
                  sepJoin [] (t2 :: tr2))).length = _
                simp only [List.length_append, List.length_cons, List.length_nil]
              simp only [needSEntries] at hboundr ⊢
              rw [hsjlen]
              simp only [List.length_append, List.length_cons, List.length_nil]
              omega

/-- C3 counterexample: the empty List with element type Int emits `[]`,
which parses back as an empty list with element type Byte - `parseArray`
hard-codes `{type: 'byte'}` for `[]` - so `fromSNBT(toSNBT(x)) == x`
fails on it even though floats, special characters and deep nesting are
absent. -/
theorem c3_snbt_roundtrip_counterexample :
    toSNBT (.list .tInt []) 0 = some [91, 93] ∧
    fromSNBT [91, 93] = some (.list .tByte []) ∧
    ((Tag.list .tByte [] = Tag.list .tInt []) → False) := by
  refine ⟨by rw [toSNBT], by rfl, ?_⟩
  intro h
  injection h with h1 _
  cases h1

/-- C3 (amended): for every tag in the recoverable fragment - no floats
or doubles, byte/short/int scalars and byte/int array elements in their
nominal ranges, homogeneous lists whose empty lists are byte-typed, and
compounds with distinct writer-recoverable keys - `toSNBT` succeeds and
`fromSNBT` parses the text back to exactly the same tag, at any nesting
depth and in both the single-line and the indented multi-line layout. -/
theorem c3_snbt_roundtrip (t : Tag) (h : snbtValid t = true) :
    ∃ s, toSNBT t 0 = some s ∧ fromSNBT s = some t := by
  obtain ⟨s, hemit, hvstart, hlast, hneed, hparse⟩ :=
    (snbt_aux (sizeOf t)).1 t (le_refl _) 0 h
  refine ⟨s, hemit, ?_⟩
  unfold fromSNBT
  dsimp only
  rw [jsTrim_eq_self (headNonWs_of_valueStart hvstart) hlast]
  obtain ⟨c, r, rfl, hcws, _⟩ := valueStart_cons hvstart
  rw [skipWs_nop (SegN.refl _) hcws]
  rw [hparse (c :: r) 0 (2 * (c :: r).length + 2) (SegN.refl _)
    (followB_none (List.getElem?_eq_none (by omega))) (by omega)]
  rfl

/-- C3 witness: a concrete compound with a byte, an int list and a
quoted-key string entry makes the round trip. -/
theorem c3_snbt_roundtrip_witness :
    snbtValid (Tag.compound [([104, 105], .byte 1),
      ([108, 105, 115, 116], .list .tInt [.int 300, .int (-7)]),
      ([33], .string [97, 98])]) = true ∧
    ∃ s, toSNBT (Tag.compound [([104, 105], .byte 1),
      ([108, 105, 115, 116], .list .tInt [.int 300, .int (-7)]),
      ([33], .string [97, 98])]) 0 = some s ∧
      fromSNBT s = some (Tag.compound [([104, 105], .byte 1),
        ([108, 105, 115, 116], .list .tInt [.int 300, .int (-7)]),
        ([33], .string [97, 98])]) :=
  ⟨by decide, c3_snbt_roundtrip _ (by decide)⟩

end MCNBT
